import Mathlib

/-!
Shallow embedding of the Toolbox repository's `List.h` (doubly linked list) and
`Sorting.h` (generic index-based sorting) from `src/Toolbox`, instantiated at
element type `Nat` (the C++ code is a template; every claim scenario uses
integers).  Machine indices (`size_t`) are modelled as `Nat`, with the one
place where `size_t` wraparound is observable (`size - 1` on `size == 0`)
modelled explicitly modulo `2 ^ 64`.  Operations that throw
`std::runtime_error` are modelled in `Except OOB`, where `OOB` carries the
offending index and the current size exactly as the thrown message does.
-/

deriving instance DecidableEq for Except

namespace Toolbox

/-- The payload of the `std::runtime_error` thrown by `List`: the message
"ERROR: Index {Index} is out of bounds of the list of size {size}." carries
the offending index and the current size. -/
structure OOB where
  index : Nat
  size : Nat
deriving DecidableEq, Repr

/-- `size_t` modulus: `2 ^ 64`. -/
def U64 : Nat := 2 ^ 64

/-- Reading `Collection[i]` at the value level: list indexing (the default is
never reached at in-bounds indices). -/
def rd (l : List Nat) (i : Nat) : Nat := l.getD i 0

/-- Writing `Collection[i] = v` at the value level. -/
def wr (l : List Nat) (i : Nat) (v : Nat) : List Nat := l.set i v

/-- The three-line element swap used throughout (`Swapped = a; a = b; b = Swapped`):
both reads happen on the original list, matching the C++ temporary. -/
def swapAt (l : List Nat) (i j : Nat) : List Nat := wr (wr l i (rd l j)) j (rd l i)

/-! ### The node walk of `List<Type>::Node`

A live node of a list of length `n` is identified with its position
`some i` (`i < n`); `none` is the null node (`Node(nullptr)`) and also marks
a null-pointer dereference (undefined behaviour in C++, never reached from
well-formed calls below).  `operator++` follows `next` and becomes null at the
tail; `operator--` follows `previous` and becomes null at the head. -/

/-- One step of `Node::operator++`: null stays null, the tail's `next` is null. -/
def stepF (n : Nat) : Option Nat → Option Nat
  | none => none
  | some i => if i + 1 < n then some (i + 1) else none

/-- One step of `Node::operator--`: null stays null, the head's `previous` is null. -/
def stepB : Option Nat → Option Nat
  | none => none
  | some i => if i = 0 then none else some (i - 1)

/-- `operator+=` with a nonnegative count: iterate `operator++`. -/
def iterF (n : Nat) : Nat → Option Nat → Option Nat
  | 0, p => p
  | k + 1, p => iterF n k (stepF n p)

/-- `operator-=` with a nonnegative count: iterate `operator--`. -/
def iterB : Nat → Option Nat → Option Nat
  | 0, p => p
  | k + 1, p => iterB k (stepB p)

/-- `Node::operator+(Count)`: `Count == 0` returns the node itself, otherwise
`Copy += Count - 1` followed by dereferencing `Copy.next`. -/
def nodeAdd (n : Nat) (p : Option Nat) (c : Nat) : Option Nat :=
  if c = 0 then p else stepF n (iterF n (c - 1) p)

/-- `Node::operator-(Count)`: `Count == 0` returns the node itself, otherwise
`Copy -= Count + 1` followed by dereferencing `Copy.previous` — note the
`Count + 1` in the source (`List.h` line 141), in contrast to `operator+`'s
`Count - 1`. -/
def nodeSub (_n : Nat) (p : Option Nat) (c : Nat) : Option Nat :=
  if c = 0 then p else stepB (iterB (c + 1) p)

/-- `List::Traverse(Index)` restricted to valid indices (the out-of-bounds
throw is handled by each caller's model): walk backward from `tail` when
`Index > size / 2`, else forward from `head`. -/
def Traverse (n i : Nat) : Option Nat :=
  if n / 2 < i then nodeSub n (some (n - 1)) (n - i - 1)
  else nodeAdd n (some 0) i

/-- The position actually reached by `List::Traverse(Index)` on a list of
length `n` (the `getD 0` default is never reached for `i < n`). -/
def tIdx (n i : Nat) : Nat := (Traverse n i).getD 0

namespace LList

/-- `List::Get(Index)`, i.e. `operator[]`: throws when `IsValidIndex` fails,
otherwise returns the element of the node reached by `Traverse`. -/
def Get (l : List Nat) (i : Nat) : Except OOB Nat :=
  if i < l.length then .ok (rd l (tIdx l.length i)) else .error ⟨i, l.length⟩

/-- `List::Set(Index, Value)`: `(*this)[Index] = Value`. -/
def Set (l : List Nat) (i v : Nat) : Except OOB (List Nat) :=
  if i < l.length then .ok (wr l (tIdx l.length i) v) else .error ⟨i, l.length⟩

/-- `List::Insert(Index, Value)`: throws for `Index > size`; `Index == size`
appends at the tail (also covering the empty list); otherwise splices a new
node before the node reached by `Traverse(Index)`. -/
def Insert (l : List Nat) (i v : Nat) : Except OOB (List Nat) :=
  if l.length < i then .error ⟨i, l.length⟩
  else if i = l.length then .ok (l ++ [v])
  else .ok (List.insertIdx (tIdx l.length i) v l)

/-- `List::Erase(Index)`: throws when `IsValidIndex` fails; `Index == 0`
unlinks the head, `Index == size - 1` unlinks the tail, otherwise unlinks the
node reached by `Traverse(Index)`. -/
def Erase (l : List Nat) (i : Nat) : Except OOB (List Nat) :=
  if i < l.length then
    .ok (if i = 0 then l.eraseIdx 0
      else if i = l.length - 1 then l.eraseIdx (l.length - 1)
      else l.eraseIdx (tIdx l.length i))
  else .error ⟨i, l.length⟩

/-- `List::Swap(Left, Right)`: validates `Left` then `Right` (throwing with
the offending index), then exchanges the data of the two traversed nodes. -/
def Swap (l : List Nat) (i j : Nat) : Except OOB (List Nat) :=
  if ¬ i < l.length then .error ⟨i, l.length⟩
  else if ¬ j < l.length then .error ⟨j, l.length⟩
  else .ok (swapAt l (tIdx l.length i) (tIdx l.length j))

/-- `List::Front()`: `(*this)[0]`. -/
def Front (l : List Nat) : Except OOB Nat := Get l 0

/-- `List::Back()`: `(*this)[size - 1]` with `size_t` subtraction (on an empty
list the index wraps to `2 ^ 64 - 1`). -/
def Back (l : List Nat) : Except OOB Nat := Get l ((l.length + U64 - 1) % U64)

/-- `List::PopFront()`: `Erase(0)`. -/
def PopFront (l : List Nat) : Except OOB (List Nat) := Erase l 0

/-- `List::PopBack()`: `Erase(size - 1)` with `size_t` subtraction. -/
def PopBack (l : List Nat) : Except OOB (List Nat) := Erase l ((l.length + U64 - 1) % U64)

/-- The loop of `List::Find`: forward iteration, returning the first index
whose element equals the value, else `-1` (`ptrdiff_t`). -/
def findLoop (v : Nat) : List Nat → Int → Int
  | [], _ => -1
  | a :: t, i => if v = a then i else findLoop v t (i + 1)

/-- `List::Find(Value)`. -/
def Find (l : List Nat) (v : Nat) : Int := findLoop v l 0

/-- The loop of `List::FindLast`: backward iteration from `tail` with a
decreasing `ptrdiff_t` index. -/
def findLastLoop (v : Nat) : List Nat → Int → Int
  | [], _ => -1
  | a :: t, i => if v = a then i else findLastLoop v t (i - 1)

/-- `List::FindLast(Value)`. -/
def FindLast (l : List Nat) (v : Nat) : Int := findLastLoop v l.reverse ((l.length : Int) - 1)

/-- The loop of `List::Total`: count the elements equal to the value. -/
def totalLoop (v : Nat) : List Nat → Nat → Nat
  | [], acc => acc
  | a :: t, acc => totalLoop v t (if v = a then acc + 1 else acc)

/-- `List::Total(Value)`. -/
def Total (l : List Nat) (v : Nat) : Nat := totalLoop v l 0

end LList

/-! ### `Sorting.h` over a generic indexable collection

`Sorting` is templated over any `CollectionType` providing `operator[]`; the
interface is modelled as a pair of read/write functions over a state type.
Two instances appear below: `plainColl` (an ordinary array-like collection,
where index `i` denotes slot `i`) and `listColl` (the `List` collection,
where `operator[]` goes through `Traverse`). -/

/-- The indexable-collection interface consumed by `Sorting`
(`Collection[i]` read and write). -/
structure Coll (σ : Type) where
  rdF : σ → Nat → Nat
  wrF : σ → Nat → Nat → σ

/-- An array-like collection: `operator[](i)` is slot `i`. -/
def plainColl : Coll (List Nat) := ⟨fun l i => rd l i, fun l i v => wr l i v⟩

/-- The `List` collection: `operator[](i)` goes through `Traverse`, reaching
slot `tIdx size i`. -/
def listColl : Coll (List Nat) :=
  ⟨fun l i => rd l (tIdx l.length i), fun l i v => wr l (tIdx l.length i) v⟩

namespace Sorting

/-- `Sorting::GreaterThan`, the default comparer: `Left > Right`. -/
def GreaterThan (a b : Nat) : Bool := decide (a > b)

/-- The element swap `Swapped = C[i]; C[i] = C[j]; C[j] = Swapped` as it
appears in `BubbleSort` and `Partition`. -/
def swapVia {σ : Type} (C : Coll σ) (st : σ) (i j : Nat) : σ :=
  C.wrF (C.wrF st i (C.rdF st j)) j (C.rdF st i)

/-- The loop of `Sorting::IsSorted`: scan `Index` upward while `Index < Size - 1`
(fuel counts the remaining iterations), returning `false` as soon as
`Comparer(C[Index], C[Index + 1])` holds. -/
def isortLoop {σ : Type} (C : Coll σ) (cmp : Nat → Nat → Bool) (st : σ) :
    Nat → Nat → Bool
  | 0, _ => true
  | fuel + 1, i => if cmp (C.rdF st i) (C.rdF st (i + 1)) then false
      else isortLoop C cmp st fuel (i + 1)

/-- `Sorting::IsSorted(Size, Collection, Comparer)` for `Size ≥ 1` (the
`Size == 0` case underflows `Size - 1` in `size_t` and is modelled separately
for the `List` collection as `LList.IsSorted`). -/
def IsSorted {σ : Type} (C : Coll σ) (size : Nat) (st : σ) (cmp : Nat → Nat → Bool) : Bool :=
  isortLoop C cmp st (size - 1) 0

/-- The inner loop of `Sorting::BubbleSort` (`Right` from `0` while
`Right < Size - Left - 1`; fuel counts the remaining iterations), swapping
adjacent out-of-order elements and recording whether any swap happened. -/
def bubbleInner {σ : Type} (C : Coll σ) (cmp : Nat → Nat → Bool) :
    Nat → σ → Nat → Bool → σ × Bool
  | 0, st, _, sw => (st, sw)
  | fuel + 1, st, r, sw =>
    if cmp (C.rdF st r) (C.rdF st (r + 1)) then
      bubbleInner C cmp fuel (swapVia C st r (r + 1)) (r + 1) true
    else bubbleInner C cmp fuel st (r + 1) sw

/-- The outer loop of `Sorting::BubbleSort` (`Left` from `0` while
`Left < Size - 1`), returning early after the first pass without a swap. -/
def bubbleOuter {σ : Type} (C : Coll σ) (cmp : Nat → Nat → Bool) (size : Nat) :
    Nat → σ → Nat → σ
  | 0, st, _ => st
  | fuel + 1, st, left =>
    let p := bubbleInner C cmp (size - left - 1) st 0 false
    if p.2 then bubbleOuter C cmp size fuel p.1 (left + 1) else p.1

/-- `Sorting::BubbleSort(Size, Collection, Comparer)` for `Size ≥ 1`. -/
def BubbleSort {σ : Type} (size : Nat) (st : σ) (C : Coll σ) (cmp : Nat → Nat → Bool) : σ :=
  bubbleOuter C cmp size (size - 1) st 0

/-- The merge loops of `Sorting::Merge` on the two temporary buffers: while
both have elements take the left head unless `Comparer(left, right)`, then
drain the leftovers (fuel bounds the total number of loop iterations). -/
def mergeFuel (cmp : Nat → Nat → Bool) : Nat → List Nat → List Nat → List Nat
  | 0, l, r => l ++ r
  | _ + 1, [], r => r
  | _ + 1, a :: l, [] => a :: l
  | fuel + 1, a :: l, b :: r =>
    if ! cmp a b then a :: mergeFuel cmp fuel l (b :: r)
    else b :: mergeFuel cmp fuel (a :: l) r

/-- The merge of the two temporary buffers with sufficient fuel. -/
def mergeLists (cmp : Nat → Nat → Bool) (L R : List Nat) : List Nat :=
  mergeFuel cmp (L.length + R.length) L R

/-- The copy-out loops of `Sorting::Merge`: read `count` elements starting at
index `i` into a temporary buffer. -/
def readSeq {σ : Type} (C : Coll σ) (st : σ) : Nat → Nat → List Nat
  | _, 0 => []
  | i, count + 1 => C.rdF st i :: readSeq C st (i + 1) count

/-- The write-back of `Sorting::Merge`: write the merged buffer sequentially
starting at index `i`. -/
def writeSeq {σ : Type} (C : Coll σ) : σ → Nat → List Nat → σ
  | st, _, [] => st
  | st, i, v :: vs => writeSeq C (C.wrF st i v) (i + 1) vs

/-- `Sorting::Merge(Collection, Begin, Middle, End, Comparer)`: copy out
`[Begin..Middle]` and `[Middle+1..End]`, merge them, write back from `Begin`. -/
def Merge {σ : Type} (C : Coll σ) (st : σ) (b m e : Nat) (cmp : Nat → Nat → Bool) : σ :=
  let left := readSeq C st b (m - b + 1)
  let right := readSeq C st (m + 1) (e - m)
  writeSeq C st b (mergeLists cmp left right)

/-- `Sorting::RecursiveMergeSort(Collection, Begin, End, Comparer)` (fuel is
an upper bound on the recursion depth; `Begin ≥ End` returns immediately). -/
def RecursiveMergeSort {σ : Type} (C : Coll σ) (cmp : Nat → Nat → Bool) :
    Nat → σ → Nat → Nat → σ
  | 0, st, _, _ => st
  | fuel + 1, st, b, e =>
    if b ≥ e then st
    else
      let m := (b + e) / 2
      let st1 := RecursiveMergeSort C cmp fuel st b m
      let st2 := RecursiveMergeSort C cmp fuel st1 (m + 1) e
      Merge C st2 b m e cmp

/-- `Sorting::MergeSort(Size, Collection, Comparer)` for `Size ≥ 1`. -/
def MergeSort {σ : Type} (size : Nat) (st : σ) (C : Coll σ) (cmp : Nat → Nat → Bool) : σ :=
  RecursiveMergeSort C cmp size st 0 (size - 1)

/-- The loop of `Sorting::Partition` (`Index` from `Low` while `Index < High`;
fuel counts the remaining iterations): the pivot is re-read through
`Collection[High]` on every comparison, because the C++ `Pivot` parameter is a
reference bound to `Collection[High]`. -/
def partLoop {σ : Type} (C : Coll σ) (cmp : Nat → Nat → Bool) :
    Nat → σ → Nat → Nat → Nat → σ × Nat
  | 0, st, p, _, _ => (st, p)
  | fuel + 1, st, p, idx, high =>
    if ! cmp (C.rdF st idx) (C.rdF st high) then
      partLoop C cmp fuel (swapVia C st p idx) (p + 1) (idx + 1) high
    else partLoop C cmp fuel st p (idx + 1) high

/-- `Sorting::Partition(Collection, Low, High, Pivot, Comparer)` with
`Pivot = Collection[High]` as passed by `RecursiveQuickSort`: the Lomuto scan
followed by the final swap of `Collection[PivotIndex]` with `Collection[High]`. -/
def Partition {σ : Type} (C : Coll σ) (st : σ) (low high : Nat)
    (cmp : Nat → Nat → Bool) : σ × Nat :=
  let r := partLoop C cmp (high - low) st low low high
  (swapVia C r.1 r.2 high, r.2)

/-- `Sorting::RecursiveQuickSort(Collection, Low, High, Comparer)`: note that
the source calls `Partition` without forwarding `Comparer`, so the partition
always uses the default `GreaterThan` (`Sorting.h` line 84). -/
def RecursiveQuickSort {σ : Type} (C : Coll σ) (cmp : Nat → Nat → Bool) :
    Nat → σ → Nat → Nat → σ
  | 0, st, _, _ => st
  | fuel + 1, st, low, high =>
    if low ≥ high then st
    else
      let pr := Partition C st low high GreaterThan
      let st1 := if pr.2 > 0 then RecursiveQuickSort C cmp fuel pr.1 low (pr.2 - 1) else pr.1
      RecursiveQuickSort C cmp fuel st1 (pr.2 + 1) high

/-- `Sorting::QuickSort(Size, Collection, Comparer)` for `Size ≥ 1`. -/
def QuickSort {σ : Type} (size : Nat) (st : σ) (C : Coll σ) (cmp : Nat → Nat → Bool) : σ :=
  RecursiveQuickSort C cmp size st 0 (size - 1)

end Sorting

namespace LList

/-- The loop of `Sorting::IsSorted<List, Type>` as invoked by
`List::IsSorted()`: the bound is the `size_t` value `size - 1` (which wraps to
`2 ^ 64 - 1` on an empty list) and every access goes through the throwing
`List::operator[]`. -/
def isortLoopE (l : List Nat) : Nat → Nat → Except OOB Bool
  | 0, _ => .ok true
  | fuel + 1, i =>
    match Get l i with
    | .error e => .error e
    | .ok a =>
      match Get l (i + 1) with
      | .error e => .error e
      | .ok b => if Sorting.GreaterThan a b then .ok false else isortLoopE l fuel (i + 1)

/-- `List::IsSorted()`: `Sorting::IsSorted<List, Type>(size, *this)` with the
default comparer, including the `size_t` underflow of `size - 1` at size 0. -/
def IsSorted (l : List Nat) : Except OOB Bool :=
  isortLoopE l ((l.length + U64 - 1) % U64) 0

/-- The loop of `List::Reverse()`: `Swap(Index, size - Index - 1)` for
`Index` from `0` while `Index < size / 2` (all these indices are valid, so the
swaps are spelled out at their traversed positions). -/
def revLoop : List Nat → Nat → Nat → List Nat
  | l, _, 0 => l
  | l, i, fuel + 1 =>
    revLoop (swapAt l (tIdx l.length i) (tIdx l.length (l.length - i - 1))) (i + 1) fuel

/-- `List::Reverse()`. -/
def Reverse (l : List Nat) : List Nat := revLoop l 0 (l.length / 2)

/-- `List::QuickSort()`: `Sorting::QuickSort<List, Type>(size, *this)` with
the default comparer, indexing through `List::operator[]`. -/
def QuickSort (l : List Nat) : List Nat :=
  Sorting.QuickSort l.length l listColl Sorting.GreaterThan

/-- `List::operator=(const List&)`: self-assignment is detected by the address
check `this == &Copied` (the `sameObject` flag); otherwise the target is
cleared and every element of the source is pushed back in order. -/
def CopyAssign (sameObject : Bool) (target source : List Nat) : List Nat :=
  if sameObject then target
  else List.foldl (fun acc v => acc ++ [v]) [] source

/-- `List::operator=(List&&)`: self-assignment is detected by the address
check `this == &Moved`; otherwise the target is cleared, steals the source's
nodes, and the source is emptied.  The result pairs the target with the
source's final contents. -/
def MoveAssign (sameObject : Bool) (target source : List Nat) : List Nat × List Nat :=
  if sameObject then (target, source)
  else (source, [])

end LList

/-! ### Pointer-level model of the `List` node structure

For the structural invariant of C8 the list is modelled at the pointer level:
nodes live in a heap addressed by `Nat`, with `previous`/`next` pointers
(`none` is `nullptr`), exactly as `List::Insert`, `List::Erase` and
`List::Clear` manipulate them.  A null-pointer dereference (undefined
behaviour in C++) surfaces as `none` results. -/

/-- A heap node of `List<Type>::Node`: `previous`, owned `data`, `next`. -/
structure PNode where
  previous : Option Nat
  data : Nat
  next : Option Nat
deriving DecidableEq, Repr

/-- The pointer-level `List` object: `size`, `head`, `tail`, the heap of live
nodes (an association list from addresses), and the next unused address. -/
structure PState where
  size : Nat
  head : Option Nat
  tail : Option Nat
  heap : List (Nat × PNode)
  fresh : Nat
deriving DecidableEq, Repr

/-- Dereference an address in the heap. -/
def hfind (h : List (Nat × PNode)) (a : Nat) : Option PNode :=
  match h with
  | [] => none
  | (b, nd) :: t => if b = a then some nd else hfind t a

/-- Update the node at an address in place. -/
def hupd (h : List (Nat × PNode)) (a : Nat) (f : PNode → PNode) : List (Nat × PNode) :=
  h.map (fun p => if p.1 = a then (p.1, f p.2) else p)

/-- Free the node at an address (`delete`). -/
def hrem (h : List (Nat × PNode)) (a : Nat) : List (Nat × PNode) :=
  h.filter (fun p => decide (p.1 ≠ a))

/-- Follow a `next` pointer (`Node::operator++` at the pointer level). -/
def pstepF (h : List (Nat × PNode)) (p : Option Nat) : Option Nat :=
  match p with
  | none => none
  | some a =>
    match hfind h a with
    | none => none
    | some nd => nd.next

/-- Follow a `previous` pointer (`Node::operator--` at the pointer level). -/
def pstepB (h : List (Nat × PNode)) (p : Option Nat) : Option Nat :=
  match p with
  | none => none
  | some a =>
    match hfind h a with
    | none => none
    | some nd => nd.previous

/-- `operator+=` at the pointer level. -/
def piterF (h : List (Nat × PNode)) : Nat → Option Nat → Option Nat
  | 0, p => p
  | k + 1, p => piterF h k (pstepF h p)

/-- `operator-=` at the pointer level. -/
def piterB (h : List (Nat × PNode)) : Nat → Option Nat → Option Nat
  | 0, p => p
  | k + 1, p => piterB h k (pstepB h p)

/-- `Node::operator+(Count)` at the pointer level. -/
def pnodeAdd (h : List (Nat × PNode)) (p : Option Nat) (c : Nat) : Option Nat :=
  if c = 0 then p else pstepF h (piterF h (c - 1) p)

/-- `Node::operator-(Count)` at the pointer level (with the source's
`Count + 1`). -/
def pnodeSub (h : List (Nat × PNode)) (p : Option Nat) (c : Nat) : Option Nat :=
  if c = 0 then p else pstepB h (piterB h (c + 1) p)

/-- `List::Traverse(Index)` at the pointer level, for a valid index. -/
def ptraverse (s : PState) (i : Nat) : Option Nat :=
  if s.size / 2 < i then pnodeSub s.heap s.tail (s.size - i - 1)
  else pnodeAdd s.heap s.head i

/-- `List::Insert(Index, Value)` at the pointer level, following the source's
three paths: append to an empty list, append at the tail, or splice before
the traversed node (updating `head` when the new node becomes first). -/
def pinsert (s : PState) (i v : Nat) : Except OOB (Option PState) :=
  if s.size < i then .error ⟨i, s.size⟩
  else .ok (
    if i = s.size then
      if s.size = 0 then
        some ⟨1, some s.fresh, some s.fresh,
          s.heap ++ [(s.fresh, ⟨none, v, none⟩)], s.fresh + 1⟩
      else
        match s.tail with
        | none => none
        | some t =>
          some ⟨s.size + 1, s.head, some s.fresh,
            hupd s.heap t (fun nd => ⟨nd.previous, nd.data, some s.fresh⟩)
              ++ [(s.fresh, ⟨some t, v, none⟩)],
            s.fresh + 1⟩
    else
      match ptraverse s i with
      | none => none
      | some nxt =>
        match hfind s.heap nxt with
        | none => none
        | some nxtN =>
          let heap1 := s.heap ++ [(s.fresh, ⟨nxtN.previous, v, some nxt⟩)]
          let heap2 :=
            match nxtN.previous with
            | some pr => hupd heap1 pr (fun nd => ⟨nd.previous, nd.data, some s.fresh⟩)
            | none => heap1
          let heap3 := hupd heap2 nxt (fun nd => ⟨some s.fresh, nd.data, nd.next⟩)
          let head2 :=
            match nxtN.previous with
            | some _ => s.head
            | none => some s.fresh
          some ⟨s.size + 1, head2, s.tail, heap3, s.fresh + 1⟩)

/-- `List::Erase(Index)` at the pointer level, following the source's four
paths: sole element, first element, last element, or middle element (found
as `Traverse(Index).next->previous`). -/
def perase (s : PState) (i : Nat) : Except OOB (Option PState) :=
  if i < s.size then
    .ok (
      if i = 0 then
        if s.size = 1 then
          match s.head with
          | none => none
          | some h0 => some ⟨0, none, none, hrem s.heap h0, s.fresh⟩
        else
          match s.head with
          | none => none
          | some h0 =>
            match (hfind s.heap h0).bind (fun nd => nd.next) with
            | none => none
            | some h1 =>
              some ⟨s.size - 1, some h1, s.tail,
                hupd (hrem s.heap h0) h1 (fun nd => ⟨none, nd.data, nd.next⟩), s.fresh⟩
      else if i = s.size - 1 then
        match s.tail with
        | none => none
        | some t0 =>
          match (hfind s.heap t0).bind (fun nd => nd.previous) with
          | none => none
          | some t1 =>
            some ⟨s.size - 1, s.head, some t1,
              hupd (hrem s.heap t0) t1 (fun nd => ⟨nd.previous, nd.data, none⟩), s.fresh⟩
      else
        match ptraverse s i with
        | none => none
        | some mAddr =>
          match (hfind s.heap mAddr).bind (fun nd => nd.next) with
          | none => none
          | some nx =>
            match (hfind s.heap nx).bind (fun nd => nd.previous) with
            | none => none
            | some victim =>
              match hfind s.heap victim with
              | none => none
              | some vn =>
                let heap1 :=
                  hupd (hrem s.heap victim) nx (fun nd => ⟨vn.previous, nd.data, nd.next⟩)
                let heap2 :=
                  match vn.previous with
                  | none => heap1
                  | some p => hupd heap1 p (fun nd => ⟨nd.previous, nd.data, some nx⟩)
                some ⟨s.size - 1, s.head, s.tail, heap2, s.fresh⟩)
  else .error ⟨i, s.size⟩

/-- The deallocation loop of `List::Clear()`: free the current node and
follow its `next` pointer (read before the `delete`). -/
def pclearLoop : Nat → List (Nat × PNode) → Option Nat → List (Nat × PNode)
  | 0, h, _ => h
  | _ + 1, h, none => h
  | fuel + 1, h, some a => pclearLoop fuel (hrem h a) ((hfind h a).bind (fun nd => nd.next))

/-- `List::Clear()` at the pointer level. -/
def pclear (s : PState) : PState :=
  ⟨0, none, none, pclearLoop s.heap.length s.heap s.head, s.fresh⟩

/-- `List::Set(Index, Value)` at the pointer level (writes the traversed
node's data in place; `Fill` iterates this). -/
def pset (s : PState) (i v : Nat) : Except OOB (Option PState) :=
  if i < s.size then
    .ok (
      match ptraverse s i with
      | none => none
      | some a =>
        some ⟨s.size, s.head, s.tail,
          hupd s.heap a (fun nd => ⟨nd.previous, v, nd.next⟩), s.fresh⟩)
  else .error ⟨i, s.size⟩

/-- `List::Swap(Left, Right)` at the pointer level: exchanges the data of the
two traversed nodes, leaving the link structure untouched. -/
def pswap (s : PState) (i j : Nat) : Except OOB (Option PState) :=
  if ¬ i < s.size then .error ⟨i, s.size⟩
  else if ¬ j < s.size then .error ⟨j, s.size⟩
  else .ok (
    match ptraverse s i, ptraverse s j with
    | some ai, some aj =>
      match hfind s.heap ai, hfind s.heap aj with
      | some ni, some nj =>
        some ⟨s.size, s.head, s.tail,
          hupd (hupd s.heap ai (fun nd => ⟨nd.previous, nj.data, nd.next⟩))
            aj (fun nd => ⟨nd.previous, ni.data, nd.next⟩), s.fresh⟩
      | _, _ => none
    | _, _ => none)

/-- One link of the doubly-linked chain check: each listed node exists, its
`previous` is the preceding address (or the given left boundary) and its
`next` is the following address (or the given right boundary). -/
def chainSegB (h : List (Nat × PNode)) : Option Nat → List Nat → Option Nat → Bool
  | _, [], _ => true
  | prev, a :: rest, nxt =>
    match hfind h a with
    | none => false
    | some nd =>
      decide (nd.previous = prev)
        && decide (nd.next = (match rest with | [] => nxt | b :: _ => some b))
        && chainSegB h (some a) rest nxt

/-- The representation invariant of a pointer-level list with address chain
`c` (head to tail): the bookkeeping fields match `c`, the chain addresses are
distinct, the heap holds exactly chain nodes (distinct keys, all below
`fresh`), and the doubly-linked pointers follow `c`. -/
def reprB (s : PState) (c : List Nat) : Bool :=
  decide (s.size = c.length)
    && decide (s.head = c.head?)
    && decide (s.tail = c.getLast?)
    && decide c.Nodup
    && s.heap.all (fun p => decide (p.1 ∈ c))
    && decide (s.heap.map Prod.fst).Nodup
    && chainSegB s.heap none c none
    && c.all (fun a => decide (a < s.fresh))

/-- Structural well-formedness: some address chain represents the state. -/
def wf (s : PState) : Prop := ∃ c : List Nat, reprB s c = true

/-- The spec's structural invariant, read off the pointer state directly:
`size == 0` iff `head`/`tail` are null; walking `next` from `head` exactly
`size - 1` times reaches `tail` and walking `previous` from `tail` exactly
`size - 1` times reaches `head`; and every node's neighbours point back at
it. -/
def invariantClauses (s : PState) : Prop :=
  (s.size = 0 ↔ s.head = none)
  ∧ (s.size = 0 ↔ s.tail = none)
  ∧ (1 ≤ s.size → piterF s.heap (s.size - 1) s.head = s.tail
      ∧ piterB s.heap (s.size - 1) s.tail = s.head)
  ∧ (∀ a nd, hfind s.heap a = some nd →
      (∀ b, nd.next = some b → ∃ nb, hfind s.heap b = some nb ∧ nb.previous = some a)
    ∧ (∀ b, nd.previous = some b → ∃ nb, hfind s.heap b = some nb ∧ nb.next = some a))

/-- A fallible mutation succeeded and its result is well-formed. -/
def resWf : Except OOB (Option PState) → Prop
  | .ok (some s) => wf s
  | _ => False

/-- Adjacent nondecreasing order, position-wise. -/
def adjLE (l : List Nat) : Prop := ∀ k, k + 1 < l.length → rd l k ≤ rd l (k + 1)

/-- The closed segment `[b..e]` of the collection. -/
def seg (l : List Nat) (b e : Nat) : List Nat := (l.drop b).take (e + 1 - b)

/-- Pointwise reading of the chain predicate: the node at each chain position
exists and its two pointers name its chain neighbours (or the boundaries). -/
def chainOk (h : List (Nat × PNode)) (prev : Option Nat) (c : List Nat)
    (nxt : Option Nat) : Prop :=
  ∀ k, k < c.length → ∃ nd, hfind h (rd c k) = some nd
    ∧ nd.previous = (if k = 0 then prev else some (rd c (k - 1)))
    ∧ nd.next = (if k + 1 < c.length then some (rd c (k + 1)) else nxt)

/-- Simulation between a position walk on the chain and a pointer walk on
the heap: both are null, or both sit at the same chain position. -/
def psim (c : List Nat) (p q : Option Nat) : Prop :=
  (p = none ∧ q = none) ∨ ∃ k, k < c.length ∧ p = some k ∧ q = some (rd c k)

/-- The `next`-pointer spine used by the `Clear()` loop: starting node by
node, each listed node exists and its `next` names the following address. -/
def nextLinks (h : List (Nat × PNode)) : List Nat → Prop
  | [] => True
  | a :: rest =>
    (∃ nd, hfind h a = some nd
      ∧ nd.next = (match rest with | [] => none | b :: _ => some b))
    ∧ nextLinks h rest

/-! ### Basic facts about `rd`, `wr` and `swapAt` -/

theorem length_wr (l : List Nat) (i v : Nat) : (wr l i v).length = l.length :=
  List.length_set l i v

theorem rd_eq_getElem? (l : List Nat) (i : Nat) : rd l i = (l[i]?).getD 0 :=
  List.getD_eq_getElem?_getD l i 0

theorem rd_wr_self (l : List Nat) (i v : Nat) (h : i < l.length) :
    rd (wr l i v) i = v := by
  simp [rd_eq_getElem?, wr, List.getElem?_set, h]

theorem rd_wr_ne (l : List Nat) (i j v : Nat) (h : i ≠ j) :
    rd (wr l i v) j = rd l j := by
  simp [rd_eq_getElem?, wr, List.getElem?_set, h]

theorem ext_rd {l₁ l₂ : List Nat} (hlen : l₁.length = l₂.length)
    (h : ∀ k, k < l₁.length → rd l₁ k = rd l₂ k) : l₁ = l₂ := by
  apply List.ext_getElem?
  intro n
  by_cases hn : n < l₁.length
  · have hn2 : n < l₂.length := hlen ▸ hn
    have h1 := h n hn
    rw [rd_eq_getElem?, rd_eq_getElem?, List.getElem?_eq_getElem hn,
      List.getElem?_eq_getElem hn2] at h1
    simp only [Option.getD_some] at h1
    rw [List.getElem?_eq_getElem hn, List.getElem?_eq_getElem hn2, h1]
  · rw [List.getElem?_eq_none (Nat.le_of_not_lt hn),
      List.getElem?_eq_none (by omega)]

theorem wr_rd_self (l : List Nat) (i : Nat) : wr l i (rd l i) = l := by
  induction l generalizing i with
  | nil => cases i <;> rfl
  | cons a t ih =>
    cases i with
    | zero => rfl
    | succ n =>
      show (a :: t).set (n + 1) (rd t n) = a :: t
      rw [List.set_cons_succ]
      exact congrArg (a :: ·) (ih n)

theorem length_swapAt (l : List Nat) (i j : Nat) : (swapAt l i j).length = l.length := by
  simp [swapAt, wr]

theorem rd_swapAt_right (l : List Nat) (i j : Nat) (hj : j < l.length) :
    rd (swapAt l i j) j = rd l i := by
  rw [swapAt, rd_wr_self _ _ _ (by simpa [length_wr] using hj)]

theorem rd_swapAt_left (l : List Nat) (i j : Nat) (hi : i < l.length) (hne : i ≠ j) :
    rd (swapAt l i j) i = rd l j := by
  rw [swapAt, rd_wr_ne _ _ _ _ (Ne.symm hne), rd_wr_self _ _ _ hi]

theorem rd_swapAt_other (l : List Nat) (i j k : Nat) (h1 : k ≠ i) (h2 : k ≠ j) :
    rd (swapAt l i j) k = rd l k := by
  rw [swapAt, rd_wr_ne _ _ _ _ (Ne.symm h2), rd_wr_ne _ _ _ _ (Ne.symm h1)]

theorem perm_rd_set (t : List Nat) (a : Nat) :
    ∀ k, k < t.length → (rd t k :: t.set k a).Perm (a :: t) := by
  induction t with
  | nil => intro k hk; cases hk
  | cons b t' ih =>
    intro k hk
    cases k with
    | zero =>
      rw [show rd (b :: t') 0 = b from rfl, List.set_cons_zero]
      exact List.Perm.swap a b t'
    | succ n =>
      rw [show rd (b :: t') (n + 1) = rd t' n from rfl, List.set_cons_succ]
      exact ((List.Perm.swap b (rd t' n) (t'.set n a)).trans
        (List.Perm.cons b (ih n (by simpa using hk)))).trans (List.Perm.swap a b t')

theorem perm_swapAt (l : List Nat) (i j : Nat) (hi : i < l.length) (hj : j < l.length) :
    (swapAt l i j).Perm l := by
  induction l generalizing i j with
  | nil => cases hi
  | cons a t ih =>
    cases i with
    | zero =>
      cases j with
      | zero => rw [show swapAt (a :: t) 0 0 = a :: t by simp [swapAt, rd, wr]]
      | succ m =>
        rw [show swapAt (a :: t) 0 (m + 1) = rd t m :: t.set m a by
          simp [swapAt, rd, wr, List.getD_cons_succ]]
        exact perm_rd_set t a m (by simpa using hj)
    | succ n =>
      cases j with
      | zero =>
        rw [show swapAt (a :: t) (n + 1) 0 = rd t n :: t.set n a by
          simp [swapAt, rd, wr, List.getD_cons_succ]]
        exact perm_rd_set t a n (by simpa using hi)
      | succ m =>
        rw [show swapAt (a :: t) (n + 1) (m + 1) = a :: swapAt t n m by
          simp [swapAt, rd, wr, List.getD_cons_succ]]
        exact List.Perm.cons a (ih n m (by simpa using hi) (by simpa using hj))

theorem swapAt_self (l : List Nat) (i : Nat) : swapAt l i i = l := by
  rw [swapAt, wr_rd_self, wr_rd_self]

theorem swapAt_swapAt (l : List Nat) (i j : Nat) (hi : i < l.length) (hj : j < l.length) :
    swapAt (swapAt l i j) i j = l := by
  by_cases hij : i = j
  · rw [hij, swapAt_self, swapAt_self]
  · refine ext_rd ?_ ?_
    · rw [length_swapAt, length_swapAt]
    · intro k hk
      by_cases hkj : k = j
      · rw [hkj, rd_swapAt_right (swapAt l i j) i j (by simpa [length_swapAt] using hj),
          rd_swapAt_left l i j hi hij]
      · by_cases hki : k = i
        · rw [hki, rd_swapAt_left (swapAt l i j) i j (by simpa [length_swapAt] using hi) hij,
            rd_swapAt_right l i j hj]
        · rw [rd_swapAt_other (swapAt l i j) i j k hki hkj,
            rd_swapAt_other l i j k hki hkj]

/-! ### The closed form of `List::Traverse` -/

theorem iterF_in_range (n : Nat) : ∀ k j, j + k < n → iterF n k (some j) = some (j + k) := by
  intro k
  induction k with
  | zero => intro j _; rfl
  | succ m ih =>
    intro j hj
    show iterF n m (stepF n (some j)) = some (j + (m + 1))
    rw [show stepF n (some j) = some (j + 1) by simp [stepF]; omega,
      ih (j + 1) (by omega)]
    exact congrArg some (by omega)

theorem iterB_in_range : ∀ k j, k ≤ j → iterB k (some j) = some (j - k) := by
  intro k
  induction k with
  | zero => intro j _; rfl
  | succ m ih =>
    intro j hj
    show iterB m (stepB (some j)) = some (j - (m + 1))
    rw [show stepB (some j) = some (j - 1) by simp [stepB]; omega,
      ih (j - 1) (by omega)]
    exact congrArg some (by omega)

theorem traverse_closed (n i : Nat) (h : i < n) :
    Traverse n i = some (if n / 2 < i then (if i = n - 1 then n - 1 else i - 2) else i) := by
  unfold Traverse
  by_cases hc : n / 2 < i
  · rw [if_pos hc, if_pos hc]
    by_cases he : i = n - 1
    · rw [if_pos he, show n - i - 1 = 0 by omega, nodeSub, if_pos rfl]
    · rw [if_neg he]
      have hi2 : i ≤ n - 2 := by omega
      have hi3 : 3 ≤ i := by omega
      rw [nodeSub, if_neg (by omega : ¬ n - i - 1 = 0),
        iterB_in_range (n - i - 1 + 1) (n - 1) (by omega),
        show n - 1 - (n - i - 1 + 1) = i - 1 by omega]
      simp [stepB]
      omega
  · rw [if_neg hc, if_neg hc]
    by_cases hi0 : i = 0
    · subst hi0; rw [nodeAdd, if_pos rfl]
    · rw [nodeAdd, if_neg hi0, iterF_in_range n (i - 1) 0 (by omega)]
      simp [stepF]
      omega

theorem tIdx_eq (n i : Nat) (h : i < n) :
    tIdx n i = if n / 2 < i then (if i = n - 1 then n - 1 else i - 2) else i := by
  rw [tIdx, traverse_closed n i h]
  rfl

theorem tIdx_lt (n i : Nat) (h : i < n) : tIdx n i < n := by
  rw [tIdx_eq n i h]
  split
  · split <;> omega
  · omega

/-! ### Infrastructure for the sorting proofs (plain collection) -/

@[simp] theorem plain_rd (st : List Nat) (i : Nat) : plainColl.rdF st i = rd st i := rfl

@[simp] theorem plain_wr (st : List Nat) (i v : Nat) : plainColl.wrF st i v = wr st i v := rfl

theorem swapVia_plain (st : List Nat) (i j : Nat) :
    Sorting.swapVia plainColl st i j = swapAt st i j := rfl

theorem rd_swapAt_fst (l : List Nat) (i j : Nat) (hi : i < l.length) :
    rd (swapAt l i j) i = rd l j := by
  by_cases hij : i = j
  · rw [hij, swapAt_self]
  · exact rd_swapAt_left l i j hi hij

theorem rd_swapAt_snd (l : List Nat) (i j : Nat) (hj : j < l.length) :
    rd (swapAt l i j) j = rd l i := rd_swapAt_right l i j hj

theorem rd_mem (l : List Nat) (k : Nat) (h : k < l.length) : rd l k ∈ l := by
  rw [rd_eq_getElem?, List.getElem?_eq_getElem h]
  exact List.getElem_mem h

theorem mem_exists_rd (l : List Nat) (b : Nat) (h : b ∈ l) :
    ∃ k, k < l.length ∧ rd l k = b := by
  obtain ⟨n, hn, he⟩ := List.getElem_of_mem h
  exact ⟨n, hn, by rw [rd_eq_getElem?, List.getElem?_eq_getElem hn]; exact he⟩

theorem adjLE_mono (l : List Nat) (h : adjLE l) :
    ∀ j k, j ≤ k → k < l.length → rd l j ≤ rd l k := by
  intro j k hjk hk
  induction k with
  | zero => rw [show j = 0 by omega]
  | succ m ihm =>
    rcases Nat.lt_or_ge j (m + 1) with hlt | hge
    · exact le_trans (ihm (by omega) (by omega)) (h m (by omega))
    · rw [show j = m + 1 by omega]

theorem sorted_iff_adjLE (l : List Nat) : l.Sorted (· ≤ ·) ↔ adjLE l := by
  induction l with
  | nil =>
    constructor
    · intro _ k hk; cases hk
    · intro _; exact List.sorted_nil
  | cons a t ih =>
    constructor
    · intro h k hk
      obtain ⟨ha, ht⟩ := List.sorted_cons.mp h
      cases k with
      | zero =>
        have h0 : 0 < t.length := by simpa using hk
        exact ha (rd t 0) (rd_mem t 0 h0)
      | succ m =>
        exact ih.mp ht m (by simpa using hk)
    · intro h
      refine List.sorted_cons.mpr ⟨?_, ih.mpr fun k hk => h (k + 1) (by simpa using hk)⟩
      intro b hb
      obtain ⟨k, hk, he⟩ := mem_exists_rd t b hb
      have h0 : rd (a :: t) 0 ≤ rd (a :: t) (k + 1) := by
        refine adjLE_mono (a :: t) h 0 (k + 1) (by omega) (by simpa using hk)
      rw [show rd (a :: t) 0 = a from rfl, show rd (a :: t) (k + 1) = rd t k from rfl, he] at h0
      exact h0

theorem isortLoop_true (l : List Nat) :
    ∀ fuel i, (∀ k, i ≤ k → k < i + fuel → rd l k ≤ rd l (k + 1)) →
      Sorting.isortLoop plainColl Sorting.GreaterThan l fuel i = true := by
  intro fuel
  induction fuel with
  | zero => intro i _; rfl
  | succ m ih =>
    intro i h
    have hle : rd l i ≤ rd l (i + 1) := h i (le_refl i) (by omega)
    rw [Sorting.isortLoop]
    rw [if_neg (by simp [Sorting.GreaterThan]; omega)]
    exact ih (i + 1) (fun k hk1 hk2 => h k (by omega) (by omega))

/-- If the result of a sort is nondecreasing, `Sorting::IsSorted` with the
default comparer accepts it. -/
theorem isSorted_of_sorted (l : List Nat) (n : Nat) (hn : n = l.length)
    (h : l.Sorted (· ≤ ·)) : Sorting.IsSorted plainColl n l Sorting.GreaterThan = true := by
  have ha := (sorted_iff_adjLE l).mp h
  exact isortLoop_true l (n - 1) 0 (fun k hk1 hk2 => ha k (by omega))

/-! ### Segments of a collection -/

theorem seg_length (l : List Nat) (b e : Nat) (_hbe : b ≤ e) (he : e < l.length) :
    (seg l b e).length = e + 1 - b := by
  simp [seg, List.length_take, List.length_drop]
  omega

theorem rd_seg (l : List Nat) (b e k : Nat) (hk : k < e + 1 - b) :
    rd (seg l b e) k = rd l (b + k) := by
  rw [rd_eq_getElem?, rd_eq_getElem?, seg, List.getElem?_take, if_pos hk,
    List.getElem?_drop]

theorem seg_decomp (l : List Nat) (b e : Nat) (_hbe : b ≤ e) (_he : e < l.length) :
    l = l.take b ++ seg l b e ++ l.drop (e + 1) := by
  have h2 : l.drop (e + 1) = (l.drop b).drop (e + 1 - b) := by
    rw [List.drop_drop]
    exact congrArg (fun k => l.drop k) (by omega)
  have h1 : l.drop b = seg l b e ++ l.drop (e + 1) := by
    rw [seg, h2]
    exact (List.take_append_drop (e + 1 - b) (l.drop b)).symm
  rw [List.append_assoc, ← h1, List.take_append_drop]

theorem seg_single (l : List Nat) (b : Nat) (hb : b < l.length) :
    seg l b b = [rd l b] := by
  rw [seg, show b + 1 - b = 1 by omega, List.drop_eq_getElem_cons hb, List.take_succ_cons,
    List.take_zero, rd_eq_getElem?, List.getElem?_eq_getElem hb]
  rfl

theorem seg_full (l : List Nat) (h : 1 ≤ l.length) : seg l 0 (l.length - 1) = l := by
  rw [seg, List.drop_zero, show l.length - 1 + 1 - 0 = l.length by omega, List.take_length]

theorem seg_split (l : List Nat) (b m e : Nat) (hbm : b ≤ m) (hme : m < e)
    (_he : e < l.length) : seg l b e = seg l b m ++ seg l (m + 1) e := by
  rw [seg, seg, seg, show e + 1 - b = (m + 1 - b) + (e - m) by omega, List.take_add,
    List.drop_drop, show b + (m + 1 - b) = m + 1 by omega,
    show e + 1 - (m + 1) = e - m by omega]

theorem take_eq_of_rd_eq (l₁ l₂ : List Nat) (m : Nat) (hm₁ : m ≤ l₁.length)
    (hm₂ : m ≤ l₂.length) (h : ∀ k, k < m → rd l₁ k = rd l₂ k) :
    l₁.take m = l₂.take m := by
  refine ext_rd ?_ ?_
  · rw [List.length_take, List.length_take]; omega
  · intro k hk
    rw [List.length_take] at hk
    have hkm : k < m := by omega
    rw [rd_eq_getElem?, rd_eq_getElem?, List.getElem?_take, List.getElem?_take,
      if_pos hkm, if_pos hkm, ← rd_eq_getElem?, ← rd_eq_getElem?]
    exact h k hkm

theorem drop_eq_of_rd_eq (l₁ l₂ : List Nat) (m : Nat) (hlen : l₁.length = l₂.length)
    (h : ∀ k, m ≤ k → k < l₁.length → rd l₁ k = rd l₂ k) :
    l₁.drop m = l₂.drop m := by
  refine ext_rd ?_ ?_
  · rw [List.length_drop, List.length_drop, hlen]
  · intro k hk
    rw [List.length_drop] at hk
    rw [rd_eq_getElem?, rd_eq_getElem?, List.getElem?_drop, List.getElem?_drop,
      ← rd_eq_getElem?, ← rd_eq_getElem?]
    exact h (m + k) (by omega) (by omega)

/-! ### Merge sort correctness (plain collection) -/

theorem readSeq_eq_seg (l : List Nat) :
    ∀ count i, i + count ≤ l.length →
      Sorting.readSeq plainColl l i count = (l.drop i).take count := by
  intro count
  induction count with
  | zero => intro i _; rfl
  | succ m ih =>
    intro i h
    have hi : i < l.length := by omega
    rw [show Sorting.readSeq plainColl l i (m + 1)
        = rd l i :: Sorting.readSeq plainColl l (i + 1) m from rfl,
      ih (i + 1) (by omega), List.drop_eq_getElem_cons hi, List.take_succ_cons]
    congr 1
    rw [rd_eq_getElem?, List.getElem?_eq_getElem hi]
    rfl

theorem writeSeq_eq (vs : List Nat) :
    ∀ (l : List Nat) (i : Nat), i + vs.length ≤ l.length →
      Sorting.writeSeq plainColl l i vs = l.take i ++ vs ++ l.drop (i + vs.length) := by
  induction vs with
  | nil =>
    intro l i h
    show l = l.take i ++ [] ++ l.drop (i + 0)
    simp [List.take_append_drop]
  | cons v vs ih =>
    intro l i h
    have hi : i < l.length := by simp [List.length_cons] at h; omega
    show Sorting.writeSeq plainColl (wr l i v) (i + 1) vs = _
    rw [ih (wr l i v) (i + 1) (by rw [length_wr]; simp [List.length_cons] at h; omega)]
    have hset : wr l i v = (l.take i ++ [v]) ++ l.drop (i + 1) := by
      rw [wr, List.set_eq_take_append_cons_drop, if_pos hi, List.append_assoc,
        List.singleton_append]
    have hlen : (l.take i ++ [v]).length = i + 1 := by
      simp [List.length_append, List.length_take]
      omega
    rw [hset, List.take_left' hlen,
      show i + 1 + vs.length = (l.take i ++ [v]).length + vs.length by rw [hlen],
      List.drop_append, List.drop_drop,
      show i + 1 + vs.length = i + (v :: vs).length from by simp [List.length_cons]; omega]
    simp [List.append_assoc]

theorem mergeFuel_perm (cmp : Nat → Nat → Bool) :
    ∀ fuel L R, (Sorting.mergeFuel cmp fuel L R).Perm (L ++ R) := by
  intro fuel
  induction fuel with
  | zero => intro L R; exact List.Perm.refl _
  | succ m ih =>
    intro L R
    cases L with
    | nil => simp [Sorting.mergeFuel]
    | cons a l =>
      cases R with
      | nil => simp [Sorting.mergeFuel]
      | cons b r =>
        show (if ! cmp a b then a :: Sorting.mergeFuel cmp m l (b :: r)
            else b :: Sorting.mergeFuel cmp m (a :: l) r).Perm ((a :: l) ++ (b :: r))
        by_cases hc : cmp a b = true
        · rw [if_neg (by simp [hc])]
          exact (List.Perm.cons b (ih (a :: l) r)).trans
            (@List.perm_middle Nat b (a :: l) r).symm
        · rw [if_pos (by simp at hc; simp [hc])]
          exact List.Perm.cons a (ih l (b :: r))

theorem mergeFuel_sorted :
    ∀ fuel L R, L.length + R.length ≤ fuel → L.Sorted (· ≤ ·) → R.Sorted (· ≤ ·) →
      (Sorting.mergeFuel Sorting.GreaterThan fuel L R).Sorted (· ≤ ·) := by
  intro fuel
  induction fuel with
  | zero =>
    intro L R h hL hR
    have hL0 : L = [] := List.eq_nil_of_length_eq_zero (by omega)
    have hR0 : R = [] := List.eq_nil_of_length_eq_zero (by omega)
    rw [hL0, hR0]
    exact List.sorted_nil
  | succ m ih =>
    intro L R h hL hR
    cases L with
    | nil => exact hR
    | cons a l =>
      cases R with
      | nil => exact hL
      | cons b r =>
        show (if ! Sorting.GreaterThan a b then a :: Sorting.mergeFuel Sorting.GreaterThan m l (b :: r)
            else b :: Sorting.mergeFuel Sorting.GreaterThan m (a :: l) r).Sorted (· ≤ ·)
        obtain ⟨hLa, hLs⟩ := List.sorted_cons.mp hL
        obtain ⟨hRb, hRs⟩ := List.sorted_cons.mp hR
        by_cases hc : Sorting.GreaterThan a b = true
        · rw [if_neg (by simp [hc])]
          have hba : b ≤ a := le_of_lt (by simpa [Sorting.GreaterThan] using hc)
          refine List.sorted_cons.mpr ⟨?_, ih (a :: l) r
            (by simp [List.length_cons] at h ⊢; omega) hL hRs⟩
          intro x hx
          have hx2 : x ∈ (a :: l) ++ r :=
            (mergeFuel_perm Sorting.GreaterThan m (a :: l) r).mem_iff.mp hx
          rcases List.mem_append.mp hx2 with h1 | h2
          · rcases List.mem_cons.mp h1 with h3 | h4
            · rw [h3]; exact hba
            · exact le_trans hba (hLa x h4)
          · exact hRb x h2
        · rw [if_pos (by simp at hc; simp [hc])]
          have hab : a ≤ b := by simp [Sorting.GreaterThan] at hc; omega
          refine List.sorted_cons.mpr ⟨?_, ih l (b :: r)
            (by simp [List.length_cons] at h ⊢; omega) hLs hR⟩
          intro x hx
          have hx2 : x ∈ l ++ (b :: r) :=
            (mergeFuel_perm Sorting.GreaterThan m l (b :: r)).mem_iff.mp hx
          rcases List.mem_append.mp hx2 with h1 | h2
          · exact hLa x h1
          · rcases List.mem_cons.mp h2 with h3 | h4
            · rw [h3]; exact hab
            · exact le_trans hab (hRb x h4)

theorem mergeLists_length (cmp : Nat → Nat → Bool) (L R : List Nat) :
    (Sorting.mergeLists cmp L R).length = L.length + R.length := by
  have h := (mergeFuel_perm cmp (L.length + R.length) L R).length_eq
  simpa [Sorting.mergeLists, List.length_append] using h

theorem merge_effect (cmp : Nat → Nat → Bool) (l : List Nat) (b m e : Nat)
    (hbm : b ≤ m) (hme : m < e) (he : e < l.length) :
    Sorting.Merge plainColl l b m e cmp
      = l.take b ++ Sorting.mergeLists cmp (seg l b m) (seg l (m + 1) e) ++ l.drop (e + 1) := by
  show Sorting.writeSeq plainColl l b
      (Sorting.mergeLists cmp (Sorting.readSeq plainColl l b (m - b + 1))
        (Sorting.readSeq plainColl l (m + 1) (e - m))) = _
  rw [readSeq_eq_seg l (m - b + 1) b (by omega), readSeq_eq_seg l (e - m) (m + 1) (by omega),
    show m - b + 1 = m + 1 - b by omega, show e - m = e + 1 - (m + 1) by omega]
  have hlen : (Sorting.mergeLists cmp (seg l b m) (seg l (m + 1) e)).length = e + 1 - b := by
    rw [mergeLists_length, seg_length l b m hbm (by omega),
      seg_length l (m + 1) e (by omega) he]
    omega
  rw [show ((l.drop b).take (m + 1 - b)) = seg l b m from rfl,
    show ((l.drop (m + 1)).take (e + 1 - (m + 1))) = seg l (m + 1) e from rfl,
    writeSeq_eq _ l b (by omega), hlen, show b + (e + 1 - b) = e + 1 by omega]

theorem decomp_props (l s : List Nat) (b e : Nat) (hbe : b ≤ e) (he : e < l.length)
    (hs : s.length = e + 1 - b) :
    (l.take b ++ s ++ l.drop (e + 1)).length = l.length
  ∧ (l.take b ++ s ++ l.drop (e + 1)).take b = l.take b
  ∧ (l.take b ++ s ++ l.drop (e + 1)).take (e + 1) = l.take b ++ s
  ∧ (∀ j, e + 1 ≤ j → (l.take b ++ s ++ l.drop (e + 1)).drop j = l.drop j)
  ∧ seg (l.take b ++ s ++ l.drop (e + 1)) b e = s := by
  have htb : (l.take b).length = b := by rw [List.length_take]; omega
  have hpre : (l.take b ++ s).length = e + 1 := by
    rw [List.length_append, htb]; omega
  have hdropj : ∀ j, e + 1 ≤ j → (l.take b ++ s ++ l.drop (e + 1)).drop j = l.drop j := by
    intro j hj
    conv_lhs => rw [show j = (l.take b ++ s).length + (j - (e + 1)) by rw [hpre]; omega]
    rw [List.drop_append, List.drop_drop]
    exact congrArg (fun k => l.drop k) (by omega)
  refine ⟨?_, ?_, ?_, hdropj, ?_⟩
  · rw [List.length_append, List.length_append, htb, List.length_drop]; omega
  · rw [List.append_assoc]
    exact List.take_left' htb
  · exact List.take_left' hpre
  · rw [seg, List.append_assoc, List.drop_left' htb, List.take_left' hs]

theorem mergeLists_perm (cmp : Nat → Nat → Bool) (L R : List Nat) :
    (Sorting.mergeLists cmp L R).Perm (L ++ R) :=
  mergeFuel_perm cmp (L.length + R.length) L R

theorem rms_spec (cmp : Nat → Nat → Bool) :
    ∀ fuel (l : List Nat) (b e : Nat), b ≤ e → e < l.length → e - b < fuel →
      ∃ s : List Nat,
        Sorting.RecursiveMergeSort plainColl cmp fuel l b e
          = l.take b ++ s ++ l.drop (e + 1)
        ∧ s.Perm (seg l b e)
        ∧ (cmp = Sorting.GreaterThan → s.Sorted (· ≤ ·)) := by
  intro fuel
  induction fuel with
  | zero => intro l b e _ _ hf; omega
  | succ m ih =>
    intro l b e hbe he hf
    rw [Sorting.RecursiveMergeSort]
    by_cases hcond : b ≥ e
    · rw [if_pos hcond]
      have heq : b = e := by omega
      subst heq
      refine ⟨seg l b b, seg_decomp l b b (le_refl b) he, List.Perm.refl _, fun _ => ?_⟩
      rw [seg_single l b he]
      exact List.sorted_singleton _
    · rw [if_neg hcond]
      show ∃ s : List Nat,
          Sorting.Merge plainColl
            (Sorting.RecursiveMergeSort plainColl cmp m
              (Sorting.RecursiveMergeSort plainColl cmp m l b ((b + e) / 2))
              ((b + e) / 2 + 1) e) b ((b + e) / 2) e cmp
            = l.take b ++ s ++ l.drop (e + 1)
        ∧ s.Perm (seg l b e)
        ∧ (cmp = Sorting.GreaterThan → s.Sorted (· ≤ ·))
      have hm1 : b ≤ (b + e) / 2 := by omega
      have hm2 : (b + e) / 2 < e := by omega
      obtain ⟨s1, he1, hp1, hs1⟩ := ih l b ((b + e) / 2) hm1 (by omega) (by omega)
      have hlen1 : s1.length = (b + e) / 2 + 1 - b := by
        rw [hp1.length_eq, seg_length l b ((b + e) / 2) hm1 (by omega)]
      obtain ⟨hL1, _hT1, hTe1, hD1, _hSeg1⟩ :=
        decomp_props l s1 b ((b + e) / 2) hm1 (by omega) hlen1
      obtain ⟨s2, he2, hp2, hs2⟩ :=
        ih (l.take b ++ s1 ++ l.drop ((b + e) / 2 + 1)) ((b + e) / 2 + 1) e (by omega)
          (by rw [hL1]; exact he) (by omega)
      have hseg1e : seg (l.take b ++ s1 ++ l.drop ((b + e) / 2 + 1)) ((b + e) / 2 + 1) e
          = seg l ((b + e) / 2 + 1) e := by
        rw [seg, seg, hD1 ((b + e) / 2 + 1) (le_refl _)]
      have hp2' : s2.Perm (seg l ((b + e) / 2 + 1) e) := hseg1e ▸ hp2
      have hlen2 : s2.length = e + 1 - ((b + e) / 2 + 1) := by
        rw [hp2'.length_eq, seg_length l ((b + e) / 2 + 1) e (by omega) he]
      rw [hTe1, hD1 (e + 1) (by omega)] at he2
      rw [he1, he2]
      have htb : (l.take b).length = b := by rw [List.length_take]; omega
      have hst2 : (l.take b ++ s1) ++ s2 ++ l.drop (e + 1)
          = l.take b ++ (s1 ++ s2) ++ l.drop (e + 1) := by
        simp [List.append_assoc]
      rw [hst2]
      have hlen12 : (s1 ++ s2).length = e + 1 - b := by
        rw [List.length_append, hlen1, hlen2]; omega
      obtain ⟨hL2, hT2, _hTe2, hD2, _hSeg2⟩ := decomp_props l (s1 ++ s2) b e hbe he hlen12
      have hsegXL : seg (l.take b ++ (s1 ++ s2) ++ l.drop (e + 1)) b ((b + e) / 2) = s1 := by
        rw [seg, List.append_assoc, List.drop_left' htb, List.append_assoc,
          List.take_left' hlen1]
      have hpre1 : (l.take b ++ s1).length = (b + e) / 2 + 1 := by
        rw [List.length_append, htb, hlen1]; omega
      have hsegXR : seg (l.take b ++ (s1 ++ s2) ++ l.drop (e + 1)) ((b + e) / 2 + 1) e
          = s2 := by
        have hregroup : l.take b ++ (s1 ++ s2) ++ l.drop (e + 1)
            = (l.take b ++ s1) ++ (s2 ++ l.drop (e + 1)) := by
          simp [List.append_assoc]
        rw [seg, hregroup, List.drop_left' hpre1,
          show e + 1 - ((b + e) / 2 + 1) = s2.length by omega, List.take_left' rfl]
      rw [merge_effect cmp _ b ((b + e) / 2) e hm1 hm2 (by rw [hL2]; exact he),
        hsegXL, hsegXR, hT2, hD2 (e + 1) (le_refl _)]
      refine ⟨Sorting.mergeLists cmp s1 s2, rfl, ?_, ?_⟩
      · rw [seg_split l b ((b + e) / 2) e hm1 hm2 he]
        exact (mergeLists_perm cmp s1 s2).trans (hp1.append hp2')
      · intro hgt
        rw [hgt] at hs1 hs2 ⊢
        exact mergeFuel_sorted (s1.length + s2.length) s1 s2 (le_refl _)
          (hs1 rfl) (hs2 rfl)

/-- `Sorting::MergeSort` on the whole collection: the result is a permutation
of the input, and with the default comparer it is nondecreasing. -/
theorem mergeSort_plain (cmp : Nat → Nat → Bool) (l : List Nat) (h : 1 ≤ l.length) :
    (Sorting.MergeSort l.length l plainColl cmp).Perm l
  ∧ (cmp = Sorting.GreaterThan →
      (Sorting.MergeSort l.length l plainColl cmp).Sorted (· ≤ ·)) := by
  obtain ⟨s, heq, hperm, hsort⟩ :=
    rms_spec cmp l.length l 0 (l.length - 1) (by omega) (by omega) (by omega)
  have heq2 : Sorting.MergeSort l.length l plainColl cmp = s := by
    rw [Sorting.MergeSort, heq, List.take_zero, show l.length - 1 + 1 = l.length by omega,
      List.drop_length, List.append_nil]
    rfl
  rw [heq2]
  rw [seg_full l h] at hperm
  exact ⟨hperm, hsort⟩

/-! ### Quick sort correctness (plain collection) -/

theorem rd_take_drop (l : List Nat) (b c k : Nat) (hk : k < c) :
    rd ((l.drop b).take c) k = rd l (b + k) := by
  rw [rd_eq_getElem?, rd_eq_getElem?, List.getElem?_take, if_pos hk, List.getElem?_drop]

theorem decomp_props' (l s : List Nat) (b c : Nat) (hbc : b ≤ c) (hc : c ≤ l.length)
    (hs : s.length = c - b) :
    (l.take b ++ s ++ l.drop c).length = l.length
  ∧ (l.take b ++ s ++ l.drop c).take b = l.take b
  ∧ (l.take b ++ s ++ l.drop c).take c = l.take b ++ s
  ∧ (∀ j, c ≤ j → (l.take b ++ s ++ l.drop c).drop j = l.drop j) := by
  have htb : (l.take b).length = b := by rw [List.length_take]; omega
  have hpre : (l.take b ++ s).length = c := by rw [List.length_append, htb]; omega
  refine ⟨?_, ?_, List.take_left' hpre, ?_⟩
  · rw [List.length_append, List.length_append, htb, List.length_drop]; omega
  · rw [List.append_assoc]
    exact List.take_left' htb
  · intro j hj
    conv_lhs => rw [show j = (l.take b ++ s).length + (j - c) by rw [hpre]; omega]
    rw [List.drop_append, List.drop_drop]
    exact congrArg (fun k => l.drop k) (by omega)

theorem partLoop_spec (cmp : Nat → Nat → Bool) :
    ∀ fuel (st : List Nat) (p idx high lo : Nat),
      idx + fuel = high → high < st.length → lo ≤ p → p ≤ idx →
      (∀ k, lo ≤ k → k < p → cmp (rd st k) (rd st high) = false) →
      (∀ k, p ≤ k → k < idx → cmp (rd st k) (rd st high) = true) →
      ((Sorting.partLoop plainColl cmp fuel st p idx high).1).Perm st
    ∧ (∀ k, k < p ∨ high ≤ k →
        rd (Sorting.partLoop plainColl cmp fuel st p idx high).1 k = rd st k)
    ∧ p ≤ (Sorting.partLoop plainColl cmp fuel st p idx high).2
    ∧ (Sorting.partLoop plainColl cmp fuel st p idx high).2 ≤ high
    ∧ (∀ k, lo ≤ k → k < (Sorting.partLoop plainColl cmp fuel st p idx high).2 →
        cmp (rd (Sorting.partLoop plainColl cmp fuel st p idx high).1 k) (rd st high) = false)
    ∧ (∀ k, (Sorting.partLoop plainColl cmp fuel st p idx high).2 ≤ k → k < high →
        cmp (rd (Sorting.partLoop plainColl cmp fuel st p idx high).1 k) (rd st high)
          = true) := by
  intro fuel
  induction fuel with
  | zero =>
    intro st p idx high lo hidx _hh _hlp hpi hbef hmid
    show st.Perm st ∧ (∀ k, k < p ∨ high ≤ k → rd st k = rd st k) ∧ p ≤ p ∧ p ≤ high
      ∧ (∀ k, lo ≤ k → k < p → cmp (rd st k) (rd st high) = false)
      ∧ (∀ k, p ≤ k → k < high → cmp (rd st k) (rd st high) = true)
    refine ⟨List.Perm.refl st, fun k _ => rfl, le_refl p, by omega, hbef, ?_⟩
    intro k h1 h2
    exact hmid k h1 (by omega)
  | succ m ih =>
    intro st p idx high lo hidx hh hlp hpi hbef hmid
    rw [Sorting.partLoop]
    simp only [plain_rd, swapVia_plain]
    by_cases hc : cmp (rd st idx) (rd st high) = true
    · rw [if_neg (by simp [hc])]
      refine ih st p (idx + 1) high lo (by omega) hh hlp (by omega) hbef ?_
      intro k h1 h2
      rcases Nat.lt_or_ge k idx with h3 | h3
      · exact hmid k h1 h3
      · rw [show k = idx by omega]
        exact hc
    · have hcf : cmp (rd st idx) (rd st high) = false := by
        cases h : cmp (rd st idx) (rd st high)
        · rfl
        · exact absurd h hc
      rw [if_pos (by simp [hcf])]
      have hpl : p < st.length := by omega
      have hil : idx < st.length := by omega
      have hhigh1 : rd (swapAt st p idx) high = rd st high :=
        rd_swapAt_other st p idx high (by omega) (by omega)
      have hbef1 : ∀ k, lo ≤ k → k < p + 1 →
          cmp (rd (swapAt st p idx) k) (rd (swapAt st p idx) high) = false := by
        intro k h1 h2
        rw [hhigh1]
        rcases Nat.lt_or_ge k p with h3 | h3
        · rw [rd_swapAt_other st p idx k (by omega) (by omega)]
          exact hbef k h1 h3
        · rw [show k = p by omega, rd_swapAt_fst st p idx hpl]
          exact hcf
      have hmid1 : ∀ k, p + 1 ≤ k → k < idx + 1 →
          cmp (rd (swapAt st p idx) k) (rd (swapAt st p idx) high) = true := by
        intro k h1 h2
        rw [hhigh1]
        rcases Nat.lt_or_ge k idx with h3 | h3
        · rw [rd_swapAt_other st p idx k (by omega) (by omega)]
          exact hmid k (by omega) h3
        · rw [show k = idx by omega, rd_swapAt_snd st p idx hil]
          exact hmid p (le_refl p) (by omega)
      obtain ⟨ih1, ih2, ih3, ih4, ih5, ih6⟩ :=
        ih (swapAt st p idx) (p + 1) (idx + 1) high lo (by omega)
          (by rw [length_swapAt]; exact hh) (by omega) (by omega) hbef1 hmid1
      refine ⟨ih1.trans (perm_swapAt st p idx hpl hil), ?_, by omega, ih4, ?_, ?_⟩
      · intro k hk
        rw [ih2 k (by omega)]
        rcases hk with hk | hk
        · exact rd_swapAt_other st p idx k (by omega) (by omega)
        · exact rd_swapAt_other st p idx k (by omega) (by omega)
      · intro k h1 h2
        rw [← hhigh1]
        exact ih5 k h1 h2
      · intro k h1 h2
        rw [← hhigh1]
        exact ih6 k h1 h2

theorem partition_spec (cmp : Nat → Nat → Bool) (st : List Nat) (low high : Nat)
    (hlh : low ≤ high) (hh : high < st.length) :
    ((Sorting.Partition plainColl st low high cmp).1).Perm st
  ∧ (∀ k, k < low ∨ high < k →
      rd (Sorting.Partition plainColl st low high cmp).1 k = rd st k)
  ∧ low ≤ (Sorting.Partition plainColl st low high cmp).2
  ∧ (Sorting.Partition plainColl st low high cmp).2 ≤ high
  ∧ rd (Sorting.Partition plainColl st low high cmp).1
      (Sorting.Partition plainColl st low high cmp).2 = rd st high
  ∧ (∀ k, low ≤ k → k < (Sorting.Partition plainColl st low high cmp).2 →
      cmp (rd (Sorting.Partition plainColl st low high cmp).1 k) (rd st high) = false)
  ∧ (∀ k, (Sorting.Partition plainColl st low high cmp).2 < k → k ≤ high →
      cmp (rd (Sorting.Partition plainColl st low high cmp).1 k) (rd st high)
        = true) := by
  obtain ⟨hperm, huntouched, hple, hphigh, hreg1, hreg2⟩ :=
    partLoop_spec cmp (high - low) st low low high low (by omega) hh (le_refl low)
      (le_refl low) (fun k h1 h2 => by omega) (fun k h1 h2 => by omega)
  show ((swapAt (Sorting.partLoop plainColl cmp (high - low) st low low high).1
        (Sorting.partLoop plainColl cmp (high - low) st low low high).2 high).Perm st)
    ∧ (∀ k, k < low ∨ high < k →
        rd (swapAt (Sorting.partLoop plainColl cmp (high - low) st low low high).1
          (Sorting.partLoop plainColl cmp (high - low) st low low high).2 high) k = rd st k)
    ∧ low ≤ (Sorting.partLoop plainColl cmp (high - low) st low low high).2
    ∧ (Sorting.partLoop plainColl cmp (high - low) st low low high).2 ≤ high
    ∧ rd (swapAt (Sorting.partLoop plainColl cmp (high - low) st low low high).1
        (Sorting.partLoop plainColl cmp (high - low) st low low high).2 high)
        (Sorting.partLoop plainColl cmp (high - low) st low low high).2 = rd st high
    ∧ (∀ k, low ≤ k → k < (Sorting.partLoop plainColl cmp (high - low) st low low high).2 →
        cmp (rd (swapAt (Sorting.partLoop plainColl cmp (high - low) st low low high).1
          (Sorting.partLoop plainColl cmp (high - low) st low low high).2 high) k)
          (rd st high) = false)
    ∧ (∀ k, (Sorting.partLoop plainColl cmp (high - low) st low low high).2 < k → k ≤ high →
        cmp (rd (swapAt (Sorting.partLoop plainColl cmp (high - low) st low low high).1
          (Sorting.partLoop plainColl cmp (high - low) st low low high).2 high) k)
          (rd st high) = true)
  have hlen : (Sorting.partLoop plainColl cmp (high - low) st low low high).1.length
      = st.length := hperm.length_eq
  refine ⟨(perm_swapAt _ _ _ (by omega) (by omega)).trans hperm, ?_, hple, hphigh, ?_, ?_, ?_⟩
  · intro k hk
    have hkp : k ≠ (Sorting.partLoop plainColl cmp (high - low) st low low high).2 := by omega
    have hkh : k ≠ high := by omega
    rw [rd_swapAt_other _ _ _ _ hkp hkh]
    exact huntouched k (by omega)
  · rw [rd_swapAt_fst _ _ _ (by omega)]
    exact huntouched high (Or.inr (le_refl high))
  · intro k h1 h2
    have hkp : k ≠ (Sorting.partLoop plainColl cmp (high - low) st low low high).2 := by omega
    have hkh : k ≠ high := by omega
    rw [rd_swapAt_other _ _ _ _ hkp hkh]
    exact hreg1 k h1 h2
  · intro k h1 h2
    rcases Nat.lt_or_ge k high with h3 | h3
    · have hkp : k ≠ (Sorting.partLoop plainColl cmp (high - low) st low low high).2 := by
        omega
      rw [rd_swapAt_other _ _ _ _ hkp (by omega)]
      exact hreg2 k (by omega) h3
    · rw [show k = high by omega, rd_swapAt_snd _ _ _ (by omega)]
      exact hreg2 _ (le_refl _) (by omega)

theorem rqs_spec (cmp : Nat → Nat → Bool) :
    ∀ fuel (l : List Nat) (low high : Nat), high < l.length → low ≤ high + 1 →
      high - low < fuel →
      ∃ s : List Nat,
        Sorting.RecursiveQuickSort plainColl cmp fuel l low high
          = l.take low ++ s ++ l.drop (high + 1)
        ∧ s.Perm (seg l low high)
        ∧ s.Sorted (· ≤ ·) := by
  intro fuel
  induction fuel with
  | zero => intro l low high _ _ hf; omega
  | succ m ih =>
    intro l low high hh hlh1 hf
    rw [Sorting.RecursiveQuickSort]
    by_cases hcond : low ≥ high
    · rw [if_pos hcond]
      rcases Nat.lt_or_ge high low with hgt | hge
      · have hle : low = high + 1 := by omega
        refine ⟨[], ?_, ?_, List.sorted_nil⟩
        · rw [hle]
          simp [List.take_append_drop]
        · rw [hle, seg, show high + 1 - (high + 1) = 0 by omega, List.take_zero]
      · have heq : low = high := by omega
        refine ⟨seg l low high, seg_decomp l low high (by omega) hh, List.Perm.refl _, ?_⟩
        rw [show high = low by omega, seg_single l low (by omega)]
        exact List.sorted_singleton _
    · rw [if_neg hcond]
      have hlow : low < high := by omega
      show ∃ s : List Nat,
        Sorting.RecursiveQuickSort plainColl cmp m
          (if (Sorting.Partition plainColl l low high Sorting.GreaterThan).2 > 0 then
            Sorting.RecursiveQuickSort plainColl cmp m
              (Sorting.Partition plainColl l low high Sorting.GreaterThan).1 low
              ((Sorting.Partition plainColl l low high Sorting.GreaterThan).2 - 1)
          else (Sorting.Partition plainColl l low high Sorting.GreaterThan).1)
          ((Sorting.Partition plainColl l low high Sorting.GreaterThan).2 + 1) high
          = l.take low ++ s ++ l.drop (high + 1)
        ∧ s.Perm (seg l low high)
        ∧ s.Sorted (· ≤ ·)
      obtain ⟨hperm, hout, hple, hphigh, hpiv, hreg1, hreg2⟩ :=
        partition_spec Sorting.GreaterThan l low high (by omega) hh
      set P := Sorting.Partition plainColl l low high Sorting.GreaterThan
      have hPlen : P.1.length = l.length := hperm.length_eq
      obtain ⟨sL, heL, hpL, hsL⟩ : ∃ sL : List Nat,
          (if P.2 > 0 then Sorting.RecursiveQuickSort plainColl cmp m P.1 low (P.2 - 1)
            else P.1) = P.1.take low ++ sL ++ P.1.drop P.2
        ∧ sL.Perm ((P.1.drop low).take (P.2 - low))
        ∧ sL.Sorted (· ≤ ·) := by
        by_cases hp0 : P.2 > 0
        · rw [if_pos hp0]
          obtain ⟨sL, heL2, hpL2, hsL2⟩ :=
            ih P.1 low (P.2 - 1) (by omega) (by omega) (by omega)
          rw [show P.2 - 1 + 1 = P.2 by omega] at heL2
          refine ⟨sL, heL2, ?_, hsL2⟩
          refine hpL2.trans ?_
          rw [seg, show P.2 - 1 + 1 - low = P.2 - low by omega]
        · rw [if_neg hp0]
          have h0 : P.2 = 0 := by omega
          have hl0 : low = 0 := by omega
          refine ⟨[], ?_, ?_, List.sorted_nil⟩
          · rw [h0, hl0]
            simp
          · rw [h0, hl0]
            simp
      rw [heL]
      have hsLlen : sL.length = P.2 - low := by
        rw [hpL.length_eq, List.length_take, List.length_drop]
        omega
      obtain ⟨hXlen, _hXtakeLow, hXtakeP2, hXdrop⟩ :=
        decomp_props' P.1 sL low P.2 (by omega) (by omega) hsLlen
      obtain ⟨sR, heR, hpR, hsR⟩ :=
        ih (P.1.take low ++ sL ++ P.1.drop P.2) (P.2 + 1) high
          (by rw [hXlen]; omega) (by omega) (by omega)
      have h1take : (P.1.drop P.2).take 1 = [rd P.1 P.2] := by
        have hs := seg_single P.1 P.2 (by omega)
        rw [seg, show P.2 + 1 - P.2 = 1 by omega] at hs
        exact hs
      have hXtakeP21 : (P.1.take low ++ sL ++ P.1.drop P.2).take (P.2 + 1)
          = P.1.take low ++ sL ++ [rd P.1 P.2] := by
        rw [List.take_add, hXtakeP2, hXdrop P.2 (le_refl _), h1take]
      have hXdropHigh : (P.1.take low ++ sL ++ P.1.drop P.2).drop (high + 1)
          = P.1.drop (high + 1) := hXdrop (high + 1) (by omega)
      have hsegX : seg (P.1.take low ++ sL ++ P.1.drop P.2) (P.2 + 1) high
          = seg P.1 (P.2 + 1) high := by
        rw [seg, seg, hXdrop (P.2 + 1) (by omega)]
      have hpR' : sR.Perm (seg P.1 (P.2 + 1) high) := hsegX ▸ hpR
      have hPtake : P.1.take low = l.take low :=
        take_eq_of_rd_eq P.1 l low (by omega) (by omega) (fun k hk => hout k (Or.inl hk))
      have hPdrop : P.1.drop (high + 1) = l.drop (high + 1) :=
        drop_eq_of_rd_eq P.1 l (high + 1) hPlen
          (fun k hk1 _hk2 => hout k (Or.inr (by omega)))
      rw [heR, hXtakeP21, hXdropHigh, hPtake, hPdrop]
      refine ⟨sL ++ rd P.1 P.2 :: sR, by simp [List.append_assoc], ?_, ?_⟩
      · have hsegR : seg P.1 (P.2 + 1) high = (P.1.drop (P.2 + 1)).take (high - P.2) := by
          rw [seg]
          exact congrArg (fun c => (P.1.drop (P.2 + 1)).take c) (by omega)
        have hsplit : seg P.1 low high
            = (P.1.drop low).take (P.2 - low) ++ rd P.1 P.2 :: seg P.1 (P.2 + 1) high := by
          rw [seg, show high + 1 - low = (P.2 - low) + (1 + (high - P.2)) by omega,
            List.take_add, List.drop_drop, show low + (P.2 - low) = P.2 by omega,
            List.take_add (P.1.drop P.2) 1 (high - P.2), h1take, List.drop_drop, hsegR]
          rfl
        have hdecompP : P.1 = l.take low ++ seg P.1 low high ++ l.drop (high + 1) := by
          have h := seg_decomp P.1 low high (by omega) (by omega)
          rwa [hPtake, hPdrop] at h
        have hdecompL := seg_decomp l low high (by omega) hh
        have hcancel : (seg P.1 low high).Perm (seg l low high) := by
          have hp2 : (l.take low ++ seg P.1 low high ++ l.drop (high + 1)).Perm
              (l.take low ++ seg l low high ++ l.drop (high + 1)) := by
            rw [← hdecompP, ← hdecompL]
            exact hperm
          exact (List.perm_append_left_iff (l.take low)).mp
            ((List.perm_append_right_iff (l.drop (high + 1))).mp hp2)
        have hmid2 : ((P.1.drop low).take (P.2 - low)
            ++ rd P.1 P.2 :: seg P.1 (P.2 + 1) high).Perm (seg l low high) := by
          rw [← hsplit]
          exact hcancel
        exact (hpL.append (List.Perm.cons _ hpR')).trans hmid2
      · refine List.pairwise_append.mpr ⟨hsL, ?_, ?_⟩
        · refine List.sorted_cons.mpr ⟨?_, hsR⟩
          intro y hy
          have hy2 : y ∈ seg P.1 (P.2 + 1) high := hpR'.mem_iff.mp hy
          obtain ⟨j, hj, hje⟩ := mem_exists_rd _ y hy2
          rw [seg, List.length_take, List.length_drop] at hj
          rw [rd_seg P.1 (P.2 + 1) high j (by omega)] at hje
          have hgt := hreg2 (P.2 + 1 + j) (by omega) (by omega)
          rw [hje] at hgt
          have hy3 : rd l high < y := by simpa [Sorting.GreaterThan] using hgt
          rw [hpiv]
          omega
        · intro a ha b hb
          have ha2 : a ∈ (P.1.drop low).take (P.2 - low) := hpL.mem_iff.mp ha
          obtain ⟨j, hj, hje⟩ := mem_exists_rd _ a ha2
          rw [List.length_take, List.length_drop] at hj
          have hjb : j < P.2 - low := by omega
          rw [rd_take_drop P.1 low (P.2 - low) j hjb] at hje
          have hle := hreg1 (low + j) (by omega) (by omega)
          rw [hje] at hle
          have haP : a ≤ rd l high := by
            simp [Sorting.GreaterThan] at hle
            omega
          rcases List.mem_cons.mp hb with hb1 | hb2
          · rw [hb1, hpiv]
            exact haP
          · have hb3 : b ∈ seg P.1 (P.2 + 1) high := hpR'.mem_iff.mp hb2
            obtain ⟨j2, hj2, hje2⟩ := mem_exists_rd _ b hb3
            rw [seg, List.length_take, List.length_drop] at hj2
            rw [rd_seg P.1 (P.2 + 1) high j2 (by omega)] at hje2
            have hgt := hreg2 (P.2 + 1 + j2) (by omega) (by omega)
            rw [hje2] at hgt
            have hb4 : rd l high < b := by simpa [Sorting.GreaterThan] using hgt
            omega

/-- `Sorting::QuickSort` on the whole collection: the result is a permutation
of the input and is nondecreasing — for every supplied comparer, because the
partition always uses the default `GreaterThan`. -/
theorem quickSort_plain (cmp : Nat → Nat → Bool) (l : List Nat) (h : 1 ≤ l.length) :
    (Sorting.QuickSort l.length l plainColl cmp).Perm l
  ∧ (Sorting.QuickSort l.length l plainColl cmp).Sorted (· ≤ ·) := by
  obtain ⟨s, heq, hperm, hsort⟩ :=
    rqs_spec cmp l.length l 0 (l.length - 1) (by omega) (by omega) (by omega)
  have heq2 : Sorting.QuickSort l.length l plainColl cmp = s := by
    rw [Sorting.QuickSort, heq, List.take_zero, show l.length - 1 + 1 = l.length by omega,
      List.drop_length, List.append_nil]
    rfl
  rw [heq2]
  rw [seg_full l h] at hperm
  exact ⟨hperm, hsort⟩

/-! ### Bubble sort correctness (plain collection) -/

theorem bubbleInner_perm (cmp : Nat → Nat → Bool) :
    ∀ fuel (st : List Nat) (r : Nat) (sw : Bool), r + fuel < st.length →
      ((Sorting.bubbleInner plainColl cmp fuel st r sw).1).Perm st := by
  intro fuel
  induction fuel with
  | zero => intro st r sw _; exact List.Perm.refl st
  | succ m ih =>
    intro st r sw h
    rw [Sorting.bubbleInner]
    simp only [plain_rd, swapVia_plain]
    by_cases hc : cmp (rd st r) (rd st (r + 1)) = true
    · rw [if_pos hc]
      exact (ih (swapAt st r (r + 1)) (r + 1) true
        (by rw [length_swapAt]; omega)).trans (perm_swapAt st r (r + 1) (by omega) (by omega))
    · rw [if_neg hc]
      exact ih st (r + 1) sw (by omega)

theorem bubbleInner_gt :
    ∀ fuel (st : List Nat) (r : Nat) (sw : Bool), r + fuel < st.length →
      (∀ k, k < r ∨ r + fuel < k →
        rd (Sorting.bubbleInner plainColl Sorting.GreaterThan fuel st r sw).1 k = rd st k)
    ∧ ((Sorting.bubbleInner plainColl Sorting.GreaterThan fuel st r sw).2 = false →
        (Sorting.bubbleInner plainColl Sorting.GreaterThan fuel st r sw).1 = st
        ∧ sw = false
        ∧ (∀ k, r ≤ k → k < r + fuel → rd st k ≤ rd st (k + 1)))
    ∧ (∀ k, r ≤ k → k ≤ r + fuel →
        rd st k ≤ rd (Sorting.bubbleInner plainColl Sorting.GreaterThan fuel st r sw).1
          (r + fuel)) := by
  intro fuel
  induction fuel with
  | zero =>
    intro st r sw _
    show (∀ k, k < r ∨ r + 0 < k → rd st k = rd st k)
      ∧ (sw = false → st = st ∧ sw = false
          ∧ (∀ k, r ≤ k → k < r + 0 → rd st k ≤ rd st (k + 1)))
      ∧ (∀ k, r ≤ k → k ≤ r + 0 → rd st k ≤ rd st (r + 0))
    refine ⟨fun k _ => rfl, fun h => ⟨rfl, h, fun k _ h2 => by omega⟩, ?_⟩
    intro k h1 h2
    rw [show k = r + 0 by omega]
  | succ m ih =>
    intro st r sw h
    rw [Sorting.bubbleInner]
    simp only [plain_rd, swapVia_plain]
    by_cases hc : Sorting.GreaterThan (rd st r) (rd st (r + 1)) = true
    · rw [if_pos hc]
      have hgt : rd st (r + 1) < rd st r := by simpa [Sorting.GreaterThan] using hc
      have hr1 : r + 1 < st.length := by omega
      have hr0 : r < st.length := by omega
      obtain ⟨ih1, ih2, ih3⟩ := ih (swapAt st r (r + 1)) (r + 1) true
        (by rw [length_swapAt]; omega)
      have hlast : r + 1 + m = r + (m + 1) := by omega
      refine ⟨?_, ?_, ?_⟩
      · intro k hk
        rw [ih1 k (by omega)]
        exact rd_swapAt_other st r (r + 1) k (by omega) (by omega)
      · intro hfalse
        obtain ⟨_, htrue, _⟩ := ih2 hfalse
        exact absurd htrue (by simp)
      · intro k h1 h2
        rcases Nat.lt_or_ge k (r + 2) with hk2 | hk2
        · have hs1 : rd (swapAt st r (r + 1)) (r + 1) = rd st r :=
            rd_swapAt_snd st r (r + 1) hr1
          have hmax := ih3 (r + 1) (le_refl _) (by omega)
          rw [hs1] at hmax
          have hkr : rd st k ≤ rd st r := by
            rcases Nat.lt_or_ge k (r + 1) with hk1 | hk1
            · rw [show k = r by omega]
            · rw [show k = r + 1 by omega]; omega
          exact le_trans hkr (hlast ▸ hmax)
        · have heq : rd (swapAt st r (r + 1)) k = rd st k :=
            rd_swapAt_other st r (r + 1) k (by omega) (by omega)
          have h5 := ih3 k (by omega) (by omega)
          rw [heq] at h5
          exact hlast ▸ h5
    · rw [if_neg hc]
      have hle : rd st r ≤ rd st (r + 1) := by
        simp [Sorting.GreaterThan] at hc
        omega
      obtain ⟨ih1, ih2, ih3⟩ := ih st (r + 1) sw (by omega)
      have hlast : r + 1 + m = r + (m + 1) := by omega
      refine ⟨?_, ?_, ?_⟩
      · intro k hk
        exact ih1 k (by omega)
      · intro hfalse
        obtain ⟨hst, hsw, hadj⟩ := ih2 hfalse
        refine ⟨hst, hsw, ?_⟩
        intro k h1 h2
        rcases Nat.lt_or_ge k (r + 1) with hk1 | hk1
        · rw [show k = r by omega]
          exact hle
        · exact hadj k hk1 (by omega)
      · intro k h1 h2
        rcases Nat.lt_or_ge k (r + 1) with hk1 | hk1
        · have h5 := ih3 (r + 1) (le_refl _) (by omega)
          have h4 : rd st k ≤ rd st (r + 1) := by
            rw [show k = r by omega]
            exact hle
          exact le_trans h4 (hlast ▸ h5)
        · exact hlast ▸ ih3 k hk1 (by omega)

theorem take_perm_of_perm (l₁ l₂ : List Nat) (m : Nat) (hp : l₁.Perm l₂)
    (hd : l₁.drop m = l₂.drop m) : (l₁.take m).Perm (l₂.take m) := by
  have hp2 : (l₁.take m ++ l₁.drop m).Perm (l₂.take m ++ l₂.drop m) := by
    rw [List.take_append_drop, List.take_append_drop]
    exact hp
  rw [hd] at hp2
  exact (List.perm_append_right_iff _).mp hp2

theorem exists_prefix_source (st' st : List Nat) (mIdx : Nat) (hp : st'.Perm st)
    (hd : ∀ k, mIdx < k → rd st' k = rd st k) (hlen : mIdx < st.length) :
    ∀ k, k ≤ mIdx → ∃ k₀, k₀ ≤ mIdx ∧ rd st' k = rd st k₀ := by
  intro k hk
  have hlen' : st'.length = st.length := hp.length_eq
  have hdropeq : st'.drop (mIdx + 1) = st.drop (mIdx + 1) :=
    drop_eq_of_rd_eq st' st (mIdx + 1) hlen' (fun j hj _ => hd j (by omega))
  have htp : (st'.take (mIdx + 1)).Perm (st.take (mIdx + 1)) :=
    take_perm_of_perm st' st (mIdx + 1) hp hdropeq
  have hre : rd (st'.take (mIdx + 1)) k = rd st' k := by
    rw [rd_eq_getElem?, rd_eq_getElem?, List.getElem?_take, if_pos (by omega)]
  have hmem : rd st' k ∈ st'.take (mIdx + 1) := by
    rw [← hre]
    apply rd_mem
    rw [List.length_take]
    omega
  obtain ⟨k₀, hk₀, he⟩ := mem_exists_rd _ _ (htp.mem_iff.mp hmem)
  rw [List.length_take] at hk₀
  refine ⟨k₀, by omega, ?_⟩
  rw [← he, rd_eq_getElem?, rd_eq_getElem?, List.getElem?_take, if_pos (by omega)]

theorem bubbleOuter_perm (cmp : Nat → Nat → Bool) (n : Nat) (hn : 1 ≤ n) :
    ∀ fuel (st : List Nat) (left : Nat), st.length = n →
      (Sorting.bubbleOuter plainColl cmp n fuel st left).Perm st := by
  intro fuel
  induction fuel with
  | zero => intro st left _; exact List.Perm.refl st
  | succ m ih =>
    intro st left hlen
    rw [Sorting.bubbleOuter]
    show (if (Sorting.bubbleInner plainColl cmp (n - left - 1) st 0 false).2 then
        Sorting.bubbleOuter plainColl cmp n m
          (Sorting.bubbleInner plainColl cmp (n - left - 1) st 0 false).1 (left + 1)
      else (Sorting.bubbleInner plainColl cmp (n - left - 1) st 0 false).1).Perm st
    have hb : 0 + (n - left - 1) < st.length := by omega
    have hpermB := bubbleInner_perm cmp (n - left - 1) st 0 false hb
    by_cases hs : (Sorting.bubbleInner plainColl cmp (n - left - 1) st 0 false).2 = true
    · rw [if_pos hs]
      exact (ih _ (left + 1) (by rw [hpermB.length_eq, hlen])).trans hpermB
    · rw [if_neg hs]
      exact hpermB

theorem bubbleOuter_gt (n : Nat) (hn : 1 ≤ n) :
    ∀ fuel (st : List Nat) (left : Nat), st.length = n → left + fuel = n - 1 →
      (∀ j k, n - left ≤ j → j ≤ k → k < n → rd st j ≤ rd st k) →
      (∀ i j, i < n - left → n - left ≤ j → j < n → rd st i ≤ rd st j) →
      (Sorting.bubbleOuter plainColl Sorting.GreaterThan n fuel st left).Sorted (· ≤ ·) := by
  intro fuel
  induction fuel with
  | zero =>
    intro st left hlen hleft hsuf hdom
    show st.Sorted (· ≤ ·)
    rw [sorted_iff_adjLE]
    intro k hk
    rw [hlen] at hk
    rcases Nat.eq_zero_or_pos k with hk0 | hkpos
    · rw [hk0]
      exact hdom 0 1 (by omega) (by omega) (by omega)
    · exact hsuf k (k + 1) (by omega) (by omega) (by omega)
  | succ m ih =>
    intro st left hlen hleft hsuf hdom
    rw [Sorting.bubbleOuter]
    show (if (Sorting.bubbleInner plainColl Sorting.GreaterThan (n - left - 1) st 0 false).2
        then Sorting.bubbleOuter plainColl Sorting.GreaterThan n m
          (Sorting.bubbleInner plainColl Sorting.GreaterThan (n - left - 1) st 0 false).1
          (left + 1)
      else (Sorting.bubbleInner plainColl Sorting.GreaterThan (n - left - 1) st 0
          false).1).Sorted (· ≤ ·)
    have hb : 0 + (n - left - 1) < st.length := by omega
    obtain ⟨hunt, hnoswap, hmax⟩ :=
      bubbleInner_gt (n - left - 1) st 0 false hb
    have hperm := bubbleInner_perm Sorting.GreaterThan (n - left - 1) st 0 false hb
    simp only [Nat.zero_add] at hunt hnoswap hmax
    set B := Sorting.bubbleInner plainColl Sorting.GreaterThan (n - left - 1) st 0 false
    by_cases hswapped : B.2 = true
    · rw [if_pos hswapped]
      have hlen1 : B.1.length = n := by rw [hperm.length_eq, hlen]
      have hsrc := exists_prefix_source B.1 st (n - left - 1) hperm
        (fun k hk => hunt k (by omega)) (by omega)
      have hunt2 : ∀ k, n - left - 1 < k → rd B.1 k = rd st k :=
        fun k hk => hunt k (by omega)
      refine ih B.1 (left + 1) hlen1 (by omega) ?_ ?_
      · intro j k hj hjk hk
        by_cases hj1 : j = n - left - 1
        · by_cases hk1 : k = n - left - 1
          · rw [hj1, hk1]
          · obtain ⟨k₀, hk₀, he⟩ := hsrc j (by omega)
            rw [he, hunt2 k (by omega)]
            exact hdom k₀ k (by omega) (by omega) hk
        · rw [hunt2 j (by omega), hunt2 k (by omega)]
          exact hsuf j k (by omega) hjk hk
      · intro i j hi hj hjn
        obtain ⟨k₀, hk₀, he⟩ := hsrc i (by omega)
        rw [he]
        by_cases hj1 : j = n - left - 1
        · rw [hj1]
          exact hmax k₀ (by omega) (by omega)
        · rw [hunt2 j (by omega)]
          exact hdom k₀ j (by omega) (by omega) hjn
    · rw [if_neg hswapped]
      have hfalse : B.2 = false := by
        cases hB : B.2
        · rfl
        · exact absurd hB hswapped
      obtain ⟨hst, _, hadj⟩ := hnoswap hfalse
      rw [hst, sorted_iff_adjLE]
      intro k hk
      rw [hlen] at hk
      rcases Nat.lt_or_ge k (n - left - 1) with hk1 | hk1
      · exact hadj k (by omega) (by omega)
      · by_cases hkj : k = n - left - 1
        · exact hdom k (k + 1) (by omega) (by omega) (by omega)
        · exact hsuf k (k + 1) (by omega) (by omega) (by omega)

/-- `Sorting::BubbleSort` on the whole collection: the result is a permutation
of the input, and with the default comparer it is nondecreasing. -/
theorem bubbleSort_plain (cmp : Nat → Nat → Bool) (l : List Nat) (h : 1 ≤ l.length) :
    (Sorting.BubbleSort l.length l plainColl cmp).Perm l
  ∧ (cmp = Sorting.GreaterThan →
      (Sorting.BubbleSort l.length l plainColl cmp).Sorted (· ≤ ·)) := by
  constructor
  · exact bubbleOuter_perm cmp l.length h (l.length - 1) l 0 rfl
  · intro hgt
    rw [Sorting.BubbleSort, hgt]
    refine bubbleOuter_gt l.length h (l.length - 1) l 0 rfl (by omega) ?_ ?_
    · intro j k hj _ hk
      omega
    · intro i j _ hj hjn
      omega

/-! ### Claim theorems settled by concrete evaluation -/

/-- C1: the claim fails on the code.  On the list `[10,20,30,40,50]` the index
`3` satisfies `3 > size / 2`, so `Get(3)` walks backward from the tail; but
`Node::operator-(Count)` steps `Count + 1` nodes and then one more `previous`
(instead of `Count - 1` and then one `next` as in `operator+`), so `Get(3)`
returns the element at position 1 (`20`), not position 3 (`40`); likewise
`Insert(3, 99)` splices at position 1, and `Get(3)` afterwards returns `30`,
not `99` (though the size does grow by 1). -/
theorem c1_traverse_bug :
    LList.Get [10, 20, 30, 40, 50] 3 = .ok 20
  ∧ LList.Insert [10, 20, 30, 40, 50] 3 99 = .ok [10, 99, 20, 30, 40, 50]
  ∧ LList.Get [10, 99, 20, 30, 40, 50] 3 = .ok 30
  ∧ Traverse 5 3 = some 1 ∧ nodeAdd 5 (some 0) 3 = some 3 := by decide

/-- C2 counterexample: with the comparer `a < b` on the collection `[1, 2]`,
`QuickSort` returns `[1, 2]` (its partition ignores the supplied comparer and
uses the default `GreaterThan`), and `IsSorted` with that same comparer then
returns `false` — refuting "for every comparer … after QuickSort, IsSorted
with the same comparer returns true". -/
theorem c2_quicksort_ignores_comparer :
    Sorting.QuickSort 2 [1, 2] plainColl (fun a b => decide (a < b)) = [1, 2]
  ∧ Sorting.IsSorted plainColl 2 [1, 2] (fun a b => decide (a < b)) = false := by decide

/-- C3: the claim fails on the code.  `RecursiveQuickSort` calls `Partition`
without forwarding the supplied comparer, so the partition uses the default
`GreaterThan`.  With the supplied comparer `a < b` on `[0, 3]` (range `0..1`,
pivot `3`): the partition the claim describes would put only the elements with
`¬(element < pivot)` first, giving `([3, 0], 0)`, but `QuickSort` produces
`[0, 3]`, exactly the `GreaterThan` partition `([0, 3], 1)`. -/
theorem c3_partition_comparer_dropped :
    Sorting.QuickSort 2 [0, 3] plainColl (fun a b => decide (a < b)) = [0, 3]
  ∧ Sorting.Partition plainColl [0, 3] 0 1 Sorting.GreaterThan = ([0, 3], 1)
  ∧ Sorting.Partition plainColl [0, 3] 0 1 (fun a b => decide (a < b)) = ([3, 0], 0) := by
  decide

/-- C4: the claim fails on the code at size 0.  `Sorting::IsSorted` computes
the loop bound `Size - 1` in `size_t`, which wraps to `2 ^ 64 - 1` when
`Size == 0`, so `List::IsSorted()` on an empty list immediately reads
`Collection[0]` and raises the out-of-range error carrying index 0 and size 0
instead of returning `true`.  For sizes `1` and above the scan behaves as the
claim states. -/
theorem c4_issorted_empty_throws :
    LList.IsSorted ([] : List Nat) = .error ⟨0, 0⟩
  ∧ LList.IsSorted [7] = .ok true
  ∧ LList.IsSorted [1, 2, 3] = .ok true
  ∧ LList.IsSorted [2, 1] = .ok false := by decide

/-- C5: the claim fails on the code.  `Reverse()` does perform the
`size/2` calls `Swap(k, size - k - 1)`, but `Swap` locates its nodes through
the broken backward traversal: on `[0,1,2,3,4,5]` the three calls actually
transpose positions `(0,5)`, `(1,2)` and `(2,3)`, which is not an involution,
so `Reverse()` applied twice yields `[0,3,1,2,4,5]`, not the original order
(a single `Reverse()` yields `[5,2,3,1,4,0]`, which is not the reversal
either). -/
theorem c5_reverse_twice_not_identity :
    LList.Reverse [0, 1, 2, 3, 4, 5] = [5, 2, 3, 1, 4, 0]
  ∧ LList.Reverse (LList.Reverse [0, 1, 2, 3, 4, 5]) = [0, 3, 1, 2, 4, 5]
  ∧ [0, 3, 1, 2, 4, 5] ≠ [0, 1, 2, 3, 4, 5] := by decide

/-- C6: the claim fails on the code.  `List::QuickSort()` on `[3,1,4,1,5]`
yields `[1,4,3,1,5]` — not the `[5,4,3,1,1]` the claim states — because the
sort's element accesses go through the broken backward traversal
(`Collection[3]` actually touches position 1 on a list of size 5); even with
traversal fixed, the code's default comparer yields the ascending order
`[1,1,3,4,5]`, not the descending `[5,4,3,1,1]`.  The search results do hold:
`Find(1) = 1`, `FindLast(1) = 3`, `Total(1) = 2`. -/
theorem c6_concrete_scenario :
    LList.QuickSort [3, 1, 4, 1, 5] = [1, 4, 3, 1, 5]
  ∧ Sorting.QuickSort 5 [3, 1, 4, 1, 5] plainColl Sorting.GreaterThan = [1, 1, 3, 4, 5]
  ∧ [1, 4, 3, 1, 5] ≠ [5, 4, 3, 1, 1]
  ∧ LList.Find [3, 1, 4, 1, 5] 1 = 1
  ∧ LList.FindLast [3, 1, 4, 1, 5] 1 = 3
  ∧ LList.Total [3, 1, 4, 1, 5] 1 = 2 := by decide

/-- C9: self-assignment is a no-op — both assignment operators begin with an
address check (`this == &Copied` / `this == &Moved`) and return the list
unchanged when it holds, so copy-assigning or move-assigning a list to itself
leaves its size and element sequence unchanged. -/
theorem c9_self_assignment_noop (l : List Nat) :
    LList.CopyAssign true l l = l ∧ LList.MoveAssign true l l = (l, l) :=
  ⟨rfl, rfl⟩

/-- C2 (amended): for every comparer and every collection, BubbleSort,
MergeSort and QuickSort each produce a permutation of the input; after
sorting with the default `GreaterThan` comparer (the only comparer QuickSort's
partition actually applies, since `RecursiveQuickSort` does not forward the
supplied one), `IsSorted` with the default comparer returns `true` — for
QuickSort this holds for every supplied comparer — and all three sorts
produce the identical final order (in particular on collections with
pairwise-distinct elements). -/
theorem c2_sorts_with_default_comparer (cmp : Nat → Nat → Bool) (l : List Nat)
    (h : 1 ≤ l.length) :
    (Sorting.BubbleSort l.length l plainColl cmp).Perm l
  ∧ (Sorting.MergeSort l.length l plainColl cmp).Perm l
  ∧ (Sorting.QuickSort l.length l plainColl cmp).Perm l
  ∧ Sorting.IsSorted plainColl l.length
      (Sorting.BubbleSort l.length l plainColl Sorting.GreaterThan)
      Sorting.GreaterThan = true
  ∧ Sorting.IsSorted plainColl l.length
      (Sorting.MergeSort l.length l plainColl Sorting.GreaterThan)
      Sorting.GreaterThan = true
  ∧ Sorting.IsSorted plainColl l.length
      (Sorting.QuickSort l.length l plainColl cmp) Sorting.GreaterThan = true
  ∧ Sorting.BubbleSort l.length l plainColl Sorting.GreaterThan
      = Sorting.MergeSort l.length l plainColl Sorting.GreaterThan
  ∧ Sorting.MergeSort l.length l plainColl Sorting.GreaterThan
      = Sorting.QuickSort l.length l plainColl Sorting.GreaterThan := by
  obtain ⟨hbp, _⟩ := bubbleSort_plain cmp l h
  obtain ⟨hmp, _⟩ := mergeSort_plain cmp l h
  obtain ⟨hqp, hqs⟩ := quickSort_plain cmp l h
  obtain ⟨hbp', hbs'⟩ := bubbleSort_plain Sorting.GreaterThan l h
  obtain ⟨hmp', hms'⟩ := mergeSort_plain Sorting.GreaterThan l h
  obtain ⟨hqp', hqs'⟩ := quickSort_plain Sorting.GreaterThan l h
  have hbsort := hbs' rfl
  have hmsort := hms' rfl
  refine ⟨hbp, hmp, hqp, ?_, ?_, ?_, ?_, ?_⟩
  · exact isSorted_of_sorted _ _ hbp'.length_eq.symm hbsort
  · exact isSorted_of_sorted _ _ hmp'.length_eq.symm hmsort
  · exact isSorted_of_sorted _ _ hqp.length_eq.symm hqs
  · exact List.eq_of_perm_of_sorted (hbp'.trans hmp'.symm) hbsort hmsort
  · exact List.eq_of_perm_of_sorted (hmp'.trans hqp'.symm) hmsort hqs'

/-- Witness for the amended C2 at a concrete comparer and collection. -/
theorem c2_sorts_with_default_comparer_witness :
    (Sorting.BubbleSort 3 [3, 1, 2] plainColl (fun a b => decide (a < b))).Perm [3, 1, 2]
  ∧ (Sorting.MergeSort 3 [3, 1, 2] plainColl (fun a b => decide (a < b))).Perm [3, 1, 2]
  ∧ (Sorting.QuickSort 3 [3, 1, 2] plainColl (fun a b => decide (a < b))).Perm [3, 1, 2]
  ∧ Sorting.IsSorted plainColl 3
      (Sorting.BubbleSort 3 [3, 1, 2] plainColl Sorting.GreaterThan)
      Sorting.GreaterThan = true
  ∧ Sorting.IsSorted plainColl 3
      (Sorting.MergeSort 3 [3, 1, 2] plainColl Sorting.GreaterThan)
      Sorting.GreaterThan = true
  ∧ Sorting.IsSorted plainColl 3
      (Sorting.QuickSort 3 [3, 1, 2] plainColl (fun a b => decide (a < b)))
      Sorting.GreaterThan = true
  ∧ Sorting.BubbleSort 3 [3, 1, 2] plainColl Sorting.GreaterThan
      = Sorting.MergeSort 3 [3, 1, 2] plainColl Sorting.GreaterThan
  ∧ Sorting.MergeSort 3 [3, 1, 2] plainColl Sorting.GreaterThan
      = Sorting.QuickSort 3 [3, 1, 2] plainColl Sorting.GreaterThan :=
  c2_sorts_with_default_comparer (fun a b => decide (a < b)) [3, 1, 2] (by decide)

/-- C7: every index-taking operation called with an index outside its valid
range (`i ≥ size` for `Get`/`Erase`/`Swap`, `i > size` for `Insert`, and the
offending of the two indices for `Swap`), and `Front`/`Back`/`PopFront`/
`PopBack` on an empty list, raises the synchronous out-of-range error carrying
the offending index and the current size.  Each operation validates before
mutating (the error is produced before any node surgery), so the list is left
unchanged; for `Back`/`PopBack` on size 0 the offending index is the `size_t`
value `size - 1 = 2 ^ 64 - 1`. -/
theorem c7_out_of_range_errors (l : List Nat) (i j v : Nat) :
    (l.length ≤ i → LList.Get l i = .error ⟨i, l.length⟩)
  ∧ (l.length < i → LList.Insert l i v = .error ⟨i, l.length⟩)
  ∧ (l.length ≤ i → LList.Erase l i = .error ⟨i, l.length⟩)
  ∧ (l.length ≤ i → LList.Swap l i j = .error ⟨i, l.length⟩)
  ∧ (i < l.length → l.length ≤ j → LList.Swap l i j = .error ⟨j, l.length⟩)
  ∧ (l = [] →
      LList.Front l = .error ⟨0, 0⟩ ∧ LList.Back l = .error ⟨U64 - 1, 0⟩
    ∧ LList.PopFront l = .error ⟨0, 0⟩ ∧ LList.PopBack l = .error ⟨U64 - 1, 0⟩) := by
  refine ⟨fun h => ?_, fun h => ?_, fun h => ?_, fun h => ?_, fun h1 h2 => ?_, fun h => ?_⟩
  · simp [LList.Get, show ¬ i < l.length by omega]
  · simp [LList.Insert, h]
  · simp [LList.Erase, show ¬ i < l.length by omega]
  · simp [LList.Swap, show ¬ i < l.length by omega]
  · simp [LList.Swap, h1, show ¬ j < l.length by omega]
  · subst h
    exact ⟨by decide, by decide, by decide, by decide⟩

/-- Witness for C7 at concrete inputs. -/
theorem c7_out_of_range_errors_witness :
    LList.Get [5] 3 = .error ⟨3, 1⟩ ∧ LList.Swap [5] 0 7 = .error ⟨7, 1⟩
  ∧ LList.Front ([] : List Nat) = .error ⟨0, 0⟩ :=
  ⟨(c7_out_of_range_errors [5] 3 0 0).1 (by decide),
   (c7_out_of_range_errors [5] 0 7 0).2.2.2.2.1 (by decide) (by decide),
   ((c7_out_of_range_errors [] 0 0 0).2.2.2.2.2 rfl).1⟩

/-- C10: for valid indices `i`, `j`, calling `Swap(i, j)` twice restores the
list (each call exchanges the data of the same two traversed nodes, so the
composite is the identity — this holds even though the backward traversal can
place both indices on the same wrong node), and `Swap(i, i)` leaves the list
unchanged. -/
theorem c10_swap_involution (l : List Nat) (i j : Nat) (hi : i < l.length)
    (hj : j < l.length) :
    (LList.Swap l i j).bind (fun l2 => LList.Swap l2 i j) = .ok l
  ∧ LList.Swap l i i = .ok l := by
  have hpi := tIdx_lt l.length i hi
  have hpj := tIdx_lt l.length j hj
  constructor
  · have h1 : LList.Swap l i j = .ok (swapAt l (tIdx l.length i) (tIdx l.length j)) := by
      simp [LList.Swap, hi, hj]
    rw [h1]
    have hlen : (swapAt l (tIdx l.length i) (tIdx l.length j)).length = l.length :=
      length_swapAt l _ _
    have h2 : LList.Swap (swapAt l (tIdx l.length i) (tIdx l.length j)) i j =
        .ok (swapAt (swapAt l (tIdx l.length i) (tIdx l.length j))
          (tIdx l.length i) (tIdx l.length j)) := by
      simp [LList.Swap, hlen, hi, hj]
    show (LList.Swap (swapAt l (tIdx l.length i) (tIdx l.length j)) i j) = .ok l
    rw [h2, swapAt_swapAt l _ _ hpi hpj]
  · have h1 : LList.Swap l i i = .ok (swapAt l (tIdx l.length i) (tIdx l.length i)) := by
      simp [LList.Swap, hi]
    rw [h1, swapAt_self]

/-- Witness for C10 at a concrete input. -/
theorem c10_swap_involution_witness :
    (LList.Swap [1, 2, 3, 4, 5] 3 1).bind (fun l2 => LList.Swap l2 3 1) = .ok [1, 2, 3, 4, 5]
  ∧ LList.Swap [1, 2, 3, 4, 5] 3 3 = .ok [1, 2, 3, 4, 5] :=
  c10_swap_involution [1, 2, 3, 4, 5] 3 1 (by decide) (by decide)

/-! ### Heap lemmas for the pointer model -/

theorem hfind_hupd (h : List (Nat × PNode)) (a : Nat) (f : PNode → PNode) (b : Nat) :
    hfind (hupd h a f) b = if b = a then (hfind h b).map f else hfind h b := by
  induction h with
  | nil =>
    show (none : Option PNode) = if b = a then Option.map f none else none
    split <;> rfl
  | cons p t ih =>
    obtain ⟨k, nd⟩ := p
    show hfind ((if k = a then (k, f nd) else (k, nd)) :: hupd t a f) b
        = if b = a then (hfind ((k, nd) :: t) b).map f else hfind ((k, nd) :: t) b
    by_cases hka : k = a
    · by_cases hkb : k = b
      · have hba : b = a := by omega
        rw [if_pos hka]
        show (if k = b then some (f nd) else hfind (hupd t a f) b) = _
        rw [if_pos hkb, if_pos hba]
        show some (f nd) = (if k = b then some nd else hfind t b).map f
        rw [if_pos hkb]
        rfl
      · rw [if_pos hka]
        show (if k = b then some (f nd) else hfind (hupd t a f) b) = _
        rw [if_neg hkb, ih]
        show _ = if b = a then (if k = b then some nd else hfind t b).map f
            else (if k = b then some nd else hfind t b)
        rw [if_neg hkb]
    · rw [if_neg hka]
      show (if k = b then some nd else hfind (hupd t a f) b) = _
      by_cases hkb : k = b
      · have hba : ¬ b = a := by omega
        rw [if_pos hkb, if_neg hba]
        show _ = if k = b then some nd else hfind t b
        rw [if_pos hkb]
      · rw [if_neg hkb, ih]
        show _ = if b = a then (if k = b then some nd else hfind t b).map f
            else (if k = b then some nd else hfind t b)
        rw [if_neg hkb]

theorem hfind_append (h₁ h₂ : List (Nat × PNode)) (b : Nat) :
    hfind (h₁ ++ h₂) b
      = match hfind h₁ b with
        | some nd => some nd
        | none => hfind h₂ b := by
  induction h₁ with
  | nil => rfl
  | cons p t ih =>
    obtain ⟨k, nd⟩ := p
    show (if k = b then some nd else hfind (t ++ h₂) b) = _
    by_cases hkb : k = b
    · rw [if_pos hkb]
      show _ = match (if k = b then some nd else hfind t b) with
        | some nd => some nd
        | none => hfind h₂ b
      rw [if_pos hkb]
    · rw [if_neg hkb, ih]
      show _ = match (if k = b then some nd else hfind t b) with
        | some nd => some nd
        | none => hfind h₂ b
      rw [if_neg hkb]

theorem hfind_hrem (h : List (Nat × PNode)) (a b : Nat) :
    hfind (hrem h a) b = if b = a then none else hfind h b := by
  induction h with
  | nil =>
    show (none : Option PNode) = if b = a then none else none
    split <;> rfl
  | cons p t ih =>
    obtain ⟨k, nd⟩ := p
    show hfind (List.filter (fun p => decide (p.1 ≠ a)) ((k, nd) :: t)) b = _
    rw [List.filter_cons]
    by_cases hka : k = a
    · rw [if_neg (by simp [hka])]
      show hfind (hrem t a) b = _
      rw [ih]
      by_cases hba : b = a
      · rw [if_pos hba, if_pos hba]
      · rw [if_neg hba, if_neg hba]
        show _ = if k = b then some nd else hfind t b
        rw [if_neg (by omega : ¬ k = b)]
    · rw [if_pos (by simp [hka])]
      show (if k = b then some nd else hfind (hrem t a) b) = _
      by_cases hkb : k = b
      · rw [if_pos hkb, if_neg (by omega : ¬ b = a)]
        show _ = if k = b then some nd else hfind t b
        rw [if_pos hkb]
      · rw [if_neg hkb, ih]
        by_cases hba : b = a
        · rw [if_pos hba, if_pos hba]
        · rw [if_neg hba, if_neg hba]
          show _ = if k = b then some nd else hfind t b
          rw [if_neg hkb]

theorem hfind_mem_keys (h : List (Nat × PNode)) (b : Nat) (nd : PNode)
    (hf : hfind h b = some nd) : b ∈ h.map Prod.fst := by
  induction h with
  | nil => exact absurd hf (by simp [hfind])
  | cons p t ih =>
    obtain ⟨k, nd'⟩ := p
    rw [show hfind ((k, nd') :: t) b = if k = b then some nd' else hfind t b from rfl] at hf
    by_cases hkb : k = b
    · simp [hkb]
    · rw [if_neg hkb] at hf
      simp [ih hf]

theorem hfind_eq_none (h : List (Nat × PNode)) (b : Nat)
    (hb : b ∉ h.map Prod.fst) : hfind h b = none := by
  cases hf : hfind h b with
  | none => rfl
  | some nd => exact absurd (hfind_mem_keys h b nd hf) hb

theorem keys_hupd (h : List (Nat × PNode)) (a : Nat) (f : PNode → PNode) :
    (hupd h a f).map Prod.fst = h.map Prod.fst := by
  induction h with
  | nil => rfl
  | cons p t ih =>
    obtain ⟨k, nd⟩ := p
    show (if k = a then (k, f nd) else (k, nd)).1 :: (hupd t a f).map Prod.fst = _
    rw [ih]
    by_cases hka : k = a
    · rw [if_pos hka]
      rfl
    · rw [if_neg hka]
      rfl

theorem keys_hrem (h : List (Nat × PNode)) (a : Nat) :
    (hrem h a).map Prod.fst = (h.map Prod.fst).filter (fun x => decide (x ≠ a)) := by
  induction h with
  | nil => rfl
  | cons p t ih =>
    obtain ⟨k, nd⟩ := p
    show (List.filter (fun p => decide (p.1 ≠ a)) ((k, nd) :: t)).map Prod.fst = _
    rw [List.filter_cons, show ((k, nd) :: t).map Prod.fst = k :: t.map Prod.fst from rfl,
      List.filter_cons]
    by_cases hka : k = a
    · rw [if_neg (by simp [hka]), if_neg (by simp [hka])]
      exact ih
    · rw [if_pos (by simp [hka]), if_pos (by simp [hka])]
      show k :: (hrem t a).map Prod.fst = _
      rw [ih]

theorem mem_keys_hrem (h : List (Nat × PNode)) (a x : Nat)
    (hx : x ∈ (hrem h a).map Prod.fst) : x ∈ h.map Prod.fst ∧ x ≠ a := by
  rw [keys_hrem] at hx
  have := List.mem_filter.mp hx
  simpa using this

/-! ### Reading the chain positionally -/

theorem rd_cons_zero (a : Nat) (l : List Nat) : rd (a :: l) 0 = a := rfl

theorem rd_cons_succ (a : Nat) (l : List Nat) (k : Nat) :
    rd (a :: l) (k + 1) = rd l k := rfl

theorem rd_drop (c : List Nat) (m k : Nat) : rd (c.drop m) k = rd c (m + k) := by
  rw [rd_eq_getElem?, rd_eq_getElem?, List.getElem?_drop]

theorem rd_take (c : List Nat) (n k : Nat) (h : k < n) :
    rd (c.take n) k = rd c k := by
  rw [rd_eq_getElem?, rd_eq_getElem?, List.getElem?_take, if_pos h]

theorem rd_append_left (l l' : List Nat) (k : Nat) (h : k < l.length) :
    rd (l ++ l') k = rd l k := by
  rw [rd_eq_getElem?, rd_eq_getElem?, List.getElem?_append, if_pos h]

theorem rd_append_right (l l' : List Nat) (k : Nat) (h : l.length ≤ k) :
    rd (l ++ l') k = rd l' (k - l.length) := by
  rw [rd_eq_getElem?, rd_eq_getElem?, List.getElem?_append, if_neg (by omega)]

theorem head?_eq_rd (c : List Nat) (h : c ≠ []) : c.head? = some (rd c 0) := by
  cases c with
  | nil => exact absurd rfl h
  | cons a t => rfl

theorem getLast?_eq_rd (c : List Nat) (h : c ≠ []) :
    c.getLast? = some (rd c (c.length - 1)) := by
  have hl : 0 < c.length := List.length_pos.mpr h
  rw [List.getLast?_eq_getElem?, rd_eq_getElem?, List.getElem?_eq_getElem (by omega)]
  rfl

theorem rd_inj (c : List Nat) (hnd : c.Nodup) (i j : Nat) (hi : i < c.length)
    (hj : j < c.length) (he : rd c i = rd c j) : i = j := by
  rw [rd_eq_getElem?, rd_eq_getElem?, List.getElem?_eq_getElem hi,
    List.getElem?_eq_getElem hj] at he
  exact (List.Nodup.getElem_inj_iff hnd).mp (by simpa using he)

theorem rd_ne (c : List Nat) (hnd : c.Nodup) (i j : Nat) (hi : i < c.length)
    (hj : j < c.length) (hij : i ≠ j) : rd c i ≠ rd c j :=
  fun he => hij (rd_inj c hnd i j hi hj he)

/-! ### The chain predicate, characterized pointwise -/

theorem chainSegB_nil (h : List (Nat × PNode)) (prev nxt : Option Nat) :
    chainSegB h prev [] nxt = true := rfl

theorem chainSegB_cons (h : List (Nat × PNode)) (prev : Option Nat) (a : Nat)
    (rest : List Nat) (nxt : Option Nat) :
    chainSegB h prev (a :: rest) nxt
      = (match hfind h a with
        | none => false
        | some nd =>
          decide (nd.previous = prev)
            && decide (nd.next = (match rest with | [] => nxt | b :: _ => some b))
            && chainSegB h (some a) rest nxt) := rfl

theorem chainOk_nil (h : List (Nat × PNode)) (prev nxt : Option Nat) :
    chainOk h prev [] nxt := by
  intro k hk
  exact absurd hk (by simp)

theorem chainOk_cons (h : List (Nat × PNode)) (prev : Option Nat) (a : Nat)
    (rest : List Nat) (nxt : Option Nat) :
    chainOk h prev (a :: rest) nxt ↔
      ((∃ nd, hfind h a = some nd ∧ nd.previous = prev
          ∧ nd.next = (match rest with | [] => nxt | b :: _ => some b))
        ∧ chainOk h (some a) rest nxt) := by
  constructor
  · intro hc
    constructor
    · obtain ⟨nd, hfd, hp, hn⟩ := hc 0 (by simp)
      refine ⟨nd, hfd, by simpa using hp, ?_⟩
      rw [hn]
      cases rest with
      | nil => rw [if_neg (by simp)]
      | cons b rest' =>
        rw [if_pos (by simp)]
        rfl
    · intro k hk
      obtain ⟨nd, hfd, hp, hn⟩ := hc (k + 1) (by simpa using Nat.succ_lt_succ hk)
      refine ⟨nd, by rwa [rd_cons_succ] at hfd, ?_, ?_⟩
      · rw [hp, if_neg (Nat.succ_ne_zero k)]
        by_cases h0 : k = 0
        · subst h0
          rw [if_pos rfl]
          rfl
        · rw [if_neg h0, show k + 1 - 1 = (k - 1) + 1 by omega, rd_cons_succ]
      · rw [hn]
        by_cases h1 : k + 1 < rest.length
        · rw [if_pos (by simpa using Nat.succ_lt_succ h1), if_pos h1,
            show k + 1 + 1 = (k + 1) + 1 from rfl, rd_cons_succ]
        · rw [if_neg (by simp; omega), if_neg h1]
  · rintro ⟨⟨nd, hfd, hp, hn⟩, hrest⟩
    intro k hk
    cases k with
    | zero =>
      refine ⟨nd, hfd, by rw [if_pos rfl]; exact hp, ?_⟩
      rw [hn]
      cases rest with
      | nil => rw [if_neg (by simp)]
      | cons b rest' =>
        rw [if_pos (by simp)]
        rfl
    | succ k' =>
      obtain ⟨nd', hfd', hp', hn'⟩ := hrest k' (Nat.lt_of_succ_lt_succ (by simpa using hk))
      refine ⟨nd', by rwa [rd_cons_succ], ?_, ?_⟩
      · rw [hp', if_neg (Nat.succ_ne_zero k')]
        by_cases h0 : k' = 0
        · subst h0
          rw [if_pos rfl]
          rfl
        · rw [if_neg h0, show k' + 1 - 1 = (k' - 1) + 1 by omega, rd_cons_succ]
      · rw [hn']
        by_cases h1 : k' + 1 < rest.length
        · rw [if_pos h1, if_pos (by simpa using Nat.succ_lt_succ h1),
            show k' + 1 + 1 = (k' + 1) + 1 from rfl, rd_cons_succ]
        · rw [if_neg h1, if_neg (by simp; omega)]

theorem chainSeg_iff (h : List (Nat × PNode)) (c : List Nat) :
    ∀ prev nxt, chainSegB h prev c nxt = true ↔ chainOk h prev c nxt := by
  induction c with
  | nil =>
    intro prev nxt
    constructor
    · intro _
      exact chainOk_nil h prev nxt
    · intro _
      rfl
  | cons a rest ih =>
    intro prev nxt
    rw [chainSegB_cons, chainOk_cons]
    cases hfd : hfind h a with
    | none =>
      constructor
      · intro hfalse
        cases hfalse
      · rintro ⟨⟨nd, hfd', _, _⟩, _⟩
        cases hfd'
    | some nd =>
      simp only [Bool.and_eq_true, decide_eq_true_eq, ih (some a) nxt, Option.some.injEq]
      constructor
      · rintro ⟨⟨hp, hn⟩, hrest⟩
        exact ⟨⟨nd, rfl, hp, hn⟩, hrest⟩
      · rintro ⟨⟨nd', heq, hp, hn⟩, hrest⟩
        subst heq
        exact ⟨⟨hp, hn⟩, hrest⟩

theorem chainOk_hupd_data (h : List (Nat × PNode)) (prev : Option Nat) (c : List Nat)
    (nxt : Option Nat) (a : Nat) (g : PNode → PNode)
    (hg : ∀ nd, (g nd).previous = nd.previous ∧ (g nd).next = nd.next)
    (hc : chainOk h prev c nxt) : chainOk (hupd h a g) prev c nxt := by
  intro k hk
  obtain ⟨nd, hfd, hp, hn⟩ := hc k hk
  rw [hfind_hupd]
  by_cases hka : rd c k = a
  · rw [if_pos hka, hfd]
    exact ⟨g nd, rfl, by rw [(hg nd).1, hp], by rw [(hg nd).2, hn]⟩
  · rw [if_neg hka]
    exact ⟨nd, hfd, hp, hn⟩

/-! ### Walks along a well-formed chain -/

theorem piterF_chainOk (h : List (Nat × PNode)) (c : List Nat)
    (hch : chainOk h none c none) :
    ∀ j k, k + j < c.length → piterF h j (some (rd c k)) = some (rd c (k + j)) := by
  intro j
  induction j with
  | zero =>
    intro k _
    rfl
  | succ m ih =>
    intro k hk
    show piterF h m (pstepF h (some (rd c k))) = some (rd c (k + (m + 1)))
    obtain ⟨nd, hfd, _, hn⟩ := hch k (by omega)
    have hstep : pstepF h (some (rd c k)) = some (rd c (k + 1)) := by
      show (match hfind h (rd c k) with | none => none | some nd => nd.next) = _
      rw [hfd]
      show nd.next = _
      rw [hn, if_pos (by omega)]
    rw [hstep, ih (k + 1) (by omega), show k + 1 + m = k + (m + 1) by omega]

theorem piterB_chainOk (h : List (Nat × PNode)) (c : List Nat)
    (hch : chainOk h none c none) :
    ∀ j k, j ≤ k → k < c.length → piterB h j (some (rd c k)) = some (rd c (k - j)) := by
  intro j
  induction j with
  | zero =>
    intro k _ _
    rfl
  | succ m ih =>
    intro k hjk hk
    show piterB h m (pstepB h (some (rd c k))) = some (rd c (k - (m + 1)))
    obtain ⟨nd, hfd, hp, _⟩ := hch k hk
    have hstep : pstepB h (some (rd c k)) = some (rd c (k - 1)) := by
      show (match hfind h (rd c k) with | none => none | some nd => nd.previous) = _
      rw [hfd]
      show nd.previous = _
      rw [hp, if_neg (by omega)]
    rw [hstep, ih (k - 1) (by omega) (by omega), show k - 1 - m = k - (m + 1) by omega]

theorem pstepF_sim (h : List (Nat × PNode)) (c : List Nat) (hch : chainOk h none c none)
    (p q : Option Nat) (hs : psim c p q) : psim c (stepF c.length p) (pstepF h q) := by
  rcases hs with ⟨hp, hq⟩ | ⟨k, hk, hp, hq⟩
  · subst hp
    subst hq
    exact Or.inl ⟨rfl, rfl⟩
  · subst hp
    subst hq
    obtain ⟨nd, hfd, _, hn⟩ := hch k hk
    have hq' : pstepF h (some (rd c k)) = nd.next := by
      show (match hfind h (rd c k) with | none => none | some nd => nd.next) = _
      rw [hfd]
    by_cases h1 : k + 1 < c.length
    · refine Or.inr ⟨k + 1, h1, ?_, ?_⟩
      · show (if k + 1 < c.length then some (k + 1) else none) = some (k + 1)
        rw [if_pos h1]
      · rw [hq', hn, if_pos h1]
    · refine Or.inl ⟨?_, ?_⟩
      · show (if k + 1 < c.length then some (k + 1) else none) = none
        rw [if_neg h1]
      · rw [hq', hn, if_neg h1]

theorem pstepB_sim (h : List (Nat × PNode)) (c : List Nat) (hch : chainOk h none c none)
    (p q : Option Nat) (hs : psim c p q) : psim c (stepB p) (pstepB h q) := by
  rcases hs with ⟨hp, hq⟩ | ⟨k, hk, hp, hq⟩
  · subst hp
    subst hq
    exact Or.inl ⟨rfl, rfl⟩
  · subst hp
    subst hq
    obtain ⟨nd, hfd, hp', _⟩ := hch k hk
    have hq' : pstepB h (some (rd c k)) = nd.previous := by
      show (match hfind h (rd c k) with | none => none | some nd => nd.previous) = _
      rw [hfd]
    by_cases h0 : k = 0
    · subst h0
      refine Or.inl ⟨?_, ?_⟩
      · show (if (0 : Nat) = 0 then none else some (0 - 1)) = none
        rw [if_pos rfl]
      · rw [hq', hp', if_pos rfl]
    · refine Or.inr ⟨k - 1, by omega, ?_, ?_⟩
      · show (if k = 0 then none else some (k - 1)) = some (k - 1)
        rw [if_neg h0]
      · rw [hq', hp', if_neg h0]

theorem piterF_sim (h : List (Nat × PNode)) (c : List Nat) (hch : chainOk h none c none) :
    ∀ j p q, psim c p q → psim c (iterF c.length j p) (piterF h j q) := by
  intro j
  induction j with
  | zero =>
    intro p q hs
    exact hs
  | succ m ih =>
    intro p q hs
    exact ih (stepF c.length p) (pstepF h q) (pstepF_sim h c hch p q hs)

theorem piterB_sim (h : List (Nat × PNode)) (c : List Nat) (hch : chainOk h none c none) :
    ∀ j p q, psim c p q → psim c (iterB j p) (piterB h j q) := by
  intro j
  induction j with
  | zero =>
    intro p q hs
    exact hs
  | succ m ih =>
    intro p q hs
    exact ih (stepB p) (pstepB h q) (pstepB_sim h c hch p q hs)

theorem pnodeAdd_sim (h : List (Nat × PNode)) (c : List Nat) (hch : chainOk h none c none)
    (p q : Option Nat) (hs : psim c p q) (cnt : Nat) :
    psim c (nodeAdd c.length p cnt) (pnodeAdd h q cnt) := by
  unfold nodeAdd pnodeAdd
  by_cases h0 : cnt = 0
  · rw [if_pos h0, if_pos h0]
    exact hs
  · rw [if_neg h0, if_neg h0]
    exact pstepF_sim h c hch _ _ (piterF_sim h c hch (cnt - 1) p q hs)

theorem pnodeSub_sim (h : List (Nat × PNode)) (c : List Nat) (hch : chainOk h none c none)
    (p q : Option Nat) (hs : psim c p q) (cnt : Nat) :
    psim c (nodeSub c.length p cnt) (pnodeSub h q cnt) := by
  unfold nodeSub pnodeSub
  by_cases h0 : cnt = 0
  · rw [if_pos h0, if_pos h0]
    exact hs
  · rw [if_neg h0, if_neg h0]
    exact pstepB_sim h c hch _ _ (piterB_sim h c hch (cnt + 1) p q hs)

/-! ### Unpacking and rebuilding the representation invariant -/

theorem reprB_elim (s : PState) (c : List Nat) (h : reprB s c = true) :
    s.size = c.length ∧ s.head = c.head? ∧ s.tail = c.getLast? ∧ c.Nodup
      ∧ (∀ p ∈ s.heap, p.1 ∈ c) ∧ (s.heap.map Prod.fst).Nodup
      ∧ chainOk s.heap none c none ∧ (∀ a ∈ c, a < s.fresh) := by
  rw [reprB] at h
  simp only [Bool.and_eq_true, decide_eq_true_eq, List.all_eq_true, chainSeg_iff] at h
  obtain ⟨⟨⟨⟨⟨⟨⟨h1, h2⟩, h3⟩, h4⟩, h5⟩, h6⟩, h7⟩, h8⟩ := h
  exact ⟨h1, h2, h3, h4, fun p hp => by simpa using h5 p hp, h6, h7,
    fun a ha => by simpa using h8 a ha⟩

theorem reprB_intro (s : PState) (c : List Nat)
    (h1 : s.size = c.length) (h2 : s.head = c.head?) (h3 : s.tail = c.getLast?)
    (h4 : c.Nodup) (h5 : ∀ p ∈ s.heap, p.1 ∈ c) (h6 : (s.heap.map Prod.fst).Nodup)
    (h7 : chainOk s.heap none c none) (h8 : ∀ a ∈ c, a < s.fresh) :
    reprB s c = true := by
  rw [reprB]
  simp only [Bool.and_eq_true, decide_eq_true_eq, List.all_eq_true, chainSeg_iff]
  exact ⟨⟨⟨⟨⟨⟨⟨h1, h2⟩, h3⟩, h4⟩, fun p hp => by simpa using h5 p hp⟩, h6⟩, h7⟩,
    fun a ha => by simpa using h8 a ha⟩

theorem ptraverse_chain (s : PState) (c : List Nat) (hrep : reprB s c = true)
    (i : Nat) (hi : i < s.size) :
    ptraverse s i = some (rd c (tIdx s.size i)) := by
  obtain ⟨h1, h2, h3, _, _, _, h7, _⟩ := reprB_elim s c hrep
  have hlen : 0 < c.length := by omega
  have hcne : c ≠ [] := List.length_pos.mp hlen
  have hh : s.head = some (rd c 0) := by rw [h2, head?_eq_rd c hcne]
  have ht : s.tail = some (rd c (c.length - 1)) := by rw [h3, getLast?_eq_rd c hcne]
  have hsim : psim c (Traverse s.size i) (ptraverse s i) := by
    unfold Traverse ptraverse
    rw [h1]
    by_cases hb : c.length / 2 < i
    · rw [if_pos hb, if_pos hb]
      exact pnodeSub_sim s.heap c h7 _ _ (Or.inr ⟨c.length - 1, by omega, rfl, ht⟩) _
    · rw [if_neg hb, if_neg hb]
      exact pnodeAdd_sim s.heap c h7 _ _ (Or.inr ⟨0, by omega, rfl, hh⟩) _
  have htr : Traverse s.size i = some (tIdx s.size i) := by
    rw [traverse_closed s.size i hi, tIdx_eq s.size i hi]
  rcases hsim with ⟨hpn, _⟩ | ⟨k, _, hpk, hqk⟩
  · rw [htr] at hpn
    cases hpn
  · rw [htr] at hpk
    injection hpk with hke
    rw [hqk, hke]

/-! ### The `Clear()` loop frees every node -/

theorem hfind_mem (h : List (Nat × PNode)) (a : Nat) (nd : PNode)
    (hf : hfind h a = some nd) : (a, nd) ∈ h := by
  induction h with
  | nil => cases hf
  | cons p t ih =>
    obtain ⟨k, nd'⟩ := p
    rw [show hfind ((k, nd') :: t) a = if k = a then some nd' else hfind t a from rfl] at hf
    by_cases hka : k = a
    · rw [if_pos hka] at hf
      subst hka
      injection hf with he
      subst he
      exact List.mem_cons_self _ _
    · rw [if_neg hka] at hf
      exact List.mem_cons_of_mem _ (ih hf)

theorem nextLinks_hrem (h : List (Nat × PNode)) (a : Nat) :
    ∀ d : List Nat, a ∉ d → nextLinks h d → nextLinks (hrem h a) d := by
  intro d
  induction d with
  | nil =>
    intro _ _
    trivial
  | cons b rest ih =>
    intro ha hl
    obtain ⟨⟨nd, hfd, hn⟩, hrest⟩ := hl
    refine ⟨⟨nd, ?_, hn⟩, ih (fun hm => ha (List.mem_cons_of_mem b hm)) hrest⟩
    rw [hfind_hrem, if_neg (fun he => ha (by rw [← he]; exact List.mem_cons_self b rest))]
    exact hfd

theorem pclearLoop_nil (fuel : Nat) : ∀ q, pclearLoop fuel [] q = [] := by
  induction fuel with
  | zero =>
    intro q
    rfl
  | succ m ih =>
    intro q
    cases q with
    | none => rfl
    | some a => exact ih none

theorem pclearLoop_empties (d : List Nat) :
    ∀ (fuel : Nat) (h : List (Nat × PNode)) (q : Option Nat),
      d.length ≤ fuel → (∀ p ∈ h, p.1 ∈ d) → d.Nodup
      → (match d with | [] => True | a :: _ => q = some a)
      → nextLinks h d → pclearLoop fuel h q = [] := by
  induction d with
  | nil =>
    intro fuel h q _ hdom _ _ _
    have he : h = [] := by
      cases h with
      | nil => rfl
      | cons p t => exact absurd (hdom p (List.mem_cons_self p t)) (List.not_mem_nil p.1)
    rw [he]
    exact pclearLoop_nil fuel q
  | cons a rest ih =>
    intro fuel h q hfuel hdom hnd hq hlinks
    obtain ⟨⟨nd, hfd, hn⟩, hrest⟩ := hlinks
    cases fuel with
    | zero => exact absurd hfuel (by simp)
    | succ m =>
      have hq' : q = some a := hq
      subst hq'
      show pclearLoop m (hrem h a) ((hfind h a).bind (fun nd => nd.next)) = []
      rw [hfd]
      show pclearLoop m (hrem h a) nd.next = []
      apply ih m (hrem h a) nd.next
      · have : rest.length + 1 ≤ m + 1 := by simpa using hfuel
        omega
      · intro p hp
        have hp' := List.mem_filter.mp hp
        have hin := hdom p hp'.1
        have hne : p.1 ≠ a := by simpa using hp'.2
        cases List.mem_cons.mp hin with
        | inl he => exact absurd he hne
        | inr hm => exact hm
      · exact (List.nodup_cons.mp hnd).2
      · cases rest with
        | nil => trivial
        | cons b rest' => rw [hn]
      · exact nextLinks_hrem h a rest (List.nodup_cons.mp hnd).1 hrest

theorem chainOk_subset_keys (h : List (Nat × PNode)) (c : List Nat)
    (hch : chainOk h none c none) : ∀ a ∈ c, a ∈ h.map Prod.fst := by
  intro a ha
  obtain ⟨k, hk, hrd⟩ := mem_exists_rd c a ha
  obtain ⟨nd, hfd, _, _⟩ := hch k hk
  exact hfind_mem_keys h a nd (by rwa [hrd] at hfd)

theorem nextLinks_of_chainOk (h : List (Nat × PNode)) :
    ∀ (c : List Nat) (prev : Option Nat), chainOk h prev c none → nextLinks h c := by
  intro c
  induction c with
  | nil =>
    intro prev _
    trivial
  | cons a rest ih =>
    intro prev hch
    obtain ⟨⟨nd, hfd, _, hn⟩, hrest⟩ := (chainOk_cons h prev a rest none).mp hch
    exact ⟨⟨nd, hfd, hn⟩, ih (some a) hrest⟩

theorem pclear_wf (s : PState) (c : List Nat) (hrep : reprB s c = true) :
    reprB (pclear s) [] = true := by
  obtain ⟨h1, h2, _, h4, h5, _, h7, _⟩ := reprB_elim s c hrep
  have hkeys : ∀ a ∈ c, a ∈ s.heap.map Prod.fst := chainOk_subset_keys s.heap c h7
  have hlen : c.length ≤ s.heap.length := by
    have := (List.Nodup.subperm h4 hkeys).length_le
    simpa using this
  have hempty : pclearLoop s.heap.length s.heap s.head = [] := by
    apply pclearLoop_empties c s.heap.length s.heap s.head hlen
      (fun p hp => h5 p hp) h4
    · cases c with
      | nil => trivial
      | cons a rest => exact h2
    · exact nextLinks_of_chainOk s.heap c none h7
  show reprB ⟨0, none, none, pclearLoop s.heap.length s.heap s.head, s.fresh⟩ [] = true
  rw [hempty]
  rfl

/-! ### The spec's structural clauses follow from well-formedness -/

theorem wf_invariantClauses (s : PState) (c : List Nat) (hrep : reprB s c = true) :
    invariantClauses s := by
  obtain ⟨h1, h2, h3, _, h5, _, h7, _⟩ := reprB_elim s c hrep
  refine ⟨?_, ?_, ?_, ?_⟩
  · constructor
    · intro h0
      rw [h2, List.length_eq_zero.mp (by omega : c.length = 0)]
      rfl
    · intro hh
      rw [h2] at hh
      have hce : c = [] := by
        cases c with
        | nil => rfl
        | cons a t => cases hh
      rw [h1, hce]
      rfl
  · constructor
    · intro h0
      rw [h3, List.length_eq_zero.mp (by omega : c.length = 0)]
      rfl
    · intro hh
      rw [h3] at hh
      have hce : c = [] := by
        cases c with
        | nil => rfl
        | cons a t =>
          rw [getLast?_eq_rd (a :: t) (by simp)] at hh
          cases hh
      rw [h1, hce]
      rfl
  · intro hsz
    have hlen : 0 < c.length := by omega
    have hcne : c ≠ [] := List.length_pos.mp hlen
    have hh : s.head = some (rd c 0) := by rw [h2, head?_eq_rd c hcne]
    have ht : s.tail = some (rd c (c.length - 1)) := by rw [h3, getLast?_eq_rd c hcne]
    constructor
    · rw [h1, hh, piterF_chainOk s.heap c h7 (c.length - 1) 0 (by omega), Nat.zero_add, ht]
    · rw [h1, ht, piterB_chainOk s.heap c h7 (c.length - 1) (c.length - 1) (by omega)
        (by omega), Nat.sub_self, hh]
  · intro a nd hfd
    have hac : a ∈ c := h5 (a, nd) (hfind_mem s.heap a nd hfd)
    obtain ⟨k, hk, hrd⟩ := mem_exists_rd c a hac
    obtain ⟨nd0, hfd0, hp0, hn0⟩ := h7 k hk
    rw [hrd, hfd] at hfd0
    injection hfd0 with hnde
    rw [← hnde] at hp0 hn0
    constructor
    · intro b hb
      by_cases h1' : k + 1 < c.length
      · rw [hn0, if_pos h1'] at hb
        injection hb with hbe
        obtain ⟨nb, hfb, hpb, _⟩ := h7 (k + 1) h1'
        refine ⟨nb, by rwa [hbe] at hfb, ?_⟩
        rw [hpb, if_neg (Nat.succ_ne_zero k), show k + 1 - 1 = k from rfl, hrd]
      · rw [hn0, if_neg h1'] at hb
        cases hb
    · intro b hb
      by_cases h0' : k = 0
      · subst h0'
        rw [hp0, if_pos rfl] at hb
        cases hb
      · rw [hp0, if_neg h0'] at hb
        injection hb with hbe
        obtain ⟨nb, hfb, _, hnb⟩ := h7 (k - 1) (by omega)
        refine ⟨nb, by rwa [hbe] at hfb, ?_⟩
        rw [hnb, if_pos (by omega), show k - 1 + 1 = k by omega, hrd]

/-! ### `Set` and `Swap` preserve the structure -/

theorem mem_hupd (h : List (Nat × PNode)) (a : Nat) (g : PNode → PNode)
    (p : Nat × PNode) (hp : p ∈ hupd h a g) : ∃ q ∈ h, p.1 = q.1 := by
  obtain ⟨q, hq, he⟩ := List.mem_map.mp hp
  refine ⟨q, hq, ?_⟩
  rw [← he]
  by_cases hqa : q.1 = a
  · rw [if_pos hqa]
  · rw [if_neg hqa]

theorem pset_wf (s : PState) (c : List Nat) (hrep : reprB s c = true)
    (i v : Nat) (hi : i < s.size) : resWf (pset s i v) := by
  obtain ⟨h1, h2, h3, h4, h5, h6, h7, h8⟩ := reprB_elim s c hrep
  have htri := ptraverse_chain s c hrep i hi
  unfold pset
  rw [if_pos hi, htri]
  show wf ⟨s.size, s.head, s.tail,
    hupd s.heap (rd c (tIdx s.size i)) (fun nd => ⟨nd.previous, v, nd.next⟩), s.fresh⟩
  refine ⟨c, reprB_intro _ c h1 h2 h3 h4 ?_ ?_ ?_ h8⟩
  · intro p hp
    replace hp : p ∈ hupd s.heap (rd c (tIdx s.size i))
        (fun nd => ⟨nd.previous, v, nd.next⟩) := hp
    obtain ⟨q, hq, he⟩ := mem_hupd s.heap _ _ p hp
    rw [he]
    exact h5 q hq
  · show (List.map Prod.fst (hupd s.heap (rd c (tIdx s.size i))
      (fun nd => ⟨nd.previous, v, nd.next⟩))).Nodup
    rw [keys_hupd]
    exact h6
  · show chainOk (hupd s.heap (rd c (tIdx s.size i))
      (fun nd => ⟨nd.previous, v, nd.next⟩)) none c none
    exact chainOk_hupd_data s.heap none c none _ _ (fun nd => ⟨rfl, rfl⟩) h7

theorem pswap_wf (s : PState) (c : List Nat) (hrep : reprB s c = true)
    (i j : Nat) (hi : i < s.size) (hj : j < s.size) : resWf (pswap s i j) := by
  obtain ⟨h1, h2, h3, h4, h5, h6, h7, h8⟩ := reprB_elim s c hrep
  have htri := ptraverse_chain s c hrep i hi
  have htrj := ptraverse_chain s c hrep j hj
  obtain ⟨ni, hfi, _, _⟩ := h7 (tIdx s.size i) (by rw [← h1]; exact tIdx_lt s.size i hi)
  obtain ⟨nj, hfj, _, _⟩ := h7 (tIdx s.size j) (by rw [← h1]; exact tIdx_lt s.size j hj)
  unfold pswap
  rw [if_neg (not_not_intro hi), if_neg (not_not_intro hj), htri, htrj]
  show resWf (.ok
    (match hfind s.heap (rd c (tIdx s.size i)), hfind s.heap (rd c (tIdx s.size j)) with
    | some ni, some nj =>
      some ⟨s.size, s.head, s.tail,
        hupd (hupd s.heap (rd c (tIdx s.size i)) (fun nd => ⟨nd.previous, nj.data, nd.next⟩))
          (rd c (tIdx s.size j)) (fun nd => ⟨nd.previous, ni.data, nd.next⟩), s.fresh⟩
    | _, _ => none))
  rw [hfi, hfj]
  show wf ⟨s.size, s.head, s.tail,
    hupd (hupd s.heap (rd c (tIdx s.size i)) (fun nd => ⟨nd.previous, nj.data, nd.next⟩))
      (rd c (tIdx s.size j)) (fun nd => ⟨nd.previous, ni.data, nd.next⟩), s.fresh⟩
  refine ⟨c, reprB_intro _ c h1 h2 h3 h4 ?_ ?_ ?_ h8⟩
  · intro p hp
    replace hp : p ∈ hupd
        (hupd s.heap (rd c (tIdx s.size i)) (fun nd => ⟨nd.previous, nj.data, nd.next⟩))
        (rd c (tIdx s.size j)) (fun nd => ⟨nd.previous, ni.data, nd.next⟩) := hp
    obtain ⟨q, hq, he⟩ := mem_hupd _ _ _ p hp
    obtain ⟨q', hq', he'⟩ := mem_hupd _ _ _ q hq
    rw [he, he']
    exact h5 q' hq'
  · show (List.map Prod.fst (hupd
      (hupd s.heap (rd c (tIdx s.size i)) (fun nd => ⟨nd.previous, nj.data, nd.next⟩))
      (rd c (tIdx s.size j)) (fun nd => ⟨nd.previous, ni.data, nd.next⟩))).Nodup
    rw [keys_hupd, keys_hupd]
    exact h6
  · show chainOk (hupd
      (hupd s.heap (rd c (tIdx s.size i)) (fun nd => ⟨nd.previous, nj.data, nd.next⟩))
      (rd c (tIdx s.size j)) (fun nd => ⟨nd.previous, ni.data, nd.next⟩)) none c none
    exact chainOk_hupd_data _ none c none _ _ (fun nd => ⟨rfl, rfl⟩)
      (chainOk_hupd_data s.heap none c none _ _ (fun nd => ⟨rfl, rfl⟩) h7)

/-! ### The chain after a splice or an unlink -/

theorem rd_insertChain (c : List Nat) (f P k : Nat) (hP : P ≤ c.length) :
    rd (c.take P ++ f :: c.drop P) k
      = if k < P then rd c k else if k = P then f else rd c (k - 1) := by
  by_cases h1 : k < P
  · rw [if_pos h1, rd_append_left _ _ _ (by rw [List.length_take]; omega), rd_take c P k h1]
  · rw [if_neg h1]
    by_cases h2 : k = P
    · rw [if_pos h2, rd_append_right _ _ _ (by rw [List.length_take]; omega),
        show k - (c.take P).length = 0 by rw [List.length_take]; omega]
      rfl
    · rw [if_neg h2, rd_append_right _ _ _ (by rw [List.length_take]; omega),
        show k - (c.take P).length = (k - P - 1) + 1 by rw [List.length_take]; omega,
        rd_cons_succ, rd_drop]
      congr 1
      omega

theorem rd_eraseChain (c : List Nat) (P k : Nat) (hP : P ≤ c.length) :
    rd (c.take P ++ c.drop (P + 1)) k = if k < P then rd c k else rd c (k + 1) := by
  by_cases h1 : k < P
  · rw [if_pos h1, rd_append_left _ _ _ (by rw [List.length_take]; omega), rd_take c P k h1]
  · rw [if_neg h1, rd_append_right _ _ _ (by rw [List.length_take]; omega), rd_drop]
    congr 1
    rw [List.length_take]
    omega

theorem mem_insertChain (c : List Nat) (f P a : Nat) (ha : a ∈ c) :
    a ∈ c.take P ++ f :: c.drop P := by
  rw [← List.take_append_drop P c] at ha
  rcases List.mem_append.mp ha with h | h
  · exact List.mem_append_left _ h
  · exact List.mem_append_right _ (List.mem_cons_of_mem f h)

theorem nodup_insertChain (c : List Nat) (f P : Nat) (hnd : c.Nodup) (hfc : f ∉ c) :
    (c.take P ++ f :: c.drop P).Nodup := by
  rw [List.nodup_middle, List.take_append_drop, List.nodup_cons]
  exact ⟨hfc, hnd⟩

theorem chainOk_append_tail (heap : List (Nat × PNode)) (c : List Nat) (f v : Nat)
    (hnd : c.Nodup) (hfc : f ∉ c) (hfk : hfind heap f = none)
    (hch : chainOk heap none c none) (hne : c ≠ []) :
    chainOk
      (hupd heap (rd c (c.length - 1)) (fun nd => ⟨nd.previous, nd.data, some f⟩)
        ++ [(f, ⟨some (rd c (c.length - 1)), v, none⟩)])
      none (c ++ [f]) none := by
  intro k hk
  have hL : 1 ≤ c.length := List.length_pos.mpr hne
  have hlen' : (c ++ [f]).length = c.length + 1 := by simp
  rw [hlen'] at hk ⊢
  by_cases hkc : k < c.length
  · obtain ⟨nd, hfd, hp, hn⟩ := hch k hkc
    by_cases hkl : k = c.length - 1
    · refine ⟨⟨nd.previous, nd.data, some f⟩, ?_, ?_, ?_⟩
      · rw [rd_append_left c [f] k hkc, hfind_append, hfind_hupd, if_pos (by rw [hkl]), hfd]
        rfl
      · show nd.previous = _
        rw [hp]
        by_cases hk0 : k = 0
        · rw [if_pos hk0, if_pos hk0]
        · rw [if_neg hk0, if_neg hk0, rd_append_left c [f] (k - 1) (by omega)]
      · show (some f : Option Nat) = _
        rw [if_pos (by omega : k + 1 < c.length + 1),
          rd_append_right c [f] (k + 1) (by omega),
          show k + 1 - c.length = 0 by omega]
        rfl
    · refine ⟨nd, ?_, ?_, ?_⟩
      · rw [rd_append_left c [f] k hkc, hfind_append, hfind_hupd,
          if_neg (rd_ne c hnd k (c.length - 1) hkc (by omega) (by omega)), hfd]
      · show nd.previous = _
        rw [hp]
        by_cases hk0 : k = 0
        · rw [if_pos hk0, if_pos hk0]
        · rw [if_neg hk0, if_neg hk0, rd_append_left c [f] (k - 1) (by omega)]
      · show nd.next = _
        rw [hn, if_pos (by omega : k + 1 < c.length), if_pos (by omega : k + 1 < c.length + 1),
          rd_append_left c [f] (k + 1) (by omega)]
  · have hkc' : k = c.length := by omega
    refine ⟨⟨some (rd c (c.length - 1)), v, none⟩, ?_, ?_, ?_⟩
    · rw [rd_append_right c [f] k (by omega), show k - c.length = 0 by omega,
        show rd ([f] : List Nat) 0 = f from rfl, hfind_append, hfind_hupd,
        if_neg (by intro he; rw [he] at hfc; exact hfc (rd_mem c (c.length - 1) (by omega))),
        hfk]
      show (if f = f then some (⟨some (rd c (c.length - 1)), v, none⟩ : PNode)
          else hfind [] f) = _
      rw [if_pos rfl]
    · show (some (rd c (c.length - 1)) : Option Nat) = _
      rw [if_neg (by omega : ¬ k = 0), rd_append_left c [f] (k - 1) (by omega),
        show k - 1 = c.length - 1 by omega]
    · show (none : Option Nat) = _
      rw [if_neg (by omega : ¬ k + 1 < c.length + 1)]

theorem chainOk_insert_mid (heap : List (Nat × PNode)) (c : List Nat) (f v P : Nat)
    (hnd : c.Nodup) (hfc : f ∉ c) (hfk : hfind heap f = none)
    (hch : chainOk heap none c none)
    (hP1 : 1 ≤ P) (hP : P < c.length) :
    chainOk
      (hupd (hupd (heap ++ [(f, ⟨some (rd c (P - 1)), v, some (rd c P)⟩)])
          (rd c (P - 1)) (fun nd => ⟨nd.previous, nd.data, some f⟩))
        (rd c P) (fun nd => ⟨some f, nd.data, nd.next⟩))
      none (c.take P ++ f :: c.drop P) none := by
  intro k hk
  have hlen' : (c.take P ++ f :: c.drop P).length = c.length + 1 := by
    simp
    omega
  rw [hlen'] at hk ⊢
  have hrd : ∀ m, rd (c.take P ++ f :: c.drop P) m
      = if m < P then rd c m else if m = P then f else rd c (m - 1) :=
    fun m => rd_insertChain c f P m (by omega)
  by_cases hkP : k < P
  · obtain ⟨nd, hfd, hp, hn⟩ := hch k (by omega)
    by_cases hkb : k = P - 1
    · refine ⟨⟨nd.previous, nd.data, some f⟩, ?_, ?_, ?_⟩
      · rw [hrd k, if_pos hkP, hfind_hupd,
          if_neg (rd_ne c hnd k P (by omega) hP (by omega)),
          hfind_hupd, if_pos (by rw [hkb]), hfind_append, hfd]
        rfl
      · show nd.previous = _
        rw [hp]
        by_cases hk0 : k = 0
        · rw [if_pos hk0, if_pos hk0]
        · rw [if_neg hk0, if_neg hk0, hrd (k - 1), if_pos (by omega : k - 1 < P)]
      · show (some f : Option Nat) = _
        rw [if_pos (by omega : k + 1 < c.length + 1), hrd (k + 1),
          if_neg (by omega : ¬ k + 1 < P), if_pos (by omega : k + 1 = P)]
    · refine ⟨nd, ?_, ?_, ?_⟩
      · rw [hrd k, if_pos hkP, hfind_hupd,
          if_neg (rd_ne c hnd k P (by omega) hP (by omega)),
          hfind_hupd, if_neg (rd_ne c hnd k (P - 1) (by omega) (by omega) hkb),
          hfind_append, hfd]
      · show nd.previous = _
        rw [hp]
        by_cases hk0 : k = 0
        · rw [if_pos hk0, if_pos hk0]
        · rw [if_neg hk0, if_neg hk0, hrd (k - 1), if_pos (by omega : k - 1 < P)]
      · show nd.next = _
        rw [hn, if_pos (by omega : k + 1 < c.length), if_pos (by omega : k + 1 < c.length + 1),
          hrd (k + 1), if_pos (by omega : k + 1 < P)]
  · by_cases hkP2 : k = P
    · refine ⟨⟨some (rd c (P - 1)), v, some (rd c P)⟩, ?_, ?_, ?_⟩
      · rw [hrd k, if_neg hkP, if_pos hkP2, hfind_hupd,
          if_neg (by intro he; rw [he] at hfc; exact hfc (rd_mem c P hP)),
          hfind_hupd,
          if_neg (by intro he; rw [he] at hfc; exact hfc (rd_mem c (P - 1) (by omega))),
          hfind_append, hfk]
        show (if f = f then some (⟨some (rd c (P - 1)), v, some (rd c P)⟩ : PNode)
            else hfind [] f) = _
        rw [if_pos rfl]
      · show (some (rd c (P - 1)) : Option Nat) = _
        rw [if_neg (by omega : ¬ k = 0), hrd (k - 1), if_pos (by omega : k - 1 < P),
          show k - 1 = P - 1 by omega]
      · show (some (rd c P) : Option Nat) = _
        rw [if_pos (by omega : k + 1 < c.length + 1), hrd (k + 1),
          if_neg (by omega : ¬ k + 1 < P), if_neg (by omega : ¬ k + 1 = P),
          show k + 1 - 1 = k from rfl, hkP2]
    · by_cases hkP3 : k = P + 1
      · obtain ⟨nd, hfd, hp, hn⟩ := hch P (by omega)
        refine ⟨⟨some f, nd.data, nd.next⟩, ?_, ?_, ?_⟩
        · rw [hrd k, if_neg hkP, if_neg hkP2, show k - 1 = P by omega, hfind_hupd,
            if_pos rfl, hfind_hupd,
            if_neg (rd_ne c hnd P (P - 1) hP (by omega) (by omega)),
            hfind_append, hfd]
          rfl
        · show (some f : Option Nat) = _
          rw [if_neg (by omega : ¬ k = 0), hrd (k - 1),
            if_neg (by omega : ¬ k - 1 < P), if_pos (by omega : k - 1 = P)]
        · show nd.next = _
          rw [hn]
          by_cases hend : P + 1 < c.length
          · rw [if_pos hend, if_pos (by omega : k + 1 < c.length + 1), hrd (k + 1),
              if_neg (by omega : ¬ k + 1 < P), if_neg (by omega : ¬ k + 1 = P),
              show k + 1 - 1 = k from rfl, hkP3]
          · rw [if_neg hend, if_neg (by omega : ¬ k + 1 < c.length + 1)]
      · obtain ⟨nd, hfd, hp, hn⟩ := hch (k - 1) (by omega)
        refine ⟨nd, ?_, ?_, ?_⟩
        · rw [hrd k, if_neg hkP, if_neg hkP2, hfind_hupd,
            if_neg (rd_ne c hnd (k - 1) P (by omega) hP (by omega)),
            hfind_hupd,
            if_neg (rd_ne c hnd (k - 1) (P - 1) (by omega) (by omega) (by omega)),
            hfind_append, hfd]
        · show nd.previous = _
          rw [hp, if_neg (by omega : ¬ k - 1 = 0), if_neg (by omega : ¬ k = 0),
            hrd (k - 1), if_neg (by omega : ¬ k - 1 < P), if_neg (by omega : ¬ k - 1 = P)]
        · show nd.next = _
          rw [hn, show k - 1 + 1 = k by omega]
          by_cases hend : k < c.length
          · rw [if_pos hend, if_pos (by omega : k + 1 < c.length + 1), hrd (k + 1),
              if_neg (by omega : ¬ k + 1 < P), if_neg (by omega : ¬ k + 1 = P),
              show k + 1 - 1 = k from rfl]
          · rw [if_neg hend, if_neg (by omega : ¬ k + 1 < c.length + 1)]

theorem chainOk_erase_head (heap : List (Nat × PNode)) (c : List Nat)
    (hnd : c.Nodup) (hch : chainOk heap none c none) (hn2 : 2 ≤ c.length) :
    chainOk (hupd (hrem heap (rd c 0)) (rd c 1) (fun nd => ⟨none, nd.data, nd.next⟩))
      none (c.drop 1) none := by
  intro k hk
  have hlen' : (c.drop 1).length = c.length - 1 := by simp
  rw [hlen'] at hk ⊢
  obtain ⟨nd, hfd, hp, hn⟩ := hch (k + 1) (by omega)
  rw [rd_drop c 1 k, show (1 : Nat) + k = k + 1 by omega]
  by_cases hk0 : k = 0
  · refine ⟨⟨none, nd.data, nd.next⟩, ?_, ?_, ?_⟩
    · rw [hfind_hupd, if_pos (by rw [hk0]), hfind_hrem,
        if_neg (rd_ne c hnd (k + 1) 0 (by omega) (by omega) (by omega)), hfd]
      rfl
    · show (none : Option Nat) = _
      rw [if_pos hk0]
    · show nd.next = _
      rw [hn]
      by_cases hend : k + 1 + 1 < c.length
      · rw [if_pos hend, if_pos (by omega : k + 1 < c.length - 1), rd_drop c 1 (k + 1),
          show (1 : Nat) + (k + 1) = k + 1 + 1 by omega]
      · rw [if_neg hend, if_neg (by omega : ¬ k + 1 < c.length - 1)]
  · refine ⟨nd, ?_, ?_, ?_⟩
    · rw [hfind_hupd, if_neg (rd_ne c hnd (k + 1) 1 (by omega) (by omega) (by omega)),
        hfind_hrem, if_neg (rd_ne c hnd (k + 1) 0 (by omega) (by omega) (by omega)), hfd]
    · show nd.previous = _
      rw [hp, if_neg (by omega : ¬ k + 1 = 0), show k + 1 - 1 = k from rfl, if_neg hk0,
        rd_drop c 1 (k - 1), show (1 : Nat) + (k - 1) = k by omega]
    · show nd.next = _
      rw [hn]
      by_cases hend : k + 1 + 1 < c.length
      · rw [if_pos hend, if_pos (by omega : k + 1 < c.length - 1), rd_drop c 1 (k + 1),
          show (1 : Nat) + (k + 1) = k + 1 + 1 by omega]
      · rw [if_neg hend, if_neg (by omega : ¬ k + 1 < c.length - 1)]

theorem chainOk_erase_tail (heap : List (Nat × PNode)) (c : List Nat)
    (hnd : c.Nodup) (hch : chainOk heap none c none) (hn2 : 2 ≤ c.length) :
    chainOk (hupd (hrem heap (rd c (c.length - 1))) (rd c (c.length - 2))
        (fun nd => ⟨nd.previous, nd.data, none⟩)) none (c.take (c.length - 1)) none := by
  intro k hk
  have hlen' : (c.take (c.length - 1)).length = c.length - 1 := by simp
  rw [hlen'] at hk ⊢
  obtain ⟨nd, hfd, hp, hn⟩ := hch k (by omega)
  rw [rd_take c (c.length - 1) k hk]
  by_cases hkl : k = c.length - 2
  · refine ⟨⟨nd.previous, nd.data, none⟩, ?_, ?_, ?_⟩
    · rw [hfind_hupd, if_pos (by rw [hkl]), hfind_hrem,
        if_neg (rd_ne c hnd k (c.length - 1) (by omega) (by omega) (by omega)), hfd]
      rfl
    · show nd.previous = _
      rw [hp]
      by_cases hk0 : k = 0
      · rw [if_pos hk0, if_pos hk0]
      · rw [if_neg hk0, if_neg hk0, rd_take c (c.length - 1) (k - 1) (by omega)]
    · show (none : Option Nat) = _
      rw [if_neg (by omega : ¬ k + 1 < c.length - 1)]
  · refine ⟨nd, ?_, ?_, ?_⟩
    · rw [hfind_hupd, if_neg (rd_ne c hnd k (c.length - 2) (by omega) (by omega) hkl),
        hfind_hrem, if_neg (rd_ne c hnd k (c.length - 1) (by omega) (by omega) (by omega)),
        hfd]
    · show nd.previous = _
      rw [hp]
      by_cases hk0 : k = 0
      · rw [if_pos hk0, if_pos hk0]
      · rw [if_neg hk0, if_neg hk0, rd_take c (c.length - 1) (k - 1) (by omega)]
    · show nd.next = _
      rw [hn, if_pos (by omega : k + 1 < c.length), if_pos (by omega : k + 1 < c.length - 1),
        rd_take c (c.length - 1) (k + 1) (by omega)]

theorem chainOk_erase_mid (heap : List (Nat × PNode)) (c : List Nat) (P : Nat)
    (hnd : c.Nodup) (hch : chainOk heap none c none)
    (hP1 : 1 ≤ P) (hP : P + 2 ≤ c.length) :
    chainOk
      (hupd (hupd (hrem heap (rd c P)) (rd c (P + 1))
          (fun nd => ⟨some (rd c (P - 1)), nd.data, nd.next⟩))
        (rd c (P - 1)) (fun nd => ⟨nd.previous, nd.data, some (rd c (P + 1))⟩))
      none (c.take P ++ c.drop (P + 1)) none := by
  intro k hk
  have hlen' : (c.take P ++ c.drop (P + 1)).length = c.length - 1 := by
    simp
    omega
  rw [hlen'] at hk ⊢
  have hrd : ∀ m, rd (c.take P ++ c.drop (P + 1)) m
      = if m < P then rd c m else rd c (m + 1) :=
    fun m => rd_eraseChain c P m (by omega)
  by_cases hkP : k < P
  · obtain ⟨nd, hfd, hp, hn⟩ := hch k (by omega)
    by_cases hkb : k = P - 1
    · refine ⟨⟨nd.previous, nd.data, some (rd c (P + 1))⟩, ?_, ?_, ?_⟩
      · rw [hrd k, if_pos hkP, hfind_hupd, if_pos (by rw [hkb]), hfind_hupd,
          if_neg (rd_ne c hnd k (P + 1) (by omega) (by omega) (by omega)),
          hfind_hrem, if_neg (rd_ne c hnd k P (by omega) (by omega) (by omega)), hfd]
        rfl
      · show nd.previous = _
        rw [hp]
        by_cases hk0 : k = 0
        · rw [if_pos hk0, if_pos hk0]
        · rw [if_neg hk0, if_neg hk0, hrd (k - 1), if_pos (by omega : k - 1 < P)]
      · show (some (rd c (P + 1)) : Option Nat) = _
        rw [if_pos (by omega : k + 1 < c.length - 1), hrd (k + 1),
          if_neg (by omega : ¬ k + 1 < P), show k + 1 + 1 = P + 1 by omega]
    · refine ⟨nd, ?_, ?_, ?_⟩
      · rw [hrd k, if_pos hkP, hfind_hupd,
          if_neg (rd_ne c hnd k (P - 1) (by omega) (by omega) hkb),
          hfind_hupd, if_neg (rd_ne c hnd k (P + 1) (by omega) (by omega) (by omega)),
          hfind_hrem, if_neg (rd_ne c hnd k P (by omega) (by omega) (by omega)), hfd]
      · show nd.previous = _
        rw [hp]
        by_cases hk0 : k = 0
        · rw [if_pos hk0, if_pos hk0]
        · rw [if_neg hk0, if_neg hk0, hrd (k - 1), if_pos (by omega : k - 1 < P)]
      · show nd.next = _
        rw [hn, if_pos (by omega : k + 1 < c.length), if_pos (by omega : k + 1 < c.length - 1),
          hrd (k + 1), if_pos (by omega : k + 1 < P)]
  · by_cases hkP2 : k = P
    · obtain ⟨nd, hfd, hp, hn⟩ := hch (P + 1) (by omega)
      refine ⟨⟨some (rd c (P - 1)), nd.data, nd.next⟩, ?_, ?_, ?_⟩
      · rw [hrd k, if_neg hkP, show k + 1 = P + 1 by omega, hfind_hupd,
          if_neg (rd_ne c hnd (P + 1) (P - 1) (by omega) (by omega) (by omega)),
          hfind_hupd, if_pos rfl, hfind_hrem,
          if_neg (rd_ne c hnd (P + 1) P (by omega) (by omega) (by omega)), hfd]
        rfl
      · show (some (rd c (P - 1)) : Option Nat) = _
        rw [if_neg (by omega : ¬ k = 0), hrd (k - 1), if_pos (by omega : k - 1 < P),
          show k - 1 = P - 1 by omega]
      · show nd.next = _
        rw [hn]
        by_cases hend : P + 1 + 1 < c.length
        · rw [if_pos hend, if_pos (by omega : k + 1 < c.length - 1), hrd (k + 1),
            if_neg (by omega : ¬ k + 1 < P), show k + 1 + 1 = P + 1 + 1 by omega]
        · rw [if_neg hend, if_neg (by omega : ¬ k + 1 < c.length - 1)]
    · obtain ⟨nd, hfd, hp, hn⟩ := hch (k + 1) (by omega)
      refine ⟨nd, ?_, ?_, ?_⟩
      · rw [hrd k, if_neg hkP, hfind_hupd,
          if_neg (rd_ne c hnd (k + 1) (P - 1) (by omega) (by omega) (by omega)),
          hfind_hupd, if_neg (rd_ne c hnd (k + 1) (P + 1) (by omega) (by omega) (by omega)),
          hfind_hrem, if_neg (rd_ne c hnd (k + 1) P (by omega) (by omega) (by omega)), hfd]
      · show nd.previous = _
        rw [hp, if_neg (by omega : ¬ k + 1 = 0), show k + 1 - 1 = k from rfl,
          if_neg (by omega : ¬ k = 0), hrd (k - 1), if_neg (by omega : ¬ k - 1 < P),
          show k - 1 + 1 = k by omega]
      · show nd.next = _
        rw [hn]
        by_cases hend : k + 1 + 1 < c.length
        · rw [if_pos hend, if_pos (by omega : k + 1 < c.length - 1), hrd (k + 1),
            if_neg (by omega : ¬ k + 1 < P)]
        · rw [if_neg hend, if_neg (by omega : ¬ k + 1 < c.length - 1)]

theorem chainOk_insert_head (heap : List (Nat × PNode)) (c : List Nat) (f v : Nat)
    (hnd : c.Nodup) (hfc : f ∉ c) (hfk : hfind heap f = none)
    (hch : chainOk heap none c none) (hne : c ≠ []) :
    chainOk (hupd (heap ++ [(f, ⟨none, v, some (rd c 0)⟩)]) (rd c 0)
        (fun nd => ⟨some f, nd.data, nd.next⟩)) none (f :: c) none := by
  have hL : 0 < c.length := List.length_pos.mpr hne
  intro k hk
  rw [show (f :: c).length = c.length + 1 from rfl] at hk ⊢
  cases k with
  | zero =>
    refine ⟨⟨none, v, some (rd c 0)⟩, ?_, ?_, ?_⟩
    · rw [rd_cons_zero, hfind_hupd,
        if_neg (by intro he; rw [he] at hfc; exact hfc (rd_mem c 0 hL)),
        hfind_append, hfk]
      show (if f = f then some (⟨none, v, some (rd c 0)⟩ : PNode) else hfind [] f) = _
      rw [if_pos rfl]
    · show (none : Option Nat) = _
      rw [if_pos rfl]
    · show (some (rd c 0) : Option Nat) = _
      rw [if_pos (by omega : 0 + 1 < c.length + 1), rd_cons_succ]
  | succ k' =>
    have hk' : k' < c.length := by omega
    obtain ⟨nd, hfd, hp, hn⟩ := hch k' hk'
    rw [rd_cons_succ]
    by_cases h0 : k' = 0
    · refine ⟨⟨some f, nd.data, nd.next⟩, ?_, ?_, ?_⟩
      · rw [hfind_hupd, if_pos (by rw [h0]), hfind_append, hfd]
        rfl
      · show (some f : Option Nat) = _
        rw [if_neg (Nat.succ_ne_zero k'), show k' + 1 - 1 = k' from rfl, h0, rd_cons_zero]
      · show nd.next = _
        rw [hn]
        by_cases hend : k' + 1 < c.length
        · rw [if_pos hend, if_pos (by omega : k' + 1 + 1 < c.length + 1),
            show k' + 1 + 1 = (k' + 1) + 1 from rfl, rd_cons_succ]
        · rw [if_neg hend, if_neg (by omega : ¬ k' + 1 + 1 < c.length + 1)]
    · refine ⟨nd, ?_, ?_, ?_⟩
      · rw [hfind_hupd, if_neg (rd_ne c hnd k' 0 hk' (by omega) h0), hfind_append, hfd]
      · show nd.previous = _
        rw [hp, if_neg h0, if_neg (Nat.succ_ne_zero k'),
          show k' + 1 - 1 = (k' - 1) + 1 by omega, rd_cons_succ]
      · show nd.next = _
        rw [hn]
        by_cases hend : k' + 1 < c.length
        · rw [if_pos hend, if_pos (by omega : k' + 1 + 1 < c.length + 1),
            show k' + 1 + 1 = (k' + 1) + 1 from rfl, rd_cons_succ]
        · rw [if_neg hend, if_neg (by omega : ¬ k' + 1 + 1 < c.length + 1)]

theorem keys_snoc_nodup (ks : List Nat) (f : Nat) (hnd : ks.Nodup) (hf : f ∉ ks) :
    (ks ++ [f]).Nodup := by
  rw [List.nodup_append]
  exact ⟨hnd, List.nodup_singleton f, fun a ha hb => hf ((List.mem_singleton.mp hb) ▸ ha)⟩

/-! ### `Insert` preserves the structure -/

theorem pinsert_wf (s : PState) (c : List Nat) (hrep : reprB s c = true)
    (i v : Nat) (hi : i ≤ s.size) : resWf (pinsert s i v) := by
  obtain ⟨h1, h2, h3, h4, h5, h6, h7, h8⟩ := reprB_elim s c hrep
  have hfc : s.fresh ∉ c := fun hm => absurd (h8 s.fresh hm) (by omega)
  have hfkeys : s.fresh ∉ s.heap.map Prod.fst := fun hm => by
    obtain ⟨p, hp, he⟩ := List.mem_map.mp hm
    exact hfc (he ▸ h5 p hp)
  have hfk : hfind s.heap s.fresh = none := hfind_eq_none s.heap s.fresh hfkeys
  unfold pinsert
  rw [if_neg (by omega : ¬ s.size < i)]
  by_cases hieq : i = s.size
  · rw [if_pos hieq]
    by_cases hz : s.size = 0
    · rw [if_pos hz]
      have hce : c = [] := List.length_eq_zero.mp (by omega)
      have hheap : s.heap = [] := by
        cases hh : s.heap with
        | nil => rfl
        | cons p t =>
          have hmem := h5 p (by rw [hh]; exact List.mem_cons_self p t)
          rw [hce] at hmem
          exact absurd hmem (List.not_mem_nil p.1)
      show wf ⟨1, some s.fresh, some s.fresh,
        s.heap ++ [(s.fresh, ⟨none, v, none⟩)], s.fresh + 1⟩
      rw [hheap]
      refine ⟨[s.fresh], reprB_intro _ _ rfl (by simp) (by simp) (by simp) ?_ (by simp)
        ?_ ?_⟩
      · intro p hp
        have hpe : p = (s.fresh, ⟨none, v, none⟩) := by simpa using hp
        rw [hpe]
        simp
      · intro k hk
        have hk0 : k = 0 := by
          simp at hk
          omega
        subst hk0
        refine ⟨⟨none, v, none⟩, ?_, ?_, ?_⟩
        · show (if s.fresh = s.fresh then some (⟨none, v, none⟩ : PNode)
              else hfind [] s.fresh) = some ⟨none, v, none⟩
          rw [if_pos rfl]
        · show (none : Option Nat) = _
          rw [if_pos rfl]
        · show (none : Option Nat) = _
          rw [if_neg (by simp)]
      · intro a ha
        show a < s.fresh + 1
        have : a = s.fresh := by simpa using ha
        omega
    · rw [if_neg hz]
      have hlen : 0 < c.length := by omega
      have hcne : c ≠ [] := List.length_pos.mp hlen
      have ht : s.tail = some (rd c (c.length - 1)) := by rw [h3, getLast?_eq_rd c hcne]
      rw [ht]
      show wf ⟨s.size + 1, s.head, some s.fresh,
        hupd s.heap (rd c (c.length - 1)) (fun nd => ⟨nd.previous, nd.data, some s.fresh⟩)
          ++ [(s.fresh, ⟨some (rd c (c.length - 1)), v, none⟩)], s.fresh + 1⟩
      refine ⟨c ++ [s.fresh], reprB_intro _ _ ?_ ?_ ?_ ?_ ?_ ?_ ?_ ?_⟩
      · show s.size + 1 = (c ++ [s.fresh]).length
        simp [h1]
      · show s.head = (c ++ [s.fresh]).head?
        rw [h2, List.head?_append, head?_eq_rd c hcne]
        rfl
      · show (some s.fresh : Option Nat) = (c ++ [s.fresh]).getLast?
        rw [List.getLast?_concat]
      · exact keys_snoc_nodup c s.fresh h4 hfc
      · intro p hp
        replace hp : p ∈ hupd s.heap (rd c (c.length - 1))
            (fun nd => ⟨nd.previous, nd.data, some s.fresh⟩)
            ++ [(s.fresh, ⟨some (rd c (c.length - 1)), v, none⟩)] := hp
        rcases List.mem_append.mp hp with hl | hr
        · obtain ⟨q, hq, he⟩ := mem_hupd _ _ _ p hl
          rw [he]
          exact List.mem_append_left _ (h5 q hq)
        · have hpe : p = (s.fresh, ⟨some (rd c (c.length - 1)), v, none⟩) := by simpa using hr
          rw [hpe]
          exact List.mem_append_right _ (List.mem_singleton.mpr rfl)
      · show (List.map Prod.fst
          (hupd s.heap (rd c (c.length - 1)) (fun nd => ⟨nd.previous, nd.data, some s.fresh⟩)
            ++ [(s.fresh, ⟨some (rd c (c.length - 1)), v, none⟩)])).Nodup
        rw [List.map_append, keys_hupd,
          show List.map Prod.fst [(s.fresh, (⟨some (rd c (c.length - 1)), v, none⟩ : PNode))]
            = [s.fresh] from rfl]
        exact keys_snoc_nodup _ _ h6 hfkeys
      · show chainOk
          (hupd s.heap (rd c (c.length - 1)) (fun nd => ⟨nd.previous, nd.data, some s.fresh⟩)
            ++ [(s.fresh, ⟨some (rd c (c.length - 1)), v, none⟩)]) none (c ++ [s.fresh]) none
        exact chainOk_append_tail s.heap c s.fresh v h4 hfc hfk h7 hcne
      · intro a ha
        show a < s.fresh + 1
        rcases List.mem_append.mp ha with hl | hr
        · exact Nat.lt_succ_of_lt (h8 a hl)
        · rw [List.mem_singleton.mp hr]
          omega
  · rw [if_neg hieq]
    have hi' : i < s.size := by omega
    have hlen : 0 < c.length := by omega
    have hcne : c ≠ [] := List.length_pos.mp hlen
    have hP : tIdx s.size i < c.length := by
      rw [← h1]
      exact tIdx_lt s.size i hi'
    have htr := ptraverse_chain s c hrep i hi'
    obtain ⟨nN, hfN, hpN, hnN⟩ := h7 (tIdx s.size i) hP
    rw [htr]
    show resWf (.ok (match hfind s.heap (rd c (tIdx s.size i)) with
      | none => none
      | some nxtN =>
        let heap1 := s.heap ++ [(s.fresh, ⟨nxtN.previous, v, some (rd c (tIdx s.size i))⟩)]
        let heap2 :=
          match nxtN.previous with
          | some pr => hupd heap1 pr (fun nd => ⟨nd.previous, nd.data, some s.fresh⟩)
          | none => heap1
        let heap3 := hupd heap2 (rd c (tIdx s.size i))
          (fun nd => ⟨some s.fresh, nd.data, nd.next⟩)
        let head2 :=
          match nxtN.previous with
          | some _ => s.head
          | none => some s.fresh
        some ⟨s.size + 1, head2, s.tail, heap3, s.fresh + 1⟩))
    rw [hfN]
    show resWf (.ok (some ⟨s.size + 1,
      (match nN.previous with | some _ => s.head | none => some s.fresh),
      s.tail,
      hupd (match nN.previous with
        | some pr => hupd
            (s.heap ++ [(s.fresh, ⟨nN.previous, v, some (rd c (tIdx s.size i))⟩)])
            pr (fun nd => ⟨nd.previous, nd.data, some s.fresh⟩)
        | none => s.heap ++ [(s.fresh, ⟨nN.previous, v, some (rd c (tIdx s.size i))⟩)])
        (rd c (tIdx s.size i)) (fun nd => ⟨some s.fresh, nd.data, nd.next⟩),
      s.fresh + 1⟩))
    by_cases hP0 : tIdx s.size i = 0
    · have hpN' : nN.previous = none := by rw [hpN, if_pos hP0]
      rw [hpN']
      show wf ⟨s.size + 1, some s.fresh, s.tail,
        hupd (s.heap ++ [(s.fresh, ⟨none, v, some (rd c (tIdx s.size i))⟩)])
          (rd c (tIdx s.size i)) (fun nd => ⟨some s.fresh, nd.data, nd.next⟩), s.fresh + 1⟩
      rw [hP0]
      refine ⟨s.fresh :: c, reprB_intro _ _ ?_ rfl ?_ ?_ ?_ ?_ ?_ ?_⟩
      · show s.size + 1 = (s.fresh :: c).length
        show s.size + 1 = c.length + 1
        omega
      · show s.tail = (s.fresh :: c).getLast?
        rw [h3, getLast?_eq_rd c hcne, getLast?_eq_rd (s.fresh :: c) (by simp),
          show (s.fresh :: c).length - 1 = (c.length - 1) + 1 by simp; omega, rd_cons_succ]
      · rw [List.nodup_cons]
        exact ⟨hfc, h4⟩
      · intro p hp
        replace hp : p ∈ hupd (s.heap ++ [(s.fresh, ⟨none, v, some (rd c 0)⟩)])
            (rd c 0) (fun nd => ⟨some s.fresh, nd.data, nd.next⟩) := hp
        obtain ⟨q, hq, he⟩ := mem_hupd _ _ _ p hp
        rw [he]
        rcases List.mem_append.mp hq with hl | hr
        · exact List.mem_cons_of_mem _ (h5 q hl)
        · have hqe : q = (s.fresh, ⟨none, v, some (rd c 0)⟩) := by simpa using hr
          rw [hqe]
          exact List.mem_cons_self _ _
      · show (List.map Prod.fst (hupd (s.heap ++ [(s.fresh, ⟨none, v, some (rd c 0)⟩)])
          (rd c 0) (fun nd => ⟨some s.fresh, nd.data, nd.next⟩))).Nodup
        rw [keys_hupd, List.map_append,
          show List.map Prod.fst [(s.fresh, (⟨none, v, some (rd c 0)⟩ : PNode))]
            = [s.fresh] from rfl]
        exact keys_snoc_nodup _ _ h6 hfkeys
      · show chainOk (hupd (s.heap ++ [(s.fresh, ⟨none, v, some (rd c 0)⟩)])
          (rd c 0) (fun nd => ⟨some s.fresh, nd.data, nd.next⟩)) none (s.fresh :: c) none
        exact chainOk_insert_head s.heap c s.fresh v h4 hfc hfk h7 hcne
      · intro a ha
        show a < s.fresh + 1
        rcases List.mem_cons.mp ha with he | hm
        · omega
        · exact Nat.lt_succ_of_lt (h8 a hm)
    · have hP1 : 1 ≤ tIdx s.size i := by omega
      have hpN' : nN.previous = some (rd c (tIdx s.size i - 1)) := by
        rw [hpN, if_neg hP0]
      rw [hpN']
      show wf ⟨s.size + 1, s.head, s.tail,
        hupd (hupd
            (s.heap ++ [(s.fresh, ⟨some (rd c (tIdx s.size i - 1)), v,
              some (rd c (tIdx s.size i))⟩)])
            (rd c (tIdx s.size i - 1)) (fun nd => ⟨nd.previous, nd.data, some s.fresh⟩))
          (rd c (tIdx s.size i)) (fun nd => ⟨some s.fresh, nd.data, nd.next⟩), s.fresh + 1⟩
      have hc'ne : c.take (tIdx s.size i) ++ s.fresh :: c.drop (tIdx s.size i) ≠ [] := by
        simp
      refine ⟨c.take (tIdx s.size i) ++ s.fresh :: c.drop (tIdx s.size i),
        reprB_intro _ _ ?_ ?_ ?_ ?_ ?_ ?_ ?_ ?_⟩
      · show s.size + 1
          = (c.take (tIdx s.size i) ++ s.fresh :: c.drop (tIdx s.size i)).length
        simp
        omega
      · show s.head = (c.take (tIdx s.size i) ++ s.fresh :: c.drop (tIdx s.size i)).head?
        rw [h2, head?_eq_rd c hcne, head?_eq_rd _ hc'ne,
          rd_insertChain c s.fresh (tIdx s.size i) 0 (by omega), if_pos (by omega)]
      · show s.tail = (c.take (tIdx s.size i) ++ s.fresh :: c.drop (tIdx s.size i)).getLast?
        rw [h3, getLast?_eq_rd c hcne, getLast?_eq_rd _ hc'ne,
          show (c.take (tIdx s.size i) ++ s.fresh :: c.drop (tIdx s.size i)).length - 1
            = c.length from by simp; omega,
          rd_insertChain c s.fresh (tIdx s.size i) c.length (by omega),
          if_neg (by omega), if_neg (by omega)]
      · exact nodup_insertChain c s.fresh (tIdx s.size i) h4 hfc
      · intro p hp
        replace hp : p ∈ hupd (hupd
            (s.heap ++ [(s.fresh, ⟨some (rd c (tIdx s.size i - 1)), v,
              some (rd c (tIdx s.size i))⟩)])
            (rd c (tIdx s.size i - 1)) (fun nd => ⟨nd.previous, nd.data, some s.fresh⟩))
          (rd c (tIdx s.size i)) (fun nd => ⟨some s.fresh, nd.data, nd.next⟩) := hp
        obtain ⟨q, hq, he⟩ := mem_hupd _ _ _ p hp
        obtain ⟨q', hq', he'⟩ := mem_hupd _ _ _ q hq
        rw [he, he']
        rcases List.mem_append.mp hq' with hl | hr
        · exact mem_insertChain c s.fresh (tIdx s.size i) q'.1 (h5 q' hl)
        · have hqe : q' = (s.fresh, ⟨some (rd c (tIdx s.size i - 1)), v,
              some (rd c (tIdx s.size i))⟩) := by simpa using hr
          rw [hqe]
          exact List.mem_append_right _ (List.mem_cons_self _ _)
      · show (List.map Prod.fst (hupd (hupd
            (s.heap ++ [(s.fresh, ⟨some (rd c (tIdx s.size i - 1)), v,
              some (rd c (tIdx s.size i))⟩)])
            (rd c (tIdx s.size i - 1)) (fun nd => ⟨nd.previous, nd.data, some s.fresh⟩))
          (rd c (tIdx s.size i)) (fun nd => ⟨some s.fresh, nd.data, nd.next⟩))).Nodup
        rw [keys_hupd, keys_hupd, List.map_append,
          show List.map Prod.fst [(s.fresh, (⟨some (rd c (tIdx s.size i - 1)), v,
            some (rd c (tIdx s.size i))⟩ : PNode))] = [s.fresh] from rfl]
        exact keys_snoc_nodup _ _ h6 hfkeys
      · show chainOk (hupd (hupd
            (s.heap ++ [(s.fresh, ⟨some (rd c (tIdx s.size i - 1)), v,
              some (rd c (tIdx s.size i))⟩)])
            (rd c (tIdx s.size i - 1)) (fun nd => ⟨nd.previous, nd.data, some s.fresh⟩))
          (rd c (tIdx s.size i)) (fun nd => ⟨some s.fresh, nd.data, nd.next⟩))
          none (c.take (tIdx s.size i) ++ s.fresh :: c.drop (tIdx s.size i)) none
        exact chainOk_insert_mid s.heap c s.fresh v (tIdx s.size i) h4 hfc hfk h7 hP1 hP
      · intro a ha
        show a < s.fresh + 1
        rcases List.mem_append.mp ha with hl | hr
        · exact Nat.lt_succ_of_lt (h8 a (List.take_subset _ c hl))
        · rcases List.mem_cons.mp hr with he | hm
          · omega
          · exact Nat.lt_succ_of_lt (h8 a (List.drop_subset _ c hm))

/-! ### `Erase` preserves the structure -/

theorem mem_drop_one (c : List Nat) (a : Nat) (ha : a ∈ c) (hne : a ≠ rd c 0) :
    a ∈ c.drop 1 := by
  obtain ⟨k, hk, hrd⟩ := mem_exists_rd c a ha
  have hk0 : k ≠ 0 := fun h0 => hne (by rw [← hrd, h0])
  have he : rd (c.drop 1) (k - 1) = a := by
    rw [rd_drop, show (1 : Nat) + (k - 1) = k by omega, hrd]
  rw [← he]
  exact rd_mem _ _ (by rw [List.length_drop]; omega)

theorem mem_take_last (c : List Nat) (a : Nat) (ha : a ∈ c)
    (hne : a ≠ rd c (c.length - 1)) : a ∈ c.take (c.length - 1) := by
  obtain ⟨k, hk, hrd⟩ := mem_exists_rd c a ha
  have hkl : k ≠ c.length - 1 := fun h0 => hne (by rw [← hrd, h0])
  have he : rd (c.take (c.length - 1)) k = a := by
    rw [rd_take c (c.length - 1) k (by omega), hrd]
  rw [← he]
  exact rd_mem _ _ (by rw [List.length_take]; omega)

theorem mem_eraseChain (c : List Nat) (P a : Nat) (hP : P < c.length) (ha : a ∈ c)
    (hne : a ≠ rd c P) : a ∈ c.take P ++ c.drop (P + 1) := by
  obtain ⟨k, hk, hrd⟩ := mem_exists_rd c a ha
  have hkP : k ≠ P := fun h0 => hne (by rw [← hrd, h0])
  by_cases hlt : k < P
  · refine List.mem_append_left _ ?_
    have he : rd (c.take P) k = a := by rw [rd_take c P k hlt, hrd]
    rw [← he]
    exact rd_mem _ _ (by rw [List.length_take]; omega)
  · refine List.mem_append_right _ ?_
    have he : rd (c.drop (P + 1)) (k - P - 1) = a := by
      rw [rd_drop, show P + 1 + (k - P - 1) = k by omega, hrd]
    rw [← he]
    exact rd_mem _ _ (by rw [List.length_drop]; omega)

theorem erase_sublist_chain (c : List Nat) (P : Nat) :
    List.Sublist (c.take P ++ c.drop (P + 1)) c := by
  have h' : List.Sublist (c.drop (P + 1)) (c.drop P) := by
    rw [← List.drop_drop]
    exact List.drop_sublist 1 (c.drop P)
  have h'' := List.Sublist.append_left h' (c.take P)
  rw [List.take_append_drop] at h''
  exact h''

theorem perase_wf (s : PState) (c : List Nat) (hrep : reprB s c = true)
    (i : Nat) (hi : i < s.size) : resWf (perase s i) := by
  obtain ⟨h1, h2, h3, h4, h5, h6, h7, h8⟩ := reprB_elim s c hrep
  have hlen : 0 < c.length := by omega
  have hcne : c ≠ [] := List.length_pos.mp hlen
  have hh : s.head = some (rd c 0) := by rw [h2, head?_eq_rd c hcne]
  have ht : s.tail = some (rd c (c.length - 1)) := by rw [h3, getLast?_eq_rd c hcne]
  unfold perase
  rw [if_pos hi]
  by_cases hi0 : i = 0
  · rw [if_pos hi0]
    by_cases hsz1 : s.size = 1
    · rw [if_pos hsz1, hh]
      show wf ⟨0, none, none, hrem s.heap (rd c 0), s.fresh⟩
      have hre : hrem s.heap (rd c 0) = [] := by
        rw [hrem, List.filter_eq_nil_iff]
        intro p hp
        have hpc := h5 p hp
        obtain ⟨k, hk, hrd⟩ := mem_exists_rd c p.1 hpc
        have hk0 : k = 0 := by omega
        subst hk0
        simp [hrd]
      rw [hre]
      exact ⟨[], by rfl⟩
    · rw [if_neg hsz1, hh]
      have hn2 : 2 ≤ c.length := by omega
      obtain ⟨nd0, hfd0, _, hn0⟩ := h7 0 (by omega)
      show resWf (.ok (match (hfind s.heap (rd c 0)).bind (fun nd => nd.next) with
        | none => none
        | some a1 =>
          some ⟨s.size - 1, some a1, s.tail,
            hupd (hrem s.heap (rd c 0)) a1 (fun nd => ⟨none, nd.data, nd.next⟩), s.fresh⟩))
      rw [hfd0]
      show resWf (.ok (match nd0.next with
        | none => none
        | some a1 =>
          some ⟨s.size - 1, some a1, s.tail,
            hupd (hrem s.heap (rd c 0)) a1 (fun nd => ⟨none, nd.data, nd.next⟩), s.fresh⟩))
      rw [hn0, if_pos (by omega : 0 + 1 < c.length)]
      show wf ⟨s.size - 1, some (rd c 1), s.tail,
        hupd (hrem s.heap (rd c 0)) (rd c 1) (fun nd => ⟨none, nd.data, nd.next⟩), s.fresh⟩
      have hdne : c.drop 1 ≠ [] := List.length_pos.mp (by rw [List.length_drop]; omega)
      refine ⟨c.drop 1, reprB_intro _ _ ?_ ?_ ?_ ?_ ?_ ?_ ?_ ?_⟩
      · show s.size - 1 = (c.drop 1).length
        rw [List.length_drop]
        omega
      · show (some (rd c 1) : Option Nat) = (c.drop 1).head?
        rw [head?_eq_rd _ hdne, rd_drop]
      · show s.tail = (c.drop 1).getLast?
        rw [ht, getLast?_eq_rd _ hdne, List.length_drop, rd_drop,
          show (1 : Nat) + (c.length - 1 - 1) = c.length - 1 by omega]
      · exact (List.drop_sublist 1 c).nodup h4
      · intro p hp
        replace hp : p ∈ hupd (hrem s.heap (rd c 0)) (rd c 1)
            (fun nd => ⟨none, nd.data, nd.next⟩) := hp
        obtain ⟨q, hq, he⟩ := mem_hupd _ _ _ p hp
        have hq' := List.mem_filter.mp hq
        rw [he]
        exact mem_drop_one c q.1 (h5 q hq'.1) (by simpa using hq'.2)
      · show (List.map Prod.fst (hupd (hrem s.heap (rd c 0)) (rd c 1)
          (fun nd => ⟨none, nd.data, nd.next⟩))).Nodup
        rw [keys_hupd, keys_hrem]
        exact List.Nodup.filter _ h6
      · show chainOk (hupd (hrem s.heap (rd c 0)) (rd c 1)
          (fun nd => ⟨none, nd.data, nd.next⟩)) none (c.drop 1) none
        exact chainOk_erase_head s.heap c h4 h7 hn2
      · intro a ha
        show a < s.fresh
        exact h8 a (List.drop_subset 1 c ha)
  · rw [if_neg hi0]
    by_cases hil : i = s.size - 1
    · rw [if_pos hil, ht]
      have hn2 : 2 ≤ c.length := by omega
      obtain ⟨ndl, hfdl, hpl, _⟩ := h7 (c.length - 1) (by omega)
      show resWf (.ok (match (hfind s.heap (rd c (c.length - 1))).bind
          (fun nd => nd.previous) with
        | none => none
        | some t1 =>
          some ⟨s.size - 1, s.head, some t1,
            hupd (hrem s.heap (rd c (c.length - 1))) t1
              (fun nd => ⟨nd.previous, nd.data, none⟩), s.fresh⟩))
      rw [hfdl]
      show resWf (.ok (match ndl.previous with
        | none => none
        | some t1 =>
          some ⟨s.size - 1, s.head, some t1,
            hupd (hrem s.heap (rd c (c.length - 1))) t1
              (fun nd => ⟨nd.previous, nd.data, none⟩), s.fresh⟩))
      rw [hpl, if_neg (by omega : ¬ c.length - 1 = 0),
        show c.length - 1 - 1 = c.length - 2 by omega]
      show wf ⟨s.size - 1, s.head, some (rd c (c.length - 2)),
        hupd (hrem s.heap (rd c (c.length - 1))) (rd c (c.length - 2))
          (fun nd => ⟨nd.previous, nd.data, none⟩), s.fresh⟩
      have htne : c.take (c.length - 1) ≠ [] :=
        List.length_pos.mp (by rw [List.length_take]; omega)
      refine ⟨c.take (c.length - 1), reprB_intro _ _ ?_ ?_ ?_ ?_ ?_ ?_ ?_ ?_⟩
      · show s.size - 1 = (c.take (c.length - 1)).length
        rw [List.length_take]
        omega
      · show s.head = (c.take (c.length - 1)).head?
        rw [hh, head?_eq_rd _ htne, rd_take c (c.length - 1) 0 (by omega)]
      · show (some (rd c (c.length - 2)) : Option Nat) = (c.take (c.length - 1)).getLast?
        rw [getLast?_eq_rd _ htne, List.length_take,
          show min (c.length - 1) c.length - 1 = c.length - 2 by omega,
          rd_take c (c.length - 1) (c.length - 2) (by omega)]
      · exact (List.take_sublist _ c).nodup h4
      · intro p hp
        replace hp : p ∈ hupd (hrem s.heap (rd c (c.length - 1))) (rd c (c.length - 2))
            (fun nd => ⟨nd.previous, nd.data, none⟩) := hp
        obtain ⟨q, hq, he⟩ := mem_hupd _ _ _ p hp
        have hq' := List.mem_filter.mp hq
        rw [he]
        exact mem_take_last c q.1 (h5 q hq'.1) (by simpa using hq'.2)
      · show (List.map Prod.fst (hupd (hrem s.heap (rd c (c.length - 1)))
          (rd c (c.length - 2)) (fun nd => ⟨nd.previous, nd.data, none⟩))).Nodup
        rw [keys_hupd, keys_hrem]
        exact List.Nodup.filter _ h6
      · show chainOk (hupd (hrem s.heap (rd c (c.length - 1))) (rd c (c.length - 2))
          (fun nd => ⟨nd.previous, nd.data, none⟩)) none (c.take (c.length - 1)) none
        exact chainOk_erase_tail s.heap c h4 h7 hn2
      · intro a ha
        show a < s.fresh
        exact h8 a (List.take_subset _ c ha)
    · rw [if_neg hil]
      have hn3 : 3 ≤ c.length := by omega
      have hPb : 1 ≤ tIdx s.size i ∧ tIdx s.size i ≤ s.size - 2 := by
        rw [tIdx_eq s.size i hi]
        by_cases hb : s.size / 2 < i
        · rw [if_pos hb, if_neg (by omega : ¬ i = s.size - 1)]
          omega
        · rw [if_neg hb]
          omega
      have hP : tIdx s.size i < c.length := by omega
      have htr := ptraverse_chain s c hrep i hi
      obtain ⟨nP, hfP, hpP, hnP⟩ := h7 (tIdx s.size i) hP
      obtain ⟨nQ, hfQ, hpQ, hnQ⟩ := h7 (tIdx s.size i + 1) (by omega)
      rw [htr]
      show resWf (.ok
        (match (hfind s.heap (rd c (tIdx s.size i))).bind (fun nd => nd.next) with
        | none => none
        | some nx =>
          match (hfind s.heap nx).bind (fun nd => nd.previous) with
          | none => none
          | some victim =>
            match hfind s.heap victim with
            | none => none
            | some vn =>
              let heap1 := hupd (hrem s.heap victim) nx
                (fun nd => ⟨vn.previous, nd.data, nd.next⟩)
              let heap2 :=
                match vn.previous with
                | none => heap1
                | some p => hupd heap1 p (fun nd => ⟨nd.previous, nd.data, some nx⟩)
              some ⟨s.size - 1, s.head, s.tail, heap2, s.fresh⟩))
      rw [hfP]
      show resWf (.ok
        (match nP.next with
        | none => none
        | some nx =>
          match (hfind s.heap nx).bind (fun nd => nd.previous) with
          | none => none
          | some victim =>
            match hfind s.heap victim with
            | none => none
            | some vn =>
              let heap1 := hupd (hrem s.heap victim) nx
                (fun nd => ⟨vn.previous, nd.data, nd.next⟩)
              let heap2 :=
                match vn.previous with
                | none => heap1
                | some p => hupd heap1 p (fun nd => ⟨nd.previous, nd.data, some nx⟩)
              some ⟨s.size - 1, s.head, s.tail, heap2, s.fresh⟩))
      rw [hnP, if_pos (by omega : tIdx s.size i + 1 < c.length)]
      show resWf (.ok
        (match (hfind s.heap (rd c (tIdx s.size i + 1))).bind (fun nd => nd.previous) with
        | none => none
        | some victim =>
          match hfind s.heap victim with
          | none => none
          | some vn =>
            let heap1 := hupd (hrem s.heap victim) (rd c (tIdx s.size i + 1))
              (fun nd => ⟨vn.previous, nd.data, nd.next⟩)
            let heap2 :=
              match vn.previous with
              | none => heap1
              | some p => hupd heap1 p
                  (fun nd => ⟨nd.previous, nd.data, some (rd c (tIdx s.size i + 1))⟩)
            some ⟨s.size - 1, s.head, s.tail, heap2, s.fresh⟩))
      rw [hfQ]
      show resWf (.ok
        (match nQ.previous with
        | none => none
        | some victim =>
          match hfind s.heap victim with
          | none => none
          | some vn =>
            let heap1 := hupd (hrem s.heap victim) (rd c (tIdx s.size i + 1))
              (fun nd => ⟨vn.previous, nd.data, nd.next⟩)
            let heap2 :=
              match vn.previous with
              | none => heap1
              | some p => hupd heap1 p
                  (fun nd => ⟨nd.previous, nd.data, some (rd c (tIdx s.size i + 1))⟩)
            some ⟨s.size - 1, s.head, s.tail, heap2, s.fresh⟩))
      rw [hpQ, if_neg (by omega : ¬ tIdx s.size i + 1 = 0),
        show tIdx s.size i + 1 - 1 = tIdx s.size i from rfl]
      show resWf (.ok
        (match hfind s.heap (rd c (tIdx s.size i)) with
        | none => none
        | some vn =>
          let heap1 := hupd (hrem s.heap (rd c (tIdx s.size i))) (rd c (tIdx s.size i + 1))
            (fun nd => ⟨vn.previous, nd.data, nd.next⟩)
          let heap2 :=
            match vn.previous with
            | none => heap1
            | some p => hupd heap1 p
                (fun nd => ⟨nd.previous, nd.data, some (rd c (tIdx s.size i + 1))⟩)
          some ⟨s.size - 1, s.head, s.tail, heap2, s.fresh⟩))
      rw [hfP]
      show resWf (.ok (some ⟨s.size - 1, s.head, s.tail,
        (match nP.previous with
        | none => hupd (hrem s.heap (rd c (tIdx s.size i))) (rd c (tIdx s.size i + 1))
            (fun nd => ⟨nP.previous, nd.data, nd.next⟩)
        | some p => hupd
            (hupd (hrem s.heap (rd c (tIdx s.size i))) (rd c (tIdx s.size i + 1))
              (fun nd => ⟨nP.previous, nd.data, nd.next⟩))
            p (fun nd => ⟨nd.previous, nd.data, some (rd c (tIdx s.size i + 1))⟩)),
        s.fresh⟩))
      rw [hpP, if_neg (by omega : ¬ tIdx s.size i = 0)]
      show wf ⟨s.size - 1, s.head, s.tail,
        hupd (hupd (hrem s.heap (rd c (tIdx s.size i))) (rd c (tIdx s.size i + 1))
            (fun nd => ⟨some (rd c (tIdx s.size i - 1)), nd.data, nd.next⟩))
          (rd c (tIdx s.size i - 1))
          (fun nd => ⟨nd.previous, nd.data, some (rd c (tIdx s.size i + 1))⟩), s.fresh⟩
      have hc'ne : c.take (tIdx s.size i) ++ c.drop (tIdx s.size i + 1) ≠ [] :=
        List.length_pos.mp (by simp; omega)
      refine ⟨c.take (tIdx s.size i) ++ c.drop (tIdx s.size i + 1),
        reprB_intro _ _ ?_ ?_ ?_ ?_ ?_ ?_ ?_ ?_⟩
      · show s.size - 1 = (c.take (tIdx s.size i) ++ c.drop (tIdx s.size i + 1)).length
        simp
        omega
      · show s.head = (c.take (tIdx s.size i) ++ c.drop (tIdx s.size i + 1)).head?
        rw [hh, head?_eq_rd _ hc'ne, rd_eraseChain c (tIdx s.size i) 0 (by omega),
          if_pos (by omega)]
      · show s.tail = (c.take (tIdx s.size i) ++ c.drop (tIdx s.size i + 1)).getLast?
        rw [ht, getLast?_eq_rd _ hc'ne,
          show (c.take (tIdx s.size i) ++ c.drop (tIdx s.size i + 1)).length - 1
            = c.length - 2 from by simp; omega,
          rd_eraseChain c (tIdx s.size i) (c.length - 2) (by omega),
          if_neg (by omega), show c.length - 2 + 1 = c.length - 1 by omega]
      · exact (erase_sublist_chain c (tIdx s.size i)).nodup h4
      · intro p hp
        replace hp : p ∈ hupd
            (hupd (hrem s.heap (rd c (tIdx s.size i))) (rd c (tIdx s.size i + 1))
              (fun nd => ⟨some (rd c (tIdx s.size i - 1)), nd.data, nd.next⟩))
            (rd c (tIdx s.size i - 1))
            (fun nd => ⟨nd.previous, nd.data, some (rd c (tIdx s.size i + 1))⟩) := hp
        obtain ⟨q, hq, he⟩ := mem_hupd _ _ _ p hp
        obtain ⟨q', hq', he'⟩ := mem_hupd _ _ _ q hq
        have hq'' := List.mem_filter.mp hq'
        rw [he, he']
        exact mem_eraseChain c (tIdx s.size i) q'.1 hP (h5 q' hq''.1)
          (by simpa using hq''.2)
      · show (List.map Prod.fst (hupd
          (hupd (hrem s.heap (rd c (tIdx s.size i))) (rd c (tIdx s.size i + 1))
            (fun nd => ⟨some (rd c (tIdx s.size i - 1)), nd.data, nd.next⟩))
          (rd c (tIdx s.size i - 1))
          (fun nd => ⟨nd.previous, nd.data, some (rd c (tIdx s.size i + 1))⟩))).Nodup
        rw [keys_hupd, keys_hupd, keys_hrem]
        exact List.Nodup.filter _ h6
      · show chainOk (hupd
          (hupd (hrem s.heap (rd c (tIdx s.size i))) (rd c (tIdx s.size i + 1))
            (fun nd => ⟨some (rd c (tIdx s.size i - 1)), nd.data, nd.next⟩))
          (rd c (tIdx s.size i - 1))
          (fun nd => ⟨nd.previous, nd.data, some (rd c (tIdx s.size i + 1))⟩))
          none (c.take (tIdx s.size i) ++ c.drop (tIdx s.size i + 1)) none
        exact chainOk_erase_mid s.heap c (tIdx s.size i) h4 h7 hPb.1 (by omega)
      · intro a ha
        show a < s.fresh
        rcases List.mem_append.mp ha with hl | hr
        · exact h8 a (List.take_subset _ c hl)
        · exact h8 a (List.drop_subset _ c hr)

/-- C8: every public mutating `List` operation preserves the structural
invariant, and in every well-formed pointer state the invariant's clauses
hold: `size == 0` iff `head` and `tail` are null; in a non-empty list,
following `next` from `head` exactly `size - 1` times reaches `tail` and
following `previous` from `tail` exactly `size - 1` times reaches `head`;
and every node's `next->previous` and `previous->next` point back at the
node itself.  `Insert` (valid index up to `size`), `Erase`, `Set` and
`Swap` (valid indices) and `Clear` each leave the list well-formed. -/
theorem c8_structural_invariant (s : PState) (c : List Nat) (hrep : reprB s c = true)
    (i j v : Nat) :
    invariantClauses s
    ∧ (i ≤ s.size → resWf (pinsert s i v))
    ∧ (i < s.size → resWf (perase s i))
    ∧ wf (pclear s)
    ∧ (i < s.size → resWf (pset s i v))
    ∧ (i < s.size → j < s.size → resWf (pswap s i j)) :=
  ⟨wf_invariantClauses s c hrep,
    fun hi => pinsert_wf s c hrep i v hi,
    fun hi => perase_wf s c hrep i hi,
    ⟨[], pclear_wf s c hrep⟩,
    fun hi => pset_wf s c hrep i v hi,
    fun hi hj => pswap_wf s c hrep i j hi hj⟩

/-- Witness for `c8_structural_invariant`: a concrete two-node list
`[5, 7]` at addresses `0` and `1`; the invariant clauses hold and
`Insert`, `Erase`, `Clear`, `Set` and `Swap` all keep it well-formed. -/
theorem c8_structural_invariant_witness :
    invariantClauses ⟨2, some 0, some 1,
      [(0, ⟨none, 5, some 1⟩), (1, ⟨some 0, 7, none⟩)], 2⟩
    ∧ resWf (pinsert ⟨2, some 0, some 1,
      [(0, ⟨none, 5, some 1⟩), (1, ⟨some 0, 7, none⟩)], 2⟩ 1 9)
    ∧ resWf (perase ⟨2, some 0, some 1,
      [(0, ⟨none, 5, some 1⟩), (1, ⟨some 0, 7, none⟩)], 2⟩ 1)
    ∧ wf (pclear ⟨2, some 0, some 1,
      [(0, ⟨none, 5, some 1⟩), (1, ⟨some 0, 7, none⟩)], 2⟩)
    ∧ resWf (pset ⟨2, some 0, some 1,
      [(0, ⟨none, 5, some 1⟩), (1, ⟨some 0, 7, none⟩)], 2⟩ 1 9)
    ∧ resWf (pswap ⟨2, some 0, some 1,
      [(0, ⟨none, 5, some 1⟩), (1, ⟨some 0, 7, none⟩)], 2⟩ 1 0) :=
  have h := c8_structural_invariant
    ⟨2, some 0, some 1, [(0, ⟨none, 5, some 1⟩), (1, ⟨some 0, 7, none⟩)], 2⟩
    [0, 1] (by decide) 1 0 9
  ⟨h.1, h.2.1 (by decide), h.2.2.1 (by decide), h.2.2.2.1,
    h.2.2.2.2.1 (by decide), h.2.2.2.2.2 (by decide) (by decide)⟩


end Toolbox
